import Mathlib

/-!
Verification of the transactional storage core of the rucbase repository
(slotted-page heap files, B+ tree index, hierarchical lock manager,
transaction manager with logical undo) against its natural-language
specification.

Each subsystem is shallowly embedded as executable Lean definitions that
follow the corresponding C++ source:

* `RM`  — record manager (`src/record/rm_file_handle.cpp`)
* `LM`  — lock manager (`src/transaction/concurrency/lock_manager.cpp`,
          `src/transaction/txn_defs.h`)
* `TM`  — transaction manager abort path (`transaction_manager.cpp`)
* `IX`  — B+ tree index (`ix_index_handle.cpp`)

Machine integers of the source are modelled as `Int`/`Nat` (none of the
relevant quantities can overflow in the scenarios the theorems cover),
fallible operations return `Except`, and the page stores are association
lists so that every operation is executable.
-/

namespace RM

/-- Sentinel for "no page" in heap-file freelists (`RM_NO_PAGE`). -/
def RM_NO_PAGE : Int := -1

/-- First non-header page of a heap file (`RM_FIRST_RECORD_PAGE`). -/
def RM_FIRST_RECORD_PAGE : Int := 1

/-- Record payload bytes, modelled as a list of integers. -/
abbrev Bytes := List Int

/-- Record id: `(page_no, slot_no)` (struct `Rid`). -/
structure Rid where
  page_no : Int
  slot_no : Int
deriving DecidableEq, Repr

/-- Heap page header (`RmPageHdr`): slot count and freelist thread. -/
structure RmPageHdr where
  next_free_page_no : Int
  num_records : Nat
deriving DecidableEq, Repr

/-- A record page: header, occupancy bitmap, fixed-width slots. -/
structure RmPage where
  hdr : RmPageHdr
  bitmap : List Bool
  slots : List Bytes
deriving DecidableEq, Repr

/-- Heap file header (`RmFileHdr`): page count, slots per page, freelist head. -/
structure RmFileHdr where
  num_records_per_page : Nat
  num_pages : Nat
  first_free_page_no : Int
deriving DecidableEq, Repr

/-- A heap file: header plus its record pages.  Index `i` of `pages` holds
page number `i + 1`; page `0` is the file-header page of the on-disk format. -/
structure RmFile where
  file_hdr : RmFileHdr
  pages : List RmPage
deriving DecidableEq, Repr

/-- Fetch the record page with the given page number, if it exists. -/
def getPage (f : RmFile) (page_no : Int) : Option RmPage :=
  if page_no < RM_FIRST_RECORD_PAGE then none
  else f.pages[(page_no - 1).toNat]?

/-- Overwrite the record page with the given page number. -/
def setPage (f : RmFile) (page_no : Int) (p : RmPage) : RmFile :=
  { f with pages := f.pages.set (page_no - 1).toNat p }

/-- `Bitmap::is_set`. -/
def bitmapIsSet (b : List Bool) (i : Int) : Bool :=
  b[i.toNat]?.getD false

/-- `Bitmap::set`. -/
def bitmapSet (b : List Bool) (i : Int) : List Bool :=
  b.set i.toNat true

/-- `Bitmap::reset`. -/
def bitmapReset (b : List Bool) (i : Int) : List Bool :=
  b.set i.toNat false

/-- `Bitmap::first_bit(false, bitmap, max)`: the lowest-index clear bit,
or `max` when every bit in `[0, max)` is set.  The bitmap always has
length `num_records_per_page` here, so the scan bound is the length. -/
def firstClearBit (b : List Bool) : Nat :=
  b.findIdx (· = false)

/-- `RmFileHandle::get_record`: validate the rid, then read the slot. -/
def get_record (f : RmFile) (rid : Rid) : Except String Bytes :=
  if rid.page_no < RM_FIRST_RECORD_PAGE ∨ (f.file_hdr.num_pages : Int) ≤ rid.page_no then
    .error "Invalid page number"
  else match getPage f rid.page_no with
  | none => .error "Page not exists"
  | some page =>
    if rid.slot_no < 0 ∨ (f.file_hdr.num_records_per_page : Int) ≤ rid.slot_no then
      .error "Invalid slot number"
    else if ¬ bitmapIsSet page.bitmap rid.slot_no then
      .error "Record not exists"
    else
      .ok (page.slots.getD rid.slot_no.toNat [])

/-- `RmFileHandle::create_new_page_handle`: allocate a fresh record page
(page number `num_pages`, matching the disk manager's allocation counter),
zero its bitmap, push it onto the head of the freelist and bump
`num_pages`. Returns the new page number. -/
def create_new_page_handle (f : RmFile) : RmFile × Int :=
  let new_page_no : Int := f.file_hdr.num_pages
  let rpp := f.file_hdr.num_records_per_page
  let page : RmPage :=
    { hdr := { next_free_page_no := f.file_hdr.first_free_page_no, num_records := 0 }
      bitmap := List.replicate rpp false
      slots := List.replicate rpp [] }
  let f' : RmFile :=
    { file_hdr := { f.file_hdr with
        num_pages := f.file_hdr.num_pages + 1
        first_free_page_no := new_page_no }
      pages := f.pages ++ [page] }
  (f', new_page_no)

/-- `RmFileHandle::create_page_handle`: head of the freelist, or a freshly
created page when the freelist is empty. -/
def create_page_handle (f : RmFile) : Except String (RmFile × Int) :=
  if f.file_hdr.first_free_page_no = RM_NO_PAGE then
    .ok (create_new_page_handle f)
  else
    if f.file_hdr.first_free_page_no < 0 ∨
        (f.file_hdr.num_pages : Int) ≤ f.file_hdr.first_free_page_no then
      .error "Invalid free page number"
    else
      .ok (f, f.file_hdr.first_free_page_no)

/-- The body of `RmFileHandle::insert_record(char*, Context*)` after the
call to `create_page_handle`: find the lowest-index clear slot of the
drawn page, fill it, and unlink the page from the freelist head when it
became full. -/
def insertFill (f₁ : RmFile) (page_no : Int) (buf : Bytes) :
    Except String (Rid × RmFile) :=
  match getPage f₁ page_no with
  | none => .error "Page not exists"
  | some page =>
    let rpp := f₁.file_hdr.num_records_per_page
    let slot_no := firstClearBit page.bitmap
    if slot_no = rpp then
      .error "No free slot found in page"
    else
      let page₁ : RmPage :=
        { hdr := { page.hdr with num_records := page.hdr.num_records + 1 }
          bitmap := bitmapSet page.bitmap slot_no
          slots := page.slots.set slot_no buf }
      if page₁.hdr.num_records = rpp then
        let f₂ := setPage f₁ page_no
          { page₁ with hdr := { page₁.hdr with next_free_page_no := RM_NO_PAGE } }
        .ok (⟨page_no, slot_no⟩,
          { f₂ with file_hdr :=
              { f₂.file_hdr with first_free_page_no := page₁.hdr.next_free_page_no } })
      else
        .ok (⟨page_no, slot_no⟩, setPage f₁ page_no page₁)

/-- `RmFileHandle::insert_record(char*, Context*)`: draw a page from the
freelist via `create_page_handle`, then fill its lowest free slot. -/
def insert_record (f : RmFile) (buf : Bytes) : Except String (Rid × RmFile) :=
  match create_page_handle f with
  | .error e => .error e
  | .ok (f₁, page_no) => insertFill f₁ page_no buf

/-- `RmFileHandle::insert_record(const Rid&, char*)`: insert at a
caller-chosen rid; rejects occupied slots.  When the page becomes full the
code unconditionally sets `first_free_page_no` to this page's
`next_free_page_no`, exactly as the source does. -/
def insert_record_at (f : RmFile) (rid : Rid) (buf : Bytes) : Except String RmFile :=
  if rid.page_no < RM_FIRST_RECORD_PAGE ∨ (f.file_hdr.num_pages : Int) ≤ rid.page_no then
    .error "Invalid page number"
  else match getPage f rid.page_no with
  | none => .error "Page not exists"
  | some page =>
    if rid.slot_no < 0 ∨ (f.file_hdr.num_records_per_page : Int) ≤ rid.slot_no then
      .error "Invalid slot number"
    else if bitmapIsSet page.bitmap rid.slot_no then
      .error "Slot already occupied"
    else
      let rpp := f.file_hdr.num_records_per_page
      let page₁ : RmPage :=
        { hdr := { page.hdr with num_records := page.hdr.num_records + 1 }
          bitmap := bitmapSet page.bitmap rid.slot_no
          slots := page.slots.set rid.slot_no.toNat buf }
      if page₁.hdr.num_records = rpp then
        let f₁ := setPage f rid.page_no
          { page₁ with hdr := { page₁.hdr with next_free_page_no := RM_NO_PAGE } }
        .ok { f₁ with file_hdr :=
                { f₁.file_hdr with first_free_page_no := page₁.hdr.next_free_page_no } }
      else
        .ok (setPage f rid.page_no page₁)

/-- `RmFileHandle::release_page_handle`: prepend a page that just regained
a free slot to the freelist head. -/
def release_page_handle (f : RmFile) (page_no : Int) (page : RmPage) : RmFile :=
  let f₁ := setPage f page_no
    { page with hdr := { page.hdr with next_free_page_no := f.file_hdr.first_free_page_no } }
  { f₁ with file_hdr := { f₁.file_hdr with first_free_page_no := page_no } }

/-- `RmFileHandle::delete_record`: clear the bit, decrement the count, and
push the page back onto the freelist if it was previously full. -/
def delete_record (f : RmFile) (rid : Rid) : Except String RmFile :=
  if rid.page_no < RM_FIRST_RECORD_PAGE ∨ (f.file_hdr.num_pages : Int) ≤ rid.page_no then
    .error "Invalid page number"
  else match getPage f rid.page_no with
  | none => .error "Page not exists"
  | some page =>
    if rid.slot_no < 0 ∨ (f.file_hdr.num_records_per_page : Int) ≤ rid.slot_no then
      .error "Invalid slot number"
    else if ¬ bitmapIsSet page.bitmap rid.slot_no then
      .error "Record not exists"
    else
      let was_full := page.hdr.num_records = f.file_hdr.num_records_per_page
      let page₁ : RmPage :=
        { hdr := { page.hdr with num_records := page.hdr.num_records - 1 }
          bitmap := bitmapReset page.bitmap rid.slot_no
          slots := page.slots }
      if was_full then
        .ok (release_page_handle (setPage f rid.page_no page₁) rid.page_no page₁)
      else
        .ok (setPage f rid.page_no page₁)

/-- `RmFileHandle::update_record`: overwrite the slot in place. -/
def update_record (f : RmFile) (rid : Rid) (buf : Bytes) : Except String RmFile :=
  if rid.page_no < RM_FIRST_RECORD_PAGE ∨ (f.file_hdr.num_pages : Int) ≤ rid.page_no then
    .error "Invalid page number"
  else match getPage f rid.page_no with
  | none => .error "Page not exists"
  | some page =>
    if rid.slot_no < 0 ∨ (f.file_hdr.num_records_per_page : Int) ≤ rid.slot_no then
      .error "Invalid slot number"
    else if ¬ bitmapIsSet page.bitmap rid.slot_no then
      .error "Record not exists"
    else
      .ok (setPage f rid.page_no { page with slots := page.slots.set rid.slot_no.toNat buf })

/-- An empty heap file with the given slots-per-page capacity: only the
header page exists and the freelist is empty. -/
def emptyFile (rpp : Nat) : RmFile :=
  { file_hdr := { num_records_per_page := rpp, num_pages := 1
                  first_free_page_no := RM_NO_PAGE }
    pages := [] }

/-- Population count of an occupancy bitmap. -/
def popcount (b : List Bool) : Nat := b.count true

/-- The freelist successor of a page: its header's `next_free_page_no`. -/
def nextOf (f : RmFile) (pn : Int) : Option Int :=
  (getPage f pn).map (fun p => p.hdr.next_free_page_no)

/-- The freelist of a heap file, as the chain of pages threaded from
`first_free_page_no` through `next_free_page_no` and terminated by
`RM_NO_PAGE`.  A finite chain exists precisely when the traversal
terminates, so mere existence rules out lassos. -/
inductive IsChain (f : RmFile) : Int → List Int → Prop
  | nil : IsChain f RM_NO_PAGE []
  | cons {h n : Int} {l : List Int} :
      nextOf f h = some n →
      IsChain f n l →
      IsChain f h (h :: l)

/-- The heap-file invariant of the specification: `num_pages` counts the
header page plus the record pages; every page's bitmap population count
equals its header's record count; and the freelist is a duplicate-free
chain whose members are exactly the pages with a free slot. -/
def RmInv (f : RmFile) : Prop :=
  1 ≤ f.file_hdr.num_records_per_page ∧
  f.file_hdr.num_pages = f.pages.length + 1 ∧
  (∀ p ∈ f.pages,
      p.bitmap.length = f.file_hdr.num_records_per_page ∧
      p.slots.length = f.file_hdr.num_records_per_page ∧
      popcount p.bitmap = p.hdr.num_records) ∧
  ∃ l, IsChain f f.file_hdr.first_free_page_no l ∧ l.Nodup ∧
      (∀ pn ∈ l, ∃ p, getPage f pn = some p ∧
          p.hdr.num_records < f.file_hdr.num_records_per_page) ∧
      (∀ pn p, getPage f pn = some p →
          p.hdr.num_records < f.file_hdr.num_records_per_page → pn ∈ l)


/-- The heap file reached in the freelist scenario of the specification:
insert three records into an empty two-slots-per-page file, then delete
rid (1,0).  Page 1 heads the freelist with one free slot; page 2 follows
with one free slot. -/
def scenarioFile : RmFile :=
  { file_hdr := { num_records_per_page := 2, num_pages := 3, first_free_page_no := 1 }
    pages := [ { hdr := { next_free_page_no := 2, num_records := 1 }
                 bitmap := [false, true], slots := [[10], [11]] },
               { hdr := { next_free_page_no := -1, num_records := 1 }
                 bitmap := [true, false], slots := [[12], []] } ] }

/-- The heap file after additionally filling slot (2,1) through
`insert_record(rid, buf)`: page 2 became full and the code unlinked the
freelist as if page 2 were its head, emptying the freelist while page 1
still has a free slot. -/
def scenarioFileAfter : RmFile :=
  { file_hdr := { num_records_per_page := 2, num_pages := 3, first_free_page_no := -1 }
    pages := [ { hdr := { next_free_page_no := 2, num_records := 1 }
                 bitmap := [false, true], slots := [[10], [11]] },
               { hdr := { next_free_page_no := -1, num_records := 2 }
                 bitmap := [true, true], slots := [[12], [13]] } ] }

end RM

namespace LM

/-- Transaction lifecycle states (`TransactionState` in `txn_defs.h`). -/
inductive TransactionState
  | DEFAULT | GROWING | SHRINKING | COMMITTED | ABORTED
deriving DecidableEq, Repr

/-- Lock modes of a single request (`LockMode` in `lock_manager.h`,
spelling `EXLUCSIVE` kept from the source). -/
inductive LockMode
  | INTENTION_SHARED | INTENTION_EXCLUSIVE | SHARED | EXLUCSIVE | S_IX
deriving DecidableEq, Repr

/-- Strongest granted mode of a queue (`GroupLockMode`). -/
inductive GroupLockMode
  | NON_LOCK | IS | IX | S | SIX | X
deriving DecidableEq, Repr

/-- Granularity of a locked resource (`LockDataType` in `txn_defs.h`). -/
inductive LockDataType
  | TABLE | RECORD | GAP
deriving DecidableEq, Repr

/-- Identifier of a locked resource (`LockDataId` in `txn_defs.h`).  The
table-lock constructor stores rid (-1,-1); record and gap locks reuse the
`(fd, rid)` fields, a gap lock packing its key range into the rid. -/
structure LockDataId where
  fd : Int
  rid : RM.Rid
  type : LockDataType
deriving DecidableEq, Repr

/-- The table-lock constructor `LockDataId(int fd, LockDataType type)`. -/
def LockDataId.table (fd : Int) : LockDataId := ⟨fd, ⟨-1, -1⟩, .TABLE⟩

/-- `operator==` of `LockDataId`: type and fd must agree, and for the GAP
granularity the rid (the key range) is ignored — all gap locks of one
file alias to a single resource. -/
def LockDataId.eq (a b : LockDataId) : Bool :=
  if a.type ≠ b.type then false
  else if a.fd ≠ b.fd then false
  else if a.type = .GAP then true
  else a.rid = b.rid

/-- Truncate an integer to its unsigned 64-bit pattern. -/
def u64 (v : Int) : Nat := (v % (2 ^ 64 : Int)).toNat

/-- Reinterpret an unsigned 64-bit pattern as a signed `int64_t`. -/
def ofU64 (n : Nat) : Int :=
  if n < 2 ^ 63 then (n : Int) else (n : Int) - 2 ^ 64

/-- `LockDataId::Get`, the value fed to `std::hash`: table locks use the
fd alone; record locks pack `(type, fd, page_no, slot_no)` into an
`int64_t`; gap locks pack only `(type, fd)`, so every gap lock of a file
hashes alike.  (`int64_t(2) << 63` wraps to zero, exactly as in C++.) -/
def LockDataId.Get (a : LockDataId) : Int :=
  match a.type with
  | .TABLE => a.fd
  | .RECORD => ofU64 (Nat.lor (Nat.lor (Nat.lor
      (u64 (1 * 2 ^ 63)) (u64 (a.fd * 2 ^ 31))) (u64 (a.rid.page_no * 2 ^ 16)))
      (u64 a.rid.slot_no))
  | .GAP => ofU64 (Nat.lor (u64 (2 * 2 ^ 63)) (u64 (a.fd * 2 ^ 31)))

/-- A single lock request (`LockRequest`). -/
structure LockRequest where
  txn_id : Nat
  lock_mode : LockMode
  granted : Bool
deriving DecidableEq, Repr

/-- Per-resource request queue (`LockRequestQueue`). -/
structure LockRequestQueue where
  request_queue : List LockRequest
  group_lock_mode : GroupLockMode
  shared_lock_num : Int
  IX_lock_num : Int
deriving DecidableEq, Repr

/-- A freshly default-constructed queue (piecewise construction in the
source). -/
def emptyQueue : LockRequestQueue :=
  { request_queue := [], group_lock_mode := .NON_LOCK
    shared_lock_num := 0, IX_lock_num := 0 }

/-- The lock table (`lock_table_`), keyed by `LockDataId` up to
`operator==`. -/
abbrev LockTable := List (LockDataId × LockRequestQueue)

/-- Lookup of a queue, with the `operator==` key equality. -/
def findQueue (table : LockTable) (id : LockDataId) : Option LockRequestQueue :=
  (table.find? (fun kv => LockDataId.eq kv.1 id)).map (·.2)

/-- `lock_table_.emplace` when the key is absent. -/
def ensureQueue (table : LockTable) (id : LockDataId) : LockTable :=
  if (table.find? (fun kv => LockDataId.eq kv.1 id)).isSome then table
  else table ++ [(id, emptyQueue)]

/-- Overwrite the queue stored for a key. -/
def setQueue (table : LockTable) (id : LockDataId) (q : LockRequestQueue) :
    LockTable :=
  table.map (fun kv => if LockDataId.eq kv.1 id then (kv.1, q) else kv)

/-- A transaction as the lock manager sees it: id, 2PL state, held lock
identifiers (`Transaction` in `transaction.h`). -/
structure Transaction where
  txn_id : Nat
  state : TransactionState
  lock_set : List LockDataId
deriving DecidableEq, Repr

/-- `txn->get_lock_set()->emplace(id)` — sets are duplicate-free. -/
def addLock (txn : Transaction) (id : LockDataId) : Transaction :=
  if txn.lock_set.any (fun x => LockDataId.eq x id) then txn
  else { txn with lock_set := txn.lock_set ++ [id] }

/-- Reasons for transaction abort (`AbortReason`, source spelling). -/
inductive AbortReason
  | LOCK_ON_SHIRINKING | UPGRADE_CONFLICT | DEADLOCK_PREVENTION
deriving DecidableEq, Repr

/-- Outcome of a lock-manager call: a boolean return or a thrown
`TransactionAbortException`. -/
inductive LMResult
  | ok (b : Bool)
  | thrown (r : AbortReason)
deriving DecidableEq, Repr

/-- A lock-manager call returns its result together with the (possibly
mutated) transaction and lock table — mutations persist across a throw,
as they do for the C++ objects. -/
structure LMOut where
  result : LMResult
  txn : Transaction
  table : LockTable
deriving DecidableEq, Repr

/-- `check_lock`: reject finished transactions, abort on SHRINKING, move
DEFAULT to GROWING on a first acquisition. -/
def check_lock (txn : Transaction) : LMResult × Transaction :=
  if txn.state = .COMMITTED ∨ txn.state = .ABORTED then (.ok false, txn)
  else if txn.state = .SHRINKING then (.thrown .LOCK_ON_SHIRINKING, txn)
  else if txn.state = .DEFAULT then (.ok true, { txn with state := .GROWING })
  else (.ok true, txn)

/-- Replace the lock mode of the first request of a transaction (the C++
code mutates the request found by its queue scan in place). -/
def replaceFirst (rq : List LockRequest) (tid : Nat) (m : LockMode) :
    List LockRequest :=
  match rq with
  | [] => []
  | r :: rest =>
    if r.txn_id = tid then { r with lock_mode := m } :: rest
    else r :: replaceFirst rest tid m

/-- Erase the first request of a transaction (the `erase(it)` in
`unlock`). -/
def eraseFirst (rq : List LockRequest) (tid : Nat) : List LockRequest :=
  match rq with
  | [] => []
  | r :: rest => if r.txn_id = tid then rest else r :: eraseFirst rest tid

/-- The strongest surviving mode of a queue, as recomputed at the end of
`unlock` (priority X > SIX > S > IX > IS). -/
def computeGroupMode (rq : List LockRequest) : GroupLockMode :=
  if rq.any (fun r => r.lock_mode = .EXLUCSIVE) then .X
  else if rq.any (fun r => r.lock_mode = .S_IX) then .SIX
  else if rq.any (fun r => r.lock_mode = .SHARED) then .S
  else if rq.any (fun r => r.lock_mode = .INTENTION_EXCLUSIVE) then .IX
  else if rq.any (fun r => r.lock_mode = .INTENTION_SHARED) then .IS
  else .NON_LOCK

/-- `LockManager::lock_shared_on_record`. -/
def lock_shared_on_record (txn : Transaction) (rid : RM.Rid) (tab_fd : Int)
    (table : LockTable) : LMOut :=
  match check_lock txn with
  | (.ok false, txn) => ⟨.ok false, txn, table⟩
  | (.thrown r, txn) => ⟨.thrown r, txn, table⟩
  | (_, txn) =>
    let id : LockDataId := ⟨tab_fd, rid, .RECORD⟩
    let table := ensureQueue table id
    let q := (findQueue table id).getD emptyQueue
    if q.request_queue.any (fun r => r.txn_id = txn.txn_id ∧
        (r.lock_mode = .SHARED ∨ r.lock_mode = .EXLUCSIVE)) then
      ⟨.ok true, txn, table⟩
    else if q.group_lock_mode = .X ∨ q.group_lock_mode = .IX ∨
        q.group_lock_mode = .SIX then
      ⟨.thrown .DEADLOCK_PREVENTION, txn, table⟩
    else
      let q := { q with
        group_lock_mode := .S
        request_queue := q.request_queue ++ [⟨txn.txn_id, .SHARED, true⟩]
        shared_lock_num := q.shared_lock_num + 1 }
      ⟨.ok true, addLock txn id, setQueue table id q⟩

/-- `LockManager::lock_exclusive_on_record`. -/
def lock_exclusive_on_record (txn : Transaction) (rid : RM.Rid) (tab_fd : Int)
    (table : LockTable) : LMOut :=
  match check_lock txn with
  | (.ok false, txn) => ⟨.ok false, txn, table⟩
  | (.thrown r, txn) => ⟨.thrown r, txn, table⟩
  | (_, txn) =>
    let id : LockDataId := ⟨tab_fd, rid, .RECORD⟩
    let table := ensureQueue table id
    let q := (findQueue table id).getD emptyQueue
    match q.request_queue.find? (fun r => r.txn_id = txn.txn_id) with
    | some req =>
      if req.lock_mode = .EXLUCSIVE then
        ⟨.ok true, txn, table⟩
      else if req.lock_mode = .SHARED then
        if q.group_lock_mode = .X then
          ⟨.thrown .DEADLOCK_PREVENTION, txn, table⟩
        else if q.shared_lock_num = 1 then
          let q := { q with
            request_queue := replaceFirst q.request_queue txn.txn_id .EXLUCSIVE
            group_lock_mode := .X
            shared_lock_num := q.shared_lock_num - 1 }
          ⟨.ok true, txn, setQueue table id q⟩
        else
          ⟨.thrown .DEADLOCK_PREVENTION, txn, table⟩
      else
        ⟨.thrown .DEADLOCK_PREVENTION, txn, table⟩
    | none =>
      if q.group_lock_mode ≠ .NON_LOCK then
        ⟨.thrown .DEADLOCK_PREVENTION, txn, table⟩
      else
        let q := { q with
          group_lock_mode := .X
          request_queue := q.request_queue ++ [⟨txn.txn_id, .EXLUCSIVE, true⟩] }
        ⟨.ok true, addLock txn id, setQueue table id q⟩

/-- `LockManager::lock_shared_on_gap` — the key range is packed into the
rid of a GAP-typed `LockDataId`. -/
def lock_shared_on_gap (txn : Transaction) (tab_fd left_key right_key : Int)
    (table : LockTable) : LMOut :=
  match check_lock txn with
  | (.ok false, txn) => ⟨.ok false, txn, table⟩
  | (.thrown r, txn) => ⟨.thrown r, txn, table⟩
  | (_, txn) =>
    let id : LockDataId := ⟨tab_fd, ⟨left_key, right_key⟩, .GAP⟩
    let table := ensureQueue table id
    let q := (findQueue table id).getD emptyQueue
    if q.request_queue.any (fun r => r.txn_id = txn.txn_id ∧
        (r.lock_mode = .SHARED ∨ r.lock_mode = .EXLUCSIVE)) then
      ⟨.ok true, txn, table⟩
    else if q.group_lock_mode = .X then
      ⟨.thrown .DEADLOCK_PREVENTION, txn, table⟩
    else
      let q := { q with
        group_lock_mode := .S
        request_queue := q.request_queue ++ [⟨txn.txn_id, .SHARED, true⟩]
        shared_lock_num := q.shared_lock_num + 1 }
      ⟨.ok true, addLock txn id, setQueue table id q⟩

/-- `LockManager::lock_exclusive_on_gap`. -/
def lock_exclusive_on_gap (txn : Transaction) (tab_fd left_key right_key : Int)
    (table : LockTable) : LMOut :=
  match check_lock txn with
  | (.ok false, txn) => ⟨.ok false, txn, table⟩
  | (.thrown r, txn) => ⟨.thrown r, txn, table⟩
  | (_, txn) =>
    let id : LockDataId := ⟨tab_fd, ⟨left_key, right_key⟩, .GAP⟩
    let table := ensureQueue table id
    let q := (findQueue table id).getD emptyQueue
    match q.request_queue.find? (fun r => r.txn_id = txn.txn_id) with
    | some req =>
      if req.lock_mode = .EXLUCSIVE then
        ⟨.ok true, txn, table⟩
      else if req.lock_mode = .SHARED ∧ q.shared_lock_num = 1 then
        let q := { q with
          request_queue := replaceFirst q.request_queue txn.txn_id .EXLUCSIVE
          group_lock_mode := .X
          shared_lock_num := q.shared_lock_num - 1 }
        ⟨.ok true, txn, setQueue table id q⟩
      else
        ⟨.thrown .DEADLOCK_PREVENTION, txn, table⟩
    | none =>
      if q.group_lock_mode ≠ .NON_LOCK then
        ⟨.thrown .DEADLOCK_PREVENTION, txn, table⟩
      else
        let q := { q with
          group_lock_mode := .X
          request_queue := q.request_queue ++ [⟨txn.txn_id, .EXLUCSIVE, true⟩] }
        ⟨.ok true, addLock txn id, setQueue table id q⟩


/-- `LockManager::lock_shared_on_table`. -/
def lock_shared_on_table (txn : Transaction) (tab_fd : Int)
    (table : LockTable) : LMOut :=
  match check_lock txn with
  | (.ok false, txn) => ⟨.ok false, txn, table⟩
  | (.thrown r, txn) => ⟨.thrown r, txn, table⟩
  | (_, txn) =>
    let id := LockDataId.table tab_fd
    let table := ensureQueue table id
    let q := (findQueue table id).getD emptyQueue
    match q.request_queue.find? (fun r => r.txn_id = txn.txn_id) with
    | some req =>
      if req.lock_mode = .SHARED ∨ req.lock_mode = .EXLUCSIVE ∨
          req.lock_mode = .S_IX then
        ⟨.ok true, txn, table⟩
      else if req.lock_mode = .INTENTION_SHARED ∧
          (q.group_lock_mode = .S ∨ q.group_lock_mode = .IS) then
        let q := { q with
          request_queue := replaceFirst q.request_queue txn.txn_id .SHARED
          group_lock_mode := .S
          shared_lock_num := q.shared_lock_num + 1 }
        ⟨.ok true, txn, setQueue table id q⟩
      else if req.lock_mode = .INTENTION_EXCLUSIVE ∧ q.IX_lock_num = 1 then
        let q := { q with
          request_queue := replaceFirst q.request_queue txn.txn_id .S_IX
          group_lock_mode := .SIX
          shared_lock_num := q.shared_lock_num + 1 }
        ⟨.ok true, txn, setQueue table id q⟩
      else
        ⟨.thrown .DEADLOCK_PREVENTION, txn, table⟩
    | none =>
      if q.group_lock_mode = .X ∨ q.group_lock_mode = .IX ∨
          q.group_lock_mode = .SIX then
        ⟨.thrown .DEADLOCK_PREVENTION, txn, table⟩
      else
        let q := { q with
          group_lock_mode := .S
          request_queue := q.request_queue ++ [⟨txn.txn_id, .SHARED, true⟩]
          shared_lock_num := q.shared_lock_num + 1 }
        ⟨.ok true, addLock txn id, setQueue table id q⟩

/-- `LockManager::lock_exclusive_on_table`. -/
def lock_exclusive_on_table (txn : Transaction) (tab_fd : Int)
    (table : LockTable) : LMOut :=
  match check_lock txn with
  | (.ok false, txn) => ⟨.ok false, txn, table⟩
  | (.thrown r, txn) => ⟨.thrown r, txn, table⟩
  | (_, txn) =>
    let id := LockDataId.table tab_fd
    let table := ensureQueue table id
    let q := (findQueue table id).getD emptyQueue
    match q.request_queue.find? (fun r => r.txn_id = txn.txn_id) with
    | some req =>
      if req.lock_mode = .EXLUCSIVE then
        ⟨.ok true, txn, table⟩
      else if q.request_queue.length = 1 then
        let q := { q with
          request_queue := replaceFirst q.request_queue txn.txn_id .EXLUCSIVE
          group_lock_mode := .X }
        ⟨.ok true, txn, setQueue table id q⟩
      else
        ⟨.thrown .DEADLOCK_PREVENTION, txn, table⟩
    | none =>
      if q.group_lock_mode ≠ .NON_LOCK then
        ⟨.thrown .DEADLOCK_PREVENTION, txn, table⟩
      else
        let q := { q with
          group_lock_mode := .X
          request_queue := q.request_queue ++ [⟨txn.txn_id, .EXLUCSIVE, true⟩] }
        ⟨.ok true, addLock txn id, setQueue table id q⟩

/-- `LockManager::lock_IS_on_table`. -/
def lock_IS_on_table (txn : Transaction) (tab_fd : Int)
    (table : LockTable) : LMOut :=
  match check_lock txn with
  | (.ok false, txn) => ⟨.ok false, txn, table⟩
  | (.thrown r, txn) => ⟨.thrown r, txn, table⟩
  | (_, txn) =>
    let id := LockDataId.table tab_fd
    let table := ensureQueue table id
    let q := (findQueue table id).getD emptyQueue
    if q.request_queue.any (fun r => r.txn_id = txn.txn_id) then
      ⟨.ok true, txn, table⟩
    else if q.group_lock_mode = .X then
      ⟨.thrown .DEADLOCK_PREVENTION, txn, table⟩
    else
      let q := { q with
        group_lock_mode :=
          if q.group_lock_mode = .NON_LOCK then .IS else q.group_lock_mode
        request_queue := q.request_queue ++ [⟨txn.txn_id, .INTENTION_SHARED, true⟩] }
      ⟨.ok true, addLock txn id, setQueue table id q⟩

/-- `LockManager::lock_IX_on_table`. -/
def lock_IX_on_table (txn : Transaction) (tab_fd : Int)
    (table : LockTable) : LMOut :=
  match check_lock txn with
  | (.ok false, txn) => ⟨.ok false, txn, table⟩
  | (.thrown r, txn) => ⟨.thrown r, txn, table⟩
  | (_, txn) =>
    let id := LockDataId.table tab_fd
    let table := ensureQueue table id
    let q := (findQueue table id).getD emptyQueue
    match q.request_queue.find? (fun r => r.txn_id = txn.txn_id) with
    | some req =>
      if req.lock_mode = .INTENTION_EXCLUSIVE ∨ req.lock_mode = .S_IX ∨
          req.lock_mode = .EXLUCSIVE then
        ⟨.ok true, txn, table⟩
      else if req.lock_mode = .SHARED ∧ q.shared_lock_num = 1 then
        let q := { q with
          IX_lock_num := q.IX_lock_num + 1
          request_queue := replaceFirst q.request_queue txn.txn_id .S_IX
          group_lock_mode := .SIX }
        ⟨.ok true, txn, setQueue table id q⟩
      else if req.lock_mode = .INTENTION_SHARED ∧
          (q.group_lock_mode = .IS ∨ q.group_lock_mode = .IX) then
        let q := { q with
          IX_lock_num := q.IX_lock_num + 1
          request_queue := replaceFirst q.request_queue txn.txn_id .INTENTION_EXCLUSIVE
          group_lock_mode := .IX }
        ⟨.ok true, txn, setQueue table id q⟩
      else
        ⟨.thrown .DEADLOCK_PREVENTION, txn, table⟩
    | none =>
      if q.group_lock_mode = .S ∨ q.group_lock_mode = .SIX ∨
          q.group_lock_mode = .X then
        ⟨.thrown .DEADLOCK_PREVENTION, txn, table⟩
      else
        let q := { q with
          group_lock_mode := .IX
          request_queue := q.request_queue ++ [⟨txn.txn_id, .INTENTION_EXCLUSIVE, true⟩]
          IX_lock_num := q.IX_lock_num + 1 }
        ⟨.ok true, addLock txn id, setQueue table id q⟩

/-- `LockManager::unlock`: finished transactions are a no-op, GROWING
becomes SHRINKING, the transaction's request (if any) is removed and the
queue's counters and group mode are recomputed. -/
def unlock (txn : Transaction) (lock_data_id : LockDataId)
    (table : LockTable) : LMOut :=
  if txn.state = .COMMITTED ∨ txn.state = .ABORTED then
    ⟨.ok false, txn, table⟩
  else
    let txn := if txn.state = .GROWING then
      { txn with state := .SHRINKING } else txn
    match findQueue table lock_data_id with
    | none => ⟨.ok true, txn, table⟩
    | some q =>
      match q.request_queue.find? (fun r => r.txn_id = txn.txn_id) with
      | none => ⟨.ok true, txn, table⟩
      | some req =>
        let shared := if req.lock_mode = .SHARED ∨ req.lock_mode = .S_IX then
          q.shared_lock_num - 1 else q.shared_lock_num
        let ix := if req.lock_mode = .INTENTION_EXCLUSIVE ∨ req.lock_mode = .S_IX then
          q.IX_lock_num - 1 else q.IX_lock_num
        let rq := eraseFirst q.request_queue txn.txn_id
        if rq.isEmpty then
          ⟨.ok true, txn, setQueue table lock_data_id
            { request_queue := rq, group_lock_mode := .NON_LOCK
              shared_lock_num := shared, IX_lock_num := ix }⟩
        else
          ⟨.ok true, txn, setQueue table lock_data_id
            { request_queue := rq, group_lock_mode := computeGroupMode rq
              shared_lock_num := shared, IX_lock_num := ix }⟩

/-- One constructor per lock-manager acquisition entry point, used to
state the uniform `check_lock` protocol of the specification. -/
inductive LMCall
  | sharedRecord (rid : RM.Rid) (fd : Int)
  | exclusiveRecord (rid : RM.Rid) (fd : Int)
  | sharedGap (fd lk rk : Int)
  | exclusiveGap (fd lk rk : Int)
  | sharedTable (fd : Int)
  | exclusiveTable (fd : Int)
  | isTable (fd : Int)
  | ixTable (fd : Int)
deriving DecidableEq, Repr

/-- Dispatch an acquisition entry point. -/
def applyCall (c : LMCall) (txn : Transaction) (table : LockTable) : LMOut :=
  match c with
  | .sharedRecord rid fd => lock_shared_on_record txn rid fd table
  | .exclusiveRecord rid fd => lock_exclusive_on_record txn rid fd table
  | .sharedGap fd lk rk => lock_shared_on_gap txn fd lk rk table
  | .exclusiveGap fd lk rk => lock_exclusive_on_gap txn fd lk rk table
  | .sharedTable fd => lock_shared_on_table txn fd table
  | .exclusiveTable fd => lock_exclusive_on_table txn fd table
  | .isTable fd => lock_IS_on_table txn fd table
  | .ixTable fd => lock_IX_on_table txn fd table


end LM

namespace TM

/-! Transaction rollback (`TransactionManager::abort`, src/unnamed/part_003,
lines 72-434) over an abstract single-table state: the heap file is the
`Rid ↦ tuple bytes` association it represents and each index the
`key ↦ Rid` association it represents — the granularity at which the
executors and the undo log act.  Single-column integer keys, as in the
current design's gap-locked indexes. -/

/-- Index keys (single-column integer indexes in the current design). -/
abbrev Key := Int

/-- Association-list lookup by key (first match). -/
def alookup {κ α : Type} [DecidableEq κ] (l : List (κ × α)) (k : κ) : Option α :=
  (l.find? (fun kv => kv.1 = k)).map (·.2)

/-- Remove the first entry with the given key. -/
def aerase {κ α : Type} [DecidableEq κ] (l : List (κ × α)) (k : κ) : List (κ × α) :=
  l.eraseP (fun kv => kv.1 = k)

/-- Overwrite the value of the first entry with the given key. -/
def aset {κ α : Type} [DecidableEq κ] : List (κ × α) → κ → α → List (κ × α)
  | [], _, _ => []
  | kv :: r, k, a => if kv.1 = k then (k, a) :: r else kv :: aset r k a

/-- Keys of an association list are pairwise distinct. -/
def NodupKeys {κ α : Type} (l : List (κ × α)) : Prop :=
  (l.map Prod.fst).Nodup

instance {κ α : Type} [DecidableEq κ] (l : List (κ × α)) :
    Decidable (NodupKeys l) := by
  unfold NodupKeys; infer_instance

/-- Metadata of one table: for each of its indexes, the projection of the
index key out of the tuple bytes (the `index.cols` copy loops of the
executors). -/
structure TabMeta where
  indexes : List (RM.Bytes → Key)

/-- Abstract state of the table: the heap file as `rid ↦ bytes`, and the
indexes (positionally parallel to `TabMeta.indexes`) as `key ↦ rid`. -/
structure DBState where
  heap : List (RM.Rid × RM.Bytes)
  idx : List (List (Key × RM.Rid))
deriving DecidableEq, Repr

/-- `IxIndexHandle::insert_entry` at key/rid granularity: a duplicate key
is rejected and the index is unchanged (the node-level `insert` returns
with no change when the key is already present). -/
def insert_entry (l : List (Key × RM.Rid)) (k : Key) (r : RM.Rid) :
    List (Key × RM.Rid) :=
  if (alookup l k).isSome then l else l ++ [(k, r)]

/-- `IxIndexHandle::delete_entry` at key/rid granularity: the entry holding
the key, if any, is removed. -/
def delete_entry (l : List (Key × RM.Rid)) (k : Key) : List (Key × RM.Rid) :=
  aerase l k

/-- `WType` (txn_defs.h). -/
inductive WType
  | INSERT_TUPLE | DELETE_TUPLE | UPDATE_TUPLE
deriving DecidableEq, Repr

/-- `IndexOpType` (txn_defs.h). -/
inductive IndexOpType
  | INDEX_INSERT | INDEX_DELETE
deriving DecidableEq, Repr

/-- An index undo sub-entry (`IndexWriteRecord`): position of the index in
`TabMeta.indexes` (standing for `index_cols`), key, rid, operation. -/
structure IndexWriteRecord where
  idx : Nat
  key : Key
  rid : RM.Rid
  op_type : IndexOpType
deriving DecidableEq, Repr

/-- An undo-log entry (`WriteRecord`): operation kind, rid, saved tuple
bytes, and the ordered index undo sub-entries accumulated by
`AddIndexOp`. -/
structure WriteRecord where
  wtype : WType
  rid : RM.Rid
  record : RM.Bytes
  index_ops : List IndexWriteRecord
deriving DecidableEq, Repr

/-- The index undo sub-entries appended by `InsertExecutor::Next`'s index
loop (`for (size_t i = 0; ...)`): one `INDEX_INSERT` per index, in index
order. -/
def insSubs (b : RM.Bytes) (rid : RM.Rid) :
    Nat → List (RM.Bytes → Key) → List IndexWriteRecord
  | _, [] => []
  | i, ext :: rest =>
    ⟨i, ext b, rid, .INDEX_INSERT⟩ :: insSubs b rid (i + 1) rest

/-- The index undo sub-entries appended by `DeleteExecutor::Next`'s index
loop: one `INDEX_DELETE` per index, in index order. -/
def delSubs (b : RM.Bytes) (rid : RM.Rid) :
    Nat → List (RM.Bytes → Key) → List IndexWriteRecord
  | _, [] => []
  | i, ext :: rest =>
    ⟨i, ext b, rid, .INDEX_DELETE⟩ :: delSubs b rid (i + 1) rest

/-- A logical write of a transaction, as issued by the executors: insert a
tuple at a (freshly allocated) rid, delete the tuple at a rid, or
overwrite the tuple at a rid with already-computed new bytes. -/
inductive Op
  | ins (rid : RM.Rid) (b : RM.Bytes)
  | del (rid : RM.Rid)
  | upd (rid : RM.Rid) (b : RM.Bytes)
deriving Repr

/-- One executor write against the abstract state, returning the new state
and the undo-log entry the executor appends.  `none` stands for the
executor erroring out before mutating (absent record, or a violated
unique-key precondition, which the surrounding system rejects before the
write).  Translated from `InsertExecutor::Next` and `DeleteExecutor::Next`
(executor_update.h). -/
def applyIns (tm : TabMeta) (s : DBState) (rid : RM.Rid) (b : RM.Bytes) :
    Option (DBState × WriteRecord) :=
  if (alookup s.heap rid).isSome then none
  else if (tm.indexes.zip s.idx).all
      (fun p => (alookup p.2 (p.1 b)).isNone) then
    some ({ heap := s.heap ++ [(rid, b)],
            idx := List.zipWith (fun ext l => insert_entry l (ext b) rid)
              tm.indexes s.idx },
          { wtype := .INSERT_TUPLE, rid := rid, record := b,
            index_ops := insSubs b rid 0 tm.indexes })
  else none

def applyDel (tm : TabMeta) (s : DBState) (rid : RM.Rid) :
    Option (DBState × WriteRecord) :=
  match alookup s.heap rid with
  | none => none
  | some b =>
    if (tm.indexes.zip s.idx).all
        (fun p => decide (alookup p.2 (p.1 b) = some rid)) then
      some ({ heap := aerase s.heap rid,
              idx := List.zipWith (fun ext l => delete_entry l (ext b))
                tm.indexes s.idx },
            { wtype := .DELETE_TUPLE, rid := rid, record := b,
              index_ops := delSubs b rid 0 tm.indexes })
    else none

/-- `UpdateExecutor::Next` (executor_update.h, lines 40-73) for one rid:
fetch the record (a missing record is skipped by `continue`), delete the
old key and insert the new one in every index whose key changes, and
overwrite the record in place.  The staged update executor appends no
`WriteRecord` and no index undo sub-entries to the transaction's write
set, so an update leaves nothing for `abort` to replay. -/
def applyUpd (tm : TabMeta) (s : DBState) (rid : RM.Rid) (b2 : RM.Bytes) :
    DBState :=
  match alookup s.heap rid with
  | none => s
  | some b =>
    { heap := aset s.heap rid b2,
      idx := List.zipWith (fun ext l =>
          if ext b2 = ext b then l
          else insert_entry (delete_entry l (ext b)) (ext b2) rid)
        tm.indexes s.idx }

/-- Dispatch one executor write; the second component is the list of
undo-log entries the executor appends — a singleton for insert and
delete, and empty for update, whose executor does not log. -/
def applyOp (tm : TabMeta) (s : DBState) :
    Op → Option (DBState × List WriteRecord)
  | .ins rid b =>
    match applyIns tm s rid b with
    | none => none
    | some p => some (p.1, [p.2])
  | .del rid =>
    match applyDel tm s rid with
    | none => none
    | some p => some (p.1, [p.2])
  | .upd rid b2 => some (applyUpd tm s rid b2, [])

/-- A transaction's writes in program order, producing the final state and
the undo log in append order. -/
def applyOps (tm : TabMeta) : DBState → List Op → Option (DBState × List WriteRecord)
  | s, [] => some (s, [])
  | s, op :: rest =>
    match applyOp tm s op with
    | none => none
    | some (s1, w) =>
      match applyOps tm s1 rest with
      | none => none
      | some (s2, ws) => some (s2, w ++ ws)

/-- The effect of replaying one index undo sub-entry on one index
(abort lines 100-114): `INDEX_INSERT` rolls back by deleting the key,
`INDEX_DELETE` by reinserting `(key, rid)`; already-absent or -present
conditions are swallowed by the catch-all handlers and are no-ops of
`delete_entry`/`insert_entry` here. -/
def applySub (sub : IndexWriteRecord) (l : List (Key × RM.Rid)) :
    List (Key × RM.Rid) :=
  match sub.op_type with
  | .INDEX_INSERT => delete_entry l sub.key
  | .INDEX_DELETE => insert_entry l sub.key sub.rid

/-- Replay one index undo sub-entry against the indexes (the sub-entry's
`index_cols` select which index handle is fetched). -/
def undoSub (idxs : List (List (Key × RM.Rid))) (sub : IndexWriteRecord) :
    List (List (Key × RM.Rid)) :=
  List.modify (applySub sub) sub.idx idxs

/-- The abort delete-undo path's removal of the index entries of a record
found already occupying the rid (abort lines 197-213). -/
def deleteEntriesOf (tm : TabMeta) (idxs : List (List (Key × RM.Rid)))
    (b : RM.Bytes) : List (List (Key × RM.Rid)) :=
  List.zipWith (fun ext l => delete_entry l (ext b)) tm.indexes idxs

/-- Replay of one undo-log entry (one iteration of abort's while loop):
first the index undo sub-entries in reverse, then the record undo
dispatched on the entry kind.  `INSERT` deletes the record if present;
`DELETE` and `UPDATE` overwrite in place when the rid is occupied
(`DELETE` first clearing the occupying record's index entries) and
reinsert at the original rid otherwise. -/
def undoOne (tm : TabMeta) (s : DBState) (w : WriteRecord) : DBState :=
  let idxs := w.index_ops.reverse.foldl undoSub s.idx
  match w.wtype with
  | .INSERT_TUPLE => { heap := aerase s.heap w.rid, idx := idxs }
  | .DELETE_TUPLE =>
    match alookup s.heap w.rid with
    | some existing =>
      { heap := aset s.heap w.rid w.record,
        idx := deleteEntriesOf tm idxs existing }
    | none => { heap := s.heap ++ [(w.rid, w.record)], idx := idxs }
  | .UPDATE_TUPLE =>
    match alookup s.heap w.rid with
    | some _ => { heap := aset s.heap w.rid w.record, idx := idxs }
    | none => { heap := s.heap ++ [(w.rid, w.record)], idx := idxs }

/-- Abort's while loop: consume the undo log back to front. -/
def undoAll (tm : TabMeta) (s : DBState) (ws : List WriteRecord) : DBState :=
  ws.foldr (fun w t => undoOne tm t w) s

/-- Abort's lock-release loop: unlock every held lock id in order,
threading the transaction (its 2PL state moves under `unlock`) and the
lock table. -/
def releaseAll (txn : LM.Transaction) (table : LM.LockTable) :
    List LM.LockDataId → LM.Transaction × LM.LockTable
  | [] => (txn, table)
  | id :: rest =>
    let o := LM.unlock txn id table
    releaseAll o.txn o.table rest

/-- `TransactionManager::abort`: replay the undo log LIFO, release all
locks, clear the lock set, set state `ABORTED`. -/
def abort (tm : TabMeta) (s : DBState) (ws : List WriteRecord)
    (txn : LM.Transaction) (table : LM.LockTable) :
    DBState × LM.Transaction × LM.LockTable :=
  let s1 := undoAll tm s ws
  let p := releaseAll txn table txn.lock_set
  (s1, { p.1 with lock_set := [], state := .ABORTED }, p.2)

/-- Heap lookup of a state. -/
def hget (s : DBState) (rid : RM.Rid) : Option RM.Bytes :=
  alookup s.heap rid

/-- Lookup in the i-th index of a state. -/
def iget (s : DBState) (i : Nat) (k : Key) : Option RM.Rid :=
  match s.idx[i]? with
  | none => none
  | some l => alookup l k

/-- Well-formedness of a state for a table: duplicate-free heap rids, one
index store per index, duplicate-free keys in each index. -/
def WFs (tm : TabMeta) (s : DBState) : Prop :=
  NodupKeys s.heap ∧ s.idx.length = tm.indexes.length ∧
    ∀ l ∈ s.idx, NodupKeys l

instance (tm : TabMeta) (s : DBState) : Decidable (WFs tm s) := by
  unfold WFs; infer_instance


/-- No request of the transaction is left in a queue. -/
def cleanFor (tid : Nat) (q : LM.LockRequestQueue) : Prop :=
  ∀ r ∈ q.request_queue, r.txn_id ≠ tid

/-- A queue holds at most one request per transaction (one hash-map entry
per (resource, txn) acquisition in the source). -/
def atMostOne (tid : Nat) (q : LM.LockRequestQueue) : Prop :=
  (q.request_queue.filter (fun r => r.txn_id = tid)).length ≤ 1

instance (tid : Nat) (q : LM.LockRequestQueue) : Decidable (cleanFor tid q) := by
  unfold cleanFor; infer_instance

instance (tid : Nat) (q : LM.LockRequestQueue) : Decidable (atMostOne tid q) := by
  unfold atMostOne; infer_instance

theorem eq_true_iff (a b : LM.LockDataId) : LM.LockDataId.eq a b = true ↔
    (a.type = b.type ∧ a.fd = b.fd ∧ (a.type = .GAP ∨ a.rid = b.rid)) := by
  unfold LM.LockDataId.eq
  by_cases h1 : a.type = b.type
  · by_cases h2 : a.fd = b.fd
    · by_cases h3 : a.type = LM.LockDataType.GAP
      · simp [h1, h2, h3]
      · simp [h1, h2, h3]
    · simp [h1, h2]
  · simp [h1]
end TM

namespace IX

/-! B+ tree index (`IxNodeHandle`/`IxIndexHandle`, src/unnamed/part_004).
Keys are single-column integers (`ix_compare` over one int column, the
design's gap-locked configuration), so `ix_compare a b < 0` is `a < b`
and `== 0` is `a = b`.  Pages are an association of page ids to nodes;
the buffer pool and latching are invisible at this level.  The loops
(`lower_bound`'s binary search, `find_leaf_page`'s descent,
`maintain_parent`'s climb, `insert_into_parent`'s and
`coalesce_or_redistribute`'s recursion) carry an explicit fuel that the
acyclic page graph of a real file makes sufficient.  `IxNodeHandle`'s
declaration (ix_node_handle header) is not among the sources; its
accessors (`get_key`, `value_at`, `get_size`, `get_min_size =
max_size/2`, `find_child`, `is_root_page` as `parent == IX_NO_PAGE`) are
modelled from the spec. -/

/-- `IX_NO_PAGE`. -/
def IX_NO_PAGE : Int := -1

/-- A tree node (`IxNodeHandle`): leaf flag and parent from
`IxPageHdr`, the key array, the parallel rid array (an internal node's
entry `i` stores `{page_no = child, slot_no = -1}`), and the leaf
thread pointers. -/
structure IxNode where
  is_leaf : Bool
  parent : Int
  keys : List Int
  rids : List RM.Rid
  prev_leaf : Int
  next_leaf : Int
deriving DecidableEq, Repr

/-- `IxFileHdr`: page count, root page, leaf-list ends, and the node
capacity (`btree_order`; a node splits on reaching `max_size`). -/
structure IxFileHdr where
  num_pages : Int
  root_page : Int
  first_leaf : Int
  last_leaf : Int
  max_size : Nat
deriving DecidableEq, Repr

/-- An index file: header plus its pages. -/
structure IxState where
  hdr : IxFileHdr
  pages : List (Int × IxNode)
deriving DecidableEq, Repr

/-- `fetch_node`. -/
def getNode (s : IxState) (p : Int) : Option IxNode :=
  TM.alookup s.pages p

/-- Write a node back to its page. -/
def setNode (s : IxState) (p : Int) (n : IxNode) : IxState :=
  { s with pages := TM.aset s.pages p n }

/-- `IxNodeHandle::get_key` (out-of-range reads yield 0, never reached
under the asserted bounds of the source). -/
def IxNode.get_key (n : IxNode) (i : Nat) : Int :=
  n.keys.getD i 0

/-- `IxNodeHandle::value_at`: the child page id stored in entry `i`. -/
def IxNode.value_at (n : IxNode) (i : Nat) : Int :=
  (n.rids.getD i ⟨IX_NO_PAGE, -1⟩).page_no

/-- The binary-search loop of `IxNodeHandle::lower_bound`, with fuel for
the `while (left < right)` loop. -/
def lb_aux (keys : List Int) (t : Int) : Nat → Nat → Nat → Nat
  | 0, left, _ => left
  | fuel + 1, left, right =>
    if left < right then
      let mid := (left + right) / 2
      if keys.getD mid 0 < t then lb_aux keys t fuel (mid + 1) right
      else lb_aux keys t fuel left mid
    else left

/-- `IxNodeHandle::lower_bound`: first index with `key ≥ target`. -/
def IxNode.lower_bound (n : IxNode) (t : Int) : Nat :=
  lb_aux n.keys t n.keys.length 0 n.keys.length

/-- The binary-search loop of `IxNodeHandle::upper_bound` (`cmp <= 0`
descends right). -/
def ub_aux (keys : List Int) (t : Int) : Nat → Nat → Nat → Nat
  | 0, left, _ => left
  | fuel + 1, left, right =>
    if left < right then
      let mid := (left + right) / 2
      if keys.getD mid 0 ≤ t then ub_aux keys t fuel (mid + 1) right
      else ub_aux keys t fuel left mid
    else left

/-- `IxNodeHandle::upper_bound`: first index with `key > target`. -/
def IxNode.upper_bound (n : IxNode) (t : Int) : Nat :=
  ub_aux n.keys t n.keys.length 0 n.keys.length

/-- `IxNodeHandle::leaf_lookup`, with the out-parameter as an `Option`. -/
def IxNode.leaf_lookup (n : IxNode) (k : Int) : Option RM.Rid :=
  let pos := n.lower_bound k
  if pos < n.keys.length then
    if n.get_key pos = k then some (n.rids.getD pos ⟨IX_NO_PAGE, -1⟩)
    else none
  else none

/-- `IxNodeHandle::internal_lookup`: child page for a key. -/
def IxNode.internal_lookup (n : IxNode) (k : Int) : Int :=
  let pos := n.upper_bound k
  if pos = 0 then n.value_at 0 else n.value_at (pos - 1)

/-- `IxNodeHandle::insert_pairs`: splice `n` keys and rids in at `pos`
(the two `memmove`s plus `memcpy`s). -/
def IxNode.insert_pairs (n : IxNode) (pos : Nat) (ks : List Int)
    (rs : List RM.Rid) : IxNode :=
  { n with keys := n.keys.take pos ++ ks ++ n.keys.drop pos,
           rids := n.rids.take pos ++ rs ++ n.rids.drop pos }

/-- `IxNodeHandle::insert`: duplicate keys are rejected, the node is
returned unchanged (its size, the C++ return value, is `keys.length`). -/
def IxNode.insert (n : IxNode) (k : Int) (r : RM.Rid) : IxNode :=
  let pos := n.lower_bound k
  if pos < n.keys.length ∧ n.get_key pos = k then n
  else n.insert_pairs pos [k] [r]

/-- `IxNodeHandle::erase_pair`. -/
def IxNode.erase_pair (n : IxNode) (pos : Nat) : IxNode :=
  { n with keys := n.keys.eraseIdx pos, rids := n.rids.eraseIdx pos }

/-- `IxNodeHandle::remove`: erase the key's entry if the key is found. -/
def IxNode.remove (n : IxNode) (k : Int) : IxNode :=
  let pos := n.lower_bound k
  if pos < n.keys.length ∧ n.get_key pos = k then n.erase_pair pos
  else n

/-- `find_child` (node-handle accessor, modelled from the spec): the
entry of a parent whose child pointer is the given page. -/
def find_child (parent : IxNode) (pno : Int) : Nat :=
  parent.rids.findIdx (fun r => r.page_no = pno)

/-- The descent loop of `IxIndexHandle::find_leaf_page`. -/
def find_leaf_aux (s : IxState) (k : Int) : Nat → Int → Option Int
  | 0, _ => none
  | fuel + 1, pno =>
    match getNode s pno with
    | none => none
    | some nd =>
      if nd.is_leaf then some pno
      else find_leaf_aux s k fuel (nd.internal_lookup k)

/-- `IxIndexHandle::find_leaf_page` (without `find_first`, the callers'
default): `none` for an empty tree. -/
def find_leaf_page (s : IxState) (k : Int) : Option Int :=
  if s.hdr.root_page = IX_NO_PAGE then none
  else find_leaf_aux s k (s.pages.length + 1) s.hdr.root_page

/-- `IxIndexHandle::get_value`, the result vector collapsed to the rid
pushed on success. -/
def get_value (s : IxState) (k : Int) : Option RM.Rid :=
  match find_leaf_page s k with
  | none => none
  | some pno =>
    match getNode s pno with
    | none => none
    | some leaf => leaf.leaf_lookup k

/-- `IxIndexHandle::create_node`: bump `num_pages` and allocate a fresh
page id for the node. -/
def create_node (s : IxState) (nd : IxNode) : IxState × Int :=
  ({ hdr := { s.hdr with num_pages := s.hdr.num_pages + 1 },
     pages := s.pages ++ [(s.hdr.num_pages, nd)] }, s.hdr.num_pages)

/-- `IxIndexHandle::release_node_handle`. -/
def release_node (s : IxState) : IxState :=
  { s with hdr := { s.hdr with num_pages := s.hdr.num_pages - 1 } }

/-- `IxIndexHandle::maintain_child`: point the `i`-th child's parent
link back at the node. -/
def maintain_child (s : IxState) (pno : Int) (i : Nat) : IxState :=
  match getNode s pno with
  | none => s
  | some nd =>
    if nd.is_leaf then s
    else
      match getNode s (nd.value_at i) with
      | none => s
      | some child => setNode s (nd.value_at i) { child with parent := pno }

/-- `IxIndexHandle::maintain_parent`: copy the child's first key into
the parent slot, climbing while the keys differ (fuelled `while`). -/
def maintain_parent (s : IxState) : Nat → Int → IxState
  | 0, _ => s
  | fuel + 1, pno =>
    match getNode s pno with
    | none => s
    | some curr =>
      if curr.parent = IX_NO_PAGE then s
      else
        match getNode s curr.parent with
        | none => s
        | some parent =>
          let rank := find_child parent pno
          if parent.get_key rank = curr.get_key 0 then s
          else
            maintain_parent
              (setNode s curr.parent
                { parent with keys := parent.keys.set rank (curr.get_key 0) })
              fuel curr.parent

/-- The leaf-threading tail of `IxIndexHandle::split` (lines 318-335):
set the new sibling's prev/next, the split node's next, the old
successor's prev, and `last_leaf` when the split node was the last
leaf. -/
def split_thread_leaf (s2 : IxState) (pno newPno oldNext : Int) : IxState :=
  let s3 :=
    match getNode s2 newPno with
    | none => s2
    | some nw => setNode s2 newPno
        { nw with prev_leaf := pno, next_leaf := oldNext }
  let s4 :=
    match getNode s3 pno with
    | none => s3
    | some ol => setNode s3 pno { ol with next_leaf := newPno }
  let s5 :=
    if oldNext ≠ IX_NO_PAGE then
      match getNode s4 oldNext with
      | none => s4
      | some nx => setNode s4 oldNext { nx with prev_leaf := newPno }
    else s4
  if s5.hdr.last_leaf = pno then
    { s5 with hdr := { s5.hdr with last_leaf := newPno } }
  else s5

/-- `IxIndexHandle::split`: allocate a right sibling holding the upper
`size / 2` entries, keep the lower half in the node, then rethread the
leaf list (leaves) or re-parent the moved children (internal nodes). -/
def split (s : IxState) (pno : Int) : IxState × Int :=
  match getNode s pno with
  | none => (s, IX_NO_PAGE)
  | some nd =>
    let start := nd.keys.length - nd.keys.length / 2
    let p1 := create_node s
      { is_leaf := nd.is_leaf, parent := nd.parent,
        keys := nd.keys.drop start, rids := nd.rids.drop start,
        prev_leaf := IX_NO_PAGE, next_leaf := IX_NO_PAGE }
    let s2 := setNode p1.1 pno
      { nd with keys := nd.keys.take start, rids := nd.rids.take start }
    if nd.is_leaf then
      (split_thread_leaf s2 pno p1.2 nd.next_leaf, p1.2)
    else
      ((List.range (nd.keys.length / 2)).foldl
        (fun st i => maintain_child st p1.2 i) s2, p1.2)

/-- `IxIndexHandle::insert_into_parent` (fuelled recursion): push a
separator up after a split, building a new root at the top. -/
def insert_into_parent (s : IxState) : Nat → Int → Int → Int → IxState
  | 0, _, _, _ => s
  | fuel + 1, oldPno, key, newPno =>
    match getNode s oldPno with
    | none => s
    | some old =>
      if old.parent = IX_NO_PAGE then
        let newRoot : IxNode :=
          { is_leaf := false, parent := IX_NO_PAGE,
            keys := [old.get_key 0, key],
            rids := [⟨oldPno, -1⟩, ⟨newPno, -1⟩],
            prev_leaf := IX_NO_PAGE, next_leaf := IX_NO_PAGE }
        let p1 := create_node s newRoot
        let s1 := p1.1
        let rootPno := p1.2
        let s2 := setNode s1 oldPno { old with parent := rootPno }
        let s3 :=
          match getNode s2 newPno with
          | none => s2
          | some nw => setNode s2 newPno { nw with parent := rootPno }
        let s4 := { s3 with hdr := { s3.hdr with root_page := rootPno } }
        if s4.hdr.first_leaf = IX_NO_PAGE then
          { s4 with hdr :=
            { s4.hdr with first_leaf := oldPno, last_leaf := newPno } }
        else s4
      else
        match getNode s old.parent with
        | none => s
        | some parent =>
          let index := find_child parent oldPno
          let parent2 := parent.insert_pairs (index + 1) [key] [⟨newPno, -1⟩]
          let s1 := setNode s old.parent parent2
          let s2 :=
            match getNode s1 newPno with
            | none => s1
            | some nw => setNode s1 newPno { nw with parent := old.parent }
          if parent2.keys.length ≥ s.hdr.max_size then
            let p1 := split s2 old.parent
            let s3 := p1.1
            let newParentPno := p1.2
            let pushUp :=
              match getNode s3 newParentPno with
              | none => 0
              | some np => np.get_key 0
            insert_into_parent s3 fuel old.parent pushUp newParentPno
          else maintain_parent s2 (s.pages.length + 1) old.parent

/-- `IxIndexHandle::insert_entry`: descend, node-level insert, split on
reaching `max_size` and push the new sibling's first key to the parent. -/
def insert_entry (s : IxState) (k : Int) (r : RM.Rid) : Int × IxState :=
  match find_leaf_page s k with
  | none => (IX_NO_PAGE, s)
  | some pno =>
    match getNode s pno with
    | none => (IX_NO_PAGE, s)
    | some leaf =>
      let leaf2 := leaf.insert k r
      let s1 := setNode s pno leaf2
      let s2 :=
        if s1.hdr.last_leaf = pno then
          { s1 with hdr := { s1.hdr with last_leaf := pno } }
        else s1
      if leaf2.keys.length ≥ s.hdr.max_size then
        let p1 := split s2 pno
        let s3 := p1.1
        let newPno := p1.2
        let s4 :=
          if s3.hdr.last_leaf = pno then
            { s3 with hdr := { s3.hdr with last_leaf := newPno } }
          else s3
        let splitKey :=
          match getNode s4 newPno with
          | none => 0
          | some nn => nn.get_key 0
        let s5 := insert_into_parent s4 (s.pages.length + 1) pno splitKey newPno
        (pno, maintain_parent s5 (s.pages.length + 1) pno)
      else
        (pno, maintain_parent s2 (s.pages.length + 1) pno)

/-- `IxIndexHandle::adjust_root`: collapse a 1-entry internal root or
empty the tree when the root leaf is drained. -/
def adjust_root (s : IxState) (pno : Int) : Bool × IxState :=
  match getNode s pno with
  | none => (false, s)
  | some root =>
    if ¬root.is_leaf ∧ root.keys.length = 1 then
      match getNode s (root.value_at 0) with
      | none => (true, s)
      | some child =>
        let s1 := setNode s (root.value_at 0) { child with parent := IX_NO_PAGE }
        (true, { s1 with hdr := { s1.hdr with root_page := root.value_at 0 } })
    else if root.is_leaf ∧ root.keys.length = 0 then
      (true, { s with hdr :=
        { s.hdr with
            root_page := IX_NO_PAGE
            first_leaf := IX_NO_PAGE
            last_leaf := IX_NO_PAGE } })
    else (false, s)

/-- `IxIndexHandle::redistribute`: borrow one entry from the sibling and
fix the parent separator. -/
def redistribute (s : IxState) (neighborPno pno parentPno : Int)
    (index : Nat) : IxState :=
  match getNode s neighborPno, getNode s pno, getNode s parentPno with
  | some neighbor, some node, some parent =>
    if 0 < index then
      let moveIdx := neighbor.keys.length - 1
      let mk := neighbor.get_key moveIdx
      let mr := neighbor.rids.getD moveIdx ⟨IX_NO_PAGE, -1⟩
      let node2 := node.insert_pairs 0 [mk] [mr]
      let s1 := setNode s pno node2
      let s2 := setNode s1 neighborPno (neighbor.erase_pair moveIdx)
      let s3 := setNode s2 parentPno
        { parent with keys := parent.keys.set index (node2.get_key 0) }
      if ¬node.is_leaf then maintain_child s3 pno 0 else s3
    else
      let mk := neighbor.get_key 0
      let mr := neighbor.rids.getD 0 ⟨IX_NO_PAGE, -1⟩
      let node2 := node.insert_pairs node.keys.length [mk] [mr]
      let s1 := setNode s pno node2
      let neighbor2 := neighbor.erase_pair 0
      let s2 := setNode s1 neighborPno neighbor2
      let s3 := setNode s2 parentPno
        { parent with keys := parent.keys.set (index + 1) (neighbor2.get_key 0) }
      if ¬node.is_leaf then maintain_child s3 pno (node2.keys.length - 1)
      else s3
  | _, _, _ => s

/-- `IxIndexHandle::coalesce`: merge the right node into its left
sibling, rethread leaves and `first_leaf`/`last_leaf`, drop the parent
separator, release the right page. -/
def coalesce (s : IxState) (mpFuel : Nat) (leftPno rightPno parentPno : Int) :
    IxState :=
  match getNode s leftPno, getNode s rightPno with
  | some left, some right =>
    let leftSize := left.keys.length
    let merged : IxNode :=
      { left with keys := left.keys ++ right.keys,
                  rids := left.rids ++ right.rids }
    let s1 := setNode s leftPno merged
    let s2 :=
      if left.is_leaf then
        let s1a := setNode s1 leftPno { merged with next_leaf := right.next_leaf }
        let s1b :=
          if right.next_leaf ≠ IX_NO_PAGE then
            match getNode s1a right.next_leaf with
            | none => s1a
            | some nx => setNode s1a right.next_leaf
                { nx with prev_leaf := leftPno }
          else s1a
        let s1c :=
          if s1b.hdr.last_leaf = rightPno then
            { s1b with hdr := { s1b.hdr with last_leaf := leftPno } }
          else s1b
        if s1c.hdr.first_leaf = rightPno then
          { s1c with hdr := { s1c.hdr with first_leaf := leftPno } }
        else s1c
      else
        (List.range' leftSize right.keys.length).foldl
          (fun st i => maintain_child st leftPno i) s1
    let s3 :=
      match getNode s2 parentPno with
      | none => s2
      | some parent => setNode s2 parentPno
          (parent.erase_pair (find_child parent rightPno))
    release_node (maintain_parent s3 mpFuel leftPno)
  | _, _ => s

/-- `IxIndexHandle::coalesce_or_redistribute` (fuelled recursion). -/
def coalesce_or_redistribute (s : IxState) : Nat → Int → Bool × IxState
  | 0, _ => (false, s)
  | fuel + 1, pno =>
    match getNode s pno with
    | none => (false, s)
    | some node =>
      if node.parent = IX_NO_PAGE then adjust_root s pno
      else
        match getNode s node.parent with
        | none => (false, s)
        | some parent =>
          let index := find_child parent pno
          let neighborIndex := if index = 0 then 1 else index - 1
          let neighborPno := parent.value_at neighborIndex
          match getNode s neighborPno with
          | none => (false, s)
          | some neighbor =>
            let neighborIsLeft := neighborIndex < index
            if neighbor.keys.length + node.keys.length ≤ s.hdr.max_size then
              let s1 :=
                if neighborIsLeft then
                  coalesce s (s.pages.length + 1) neighborPno pno node.parent
                else
                  coalesce s (s.pages.length + 1) pno neighborPno node.parent
              let s2 :=
                match getNode s1 node.parent with
                | none => s1
                | some parent2 =>
                  if parent2.parent = IX_NO_PAGE then
                    (adjust_root s1 node.parent).2
                  else if parent2.keys.length < s.hdr.max_size / 2 then
                    (coalesce_or_redistribute s1 fuel node.parent).2
                  else maintain_parent s1 (s.pages.length + 1) node.parent
              (neighborIsLeft, s2)
            else
              let s1 := redistribute s neighborPno pno node.parent index
              (false, maintain_parent s1 (s.pages.length + 1) node.parent)

/-- `IxIndexHandle::delete_entry`: descend, node-level remove, and on a
successful removal adjust the root / rebalance / maintain parents. -/
def delete_entry (s : IxState) (k : Int) : Bool × IxState :=
  match find_leaf_page s k with
  | none => (false, s)
  | some pno =>
    match getNode s pno with
    | none => (false, s)
    | some leaf =>
      let oldSize := leaf.keys.length
      let leaf2 := leaf.remove k
      let s1 := setNode s pno leaf2
      if leaf2.keys.length < oldSize then
        if leaf2.parent = IX_NO_PAGE then (true, (adjust_root s1 pno).2)
        else if leaf2.keys.length < s.hdr.max_size / 2 then
          (true, (coalesce_or_redistribute s1 (s.pages.length + 1) pno).2)
        else (true, maintain_parent s1 (s.pages.length + 1) pno)
      else (false, s1)

end IX


/-!  ## Theorems about the record manager  -/

namespace RM

theorem getPage_pos {f : RmFile} {pn : Int} {p : RmPage}
    (h : getPage f pn = some p) : 1 ≤ pn := by
  by_contra hc
  simp [getPage, RM_FIRST_RECORD_PAGE, show pn < 1 by omega] at h

theorem getPage_mem {f : RmFile} {pn : Int} {p : RmPage}
    (h : getPage f pn = some p) : p ∈ f.pages := by
  have h1 := getPage_pos h
  simp only [getPage, RM_FIRST_RECORD_PAGE, if_neg (by omega : ¬ pn < 1)] at h
  rw [List.getElem?_eq_some] at h
  obtain ⟨hlt, he⟩ := h
  exact he ▸ List.getElem_mem hlt

theorem getPage_lt {f : RmFile} {pn : Int} {p : RmPage}
    (h : getPage f pn = some p) : (pn - 1).toNat < f.pages.length := by
  have h1 := getPage_pos h
  simp only [getPage, RM_FIRST_RECORD_PAGE, if_neg (by omega : ¬ pn < 1)] at h
  rw [List.getElem?_eq_some] at h
  exact h.1

theorem getPage_setPage_self {f : RmFile} {pn : Int} {p₀ p : RmPage}
    (h : getPage f pn = some p₀) :
    getPage (setPage f pn p) pn = some p := by
  have h1 := getPage_pos h
  have h2 := getPage_lt h
  simp only [getPage, setPage, RM_FIRST_RECORD_PAGE, if_neg (by omega : ¬ pn < 1)]
  exact List.getElem?_set_eq_of_lt p h2

theorem getPage_setPage_other {f : RmFile} {pn pn' : Int} {p : RmPage}
    (h1 : 1 ≤ pn) (hne : pn' ≠ pn) :
    getPage (setPage f pn p) pn' = getPage f pn' := by
  by_cases h2 : pn' < 1
  · simp [getPage, RM_FIRST_RECORD_PAGE, h2]
  · simp only [getPage, setPage, RM_FIRST_RECORD_PAGE, if_neg h2]
    exact List.getElem?_set_ne (by omega)

theorem length_setPage (f : RmFile) (pn : Int) (p : RmPage) :
    (setPage f pn p).pages.length = f.pages.length := by
  simp [setPage]

theorem IsChain.deterministic {f : RmFile} {h : Int} {l₁ l₂ : List Int}
    (c₁ : IsChain f h l₁) (c₂ : IsChain f h l₂) : l₁ = l₂ := by
  induction c₁ generalizing l₂ with
  | nil =>
    cases c₂ with
    | nil => rfl
    | cons hp _ => simp [nextOf, getPage, RM_NO_PAGE, RM_FIRST_RECORD_PAGE] at hp
  | cons hp _ ih =>
    cases c₂ with
    | nil => simp [nextOf, getPage, RM_NO_PAGE, RM_FIRST_RECORD_PAGE] at hp
    | cons hp' c' =>
      rw [hp] at hp'
      cases hp'
      exact congrArg _ (ih c')

theorem nextOf_pos {f : RmFile} {pn n : Int} (h : nextOf f pn = some n) : 1 ≤ pn := by
  unfold nextOf at h
  cases hg : getPage f pn with
  | none => rw [hg] at h; cases h
  | some p => exact getPage_pos hg

theorem IsChain.mem_valid {f : RmFile} {h : Int} {l : List Int}
    (c : IsChain f h l) : ∀ pn ∈ l, ∃ p, getPage f pn = some p := by
  induction c with
  | nil => intro pn hm; cases hm
  | cons hp _ ih =>
    intro pn hm
    rcases List.mem_cons.mp hm with h | h
    · subst h
      unfold nextOf at hp
      cases hg : getPage f pn with
      | none => rw [hg] at hp; cases hp
      | some p => exact ⟨p, rfl⟩
    · exact ih pn h

/-- Frame rule: a chain survives any state change that preserves the
freelist successor of every page on the chain. -/
theorem IsChain.frame {f f' : RmFile} {h : Int} {l : List Int}
    (c : IsChain f h l)
    (hsame : ∀ pn ∈ l, nextOf f' pn = nextOf f pn) : IsChain f' h l := by
  induction c with
  | nil => exact .nil
  | cons hp ct ih =>
    refine .cons (by rw [hsame _ (List.mem_cons_self _ _)]; exact hp) (ih ?_)
    intro pn hm
    exact hsame pn (List.mem_cons_of_mem _ hm)

theorem nextOf_setPage_same_next {f : RmFile} {pn : Int} {page : RmPage} (p : RmPage)
    (hget : getPage f pn = some page)
    (hnext : p.hdr.next_free_page_no = page.hdr.next_free_page_no) :
    ∀ pn', nextOf (setPage f pn p) pn' = nextOf f pn' := by
  intro pn'
  by_cases he : pn' = pn
  · subst he
    rw [nextOf, nextOf, getPage_setPage_self hget, hget]
    simp [hnext]
  · rw [nextOf, nextOf, getPage_setPage_other (getPage_pos hget) he]

theorem nextOf_setPage_other {f : RmFile} {pn pn' : Int} {p : RmPage}
    (h1 : 1 ≤ pn) (hne : pn' ≠ pn) :
    nextOf (setPage f pn p) pn' = nextOf f pn' := by
  rw [nextOf, nextOf, getPage_setPage_other h1 hne]

theorem count_set_true {b : List Bool} : ∀ {i : Nat}, b[i]? = some false →
    (b.set i true).count true = b.count true + 1 := by
  induction b with
  | nil => intro i h; simp at h
  | cons x xs ih =>
    intro i h
    cases i with
    | zero =>
      simp only [List.getElem?_cons_zero, Option.some_inj] at h
      subst h
      simp [List.count_cons]
    | succ n =>
      simp only [List.getElem?_cons_succ] at h
      simp [List.count_cons, ih h]
      omega

theorem count_set_false {b : List Bool} : ∀ {i : Nat}, b[i]? = some true →
    b.count true = (b.set i false).count true + 1 := by
  induction b with
  | nil => intro i h; simp at h
  | cons x xs ih =>
    intro i h
    cases i with
    | zero =>
      simp only [List.getElem?_cons_zero, Option.some_inj] at h
      subst h
      simp [List.count_cons]
    | succ n =>
      simp only [List.getElem?_cons_succ] at h
      simp [List.count_cons, ih h]
      omega



theorem setPage_file_hdr (f : RmFile) (pn : Int) (p : RmPage) :
    (setPage f pn p).file_hdr = f.file_hdr := rfl

theorem update_ok_shape {f : RmFile} {rid : Rid} {buf : Bytes} {f' : RmFile}
    (h : update_record f rid buf = .ok f') :
    ∃ page, getPage f rid.page_no = some page ∧
      f' = setPage f rid.page_no { page with slots := page.slots.set rid.slot_no.toNat buf } := by
  unfold update_record at h
  split at h
  · exact absurd h (by simp)
  split at h
  · exact absurd h (by simp)
  rename_i page heq
  split at h
  · exact absurd h (by simp)
  split at h
  · exact absurd h (by simp)
  exact ⟨page, heq, (Except.ok.injEq _ _ ▸ h).symm⟩

theorem RmInv_update {f : RmFile} {rid : Rid} {buf : Bytes} {f' : RmFile}
    (inv : RmInv f) (h : update_record f rid buf = .ok f') : RmInv f' := by
  obtain ⟨page, hget, rfl⟩ := update_ok_shape h
  obtain ⟨hrpp, hnp, hpages, l, hchain, hnodup, hmem, hcomp⟩ := inv
  have hpos := getPage_pos hget
  refine ⟨hrpp, ?_, ?_, l, ?_, hnodup, ?_, ?_⟩
  · simpa [setPage] using hnp
  · intro p hp
    rcases List.mem_or_eq_of_mem_set hp with hp | rfl
    · exact hpages p hp
    · have := hpages page (getPage_mem hget)
      simpa [popcount] using this
  · exact hchain.frame (fun pn _ => nextOf_setPage_same_next { page with slots := page.slots.set rid.slot_no.toNat buf } hget rfl pn)
  · intro pn hpn
    obtain ⟨p, hp, hlt⟩ := hmem pn hpn
    by_cases he : pn = rid.page_no
    · subst he
      rw [hget] at hp
      cases hp
      exact ⟨_, getPage_setPage_self hget, by simpa using hlt⟩
    · exact ⟨p, by rw [getPage_setPage_other hpos he]; exact hp, hlt⟩
  · intro pn p hp hlt
    by_cases he : pn = rid.page_no
    · subst he
      rw [getPage_setPage_self hget] at hp
      cases hp
      exact hcomp _ page hget (by simpa using hlt)
    · rw [getPage_setPage_other hpos he] at hp
      exact hcomp _ p hp hlt


theorem isSet_getElem {b : List Bool} {i : Int} (h : bitmapIsSet b i = true) :
    b[i.toNat]? = some true := by
  unfold bitmapIsSet at h
  cases hb : b[i.toNat]? with
  | none => rw [hb] at h; cases h
  | some x => rw [hb] at h; simp at h; rw [h]

theorem isClear_getElem {b : List Bool} {i : Int} (h : bitmapIsSet b i = false)
    (hlt : i.toNat < b.length) : b[i.toNat]? = some false := by
  unfold bitmapIsSet at h
  rw [List.getElem?_eq_getElem hlt] at h ⊢
  simpa using h

theorem delete_ok_shape {f : RmFile} {rid : Rid} {f' : RmFile}
    (h : delete_record f rid = .ok f') :
    ∃ page, getPage f rid.page_no = some page ∧
      0 ≤ rid.slot_no ∧ rid.slot_no < (f.file_hdr.num_records_per_page : Int) ∧
      bitmapIsSet page.bitmap rid.slot_no = true ∧
      ((page.hdr.num_records = f.file_hdr.num_records_per_page ∧
         f' = release_page_handle
           (setPage f rid.page_no
             { hdr := { next_free_page_no := page.hdr.next_free_page_no,
                        num_records := page.hdr.num_records - 1 }
               bitmap := bitmapReset page.bitmap rid.slot_no
               slots := page.slots })
           rid.page_no
           { hdr := { next_free_page_no := page.hdr.next_free_page_no,
                      num_records := page.hdr.num_records - 1 }
             bitmap := bitmapReset page.bitmap rid.slot_no
             slots := page.slots }) ∨
       (page.hdr.num_records ≠ f.file_hdr.num_records_per_page ∧
         f' = setPage f rid.page_no
           { hdr := { next_free_page_no := page.hdr.next_free_page_no,
                      num_records := page.hdr.num_records - 1 }
             bitmap := bitmapReset page.bitmap rid.slot_no
             slots := page.slots })) := by
  unfold delete_record at h
  split at h
  · exact absurd h (by simp)
  split at h
  · exact absurd h (by simp)
  rename_i page heq
  split at h
  · exact absurd h (by simp)
  split at h
  · exact absurd h (by simp)
  rename_i hrange hbit
  push_neg at hrange
  simp only [Bool.not_eq_true, Bool.not_eq_false] at hbit
  dsimp only at h
  split at h
  · rename_i hfull
    exact ⟨page, heq, hrange.1, hrange.2, by simpa using hbit,
      Or.inl ⟨hfull, (Except.ok.injEq _ _ ▸ h).symm⟩⟩
  · rename_i hfull
    exact ⟨page, heq, hrange.1, hrange.2, by simpa using hbit,
      Or.inr ⟨hfull, (Except.ok.injEq _ _ ▸ h).symm⟩⟩


theorem getPage_set_hdr (f : RmFile) (hdr : RmFileHdr) (pn : Int) :
    getPage { f with file_hdr := hdr } pn = getPage f pn := rfl

theorem nextOf_set_hdr (f : RmFile) (hdr : RmFileHdr) (pn : Int) :
    nextOf { f with file_hdr := hdr } pn = nextOf f pn := rfl

theorem release_setPage (f : RmFile) (pn : Int) (p : RmPage) :
    release_page_handle (setPage f pn p) pn p =
      { setPage f pn { p with hdr := { p.hdr with
            next_free_page_no := f.file_hdr.first_free_page_no } } with
        file_hdr := { f.file_hdr with first_free_page_no := pn } } := by
  simp [release_page_handle, setPage, List.set_set]

theorem RmInv_delete {f : RmFile} {rid : Rid} {f' : RmFile}
    (inv : RmInv f) (h : delete_record f rid = .ok f') : RmInv f' := by
  obtain ⟨page, hget, hs0, hslt, hbit, hcase⟩ := delete_ok_shape h
  obtain ⟨hrpp, hnp, hpages, l, hchain, hnodup, hmem, hcomp⟩ := inv
  have hpos := getPage_pos hget
  obtain ⟨hblen, hslen, hcount⟩ := hpages page (getPage_mem hget)
  have hgetb : page.bitmap[rid.slot_no.toNat]? = some true := isSet_getElem hbit
  have hcnt' : page.bitmap.count true = (bitmapReset page.bitmap rid.slot_no).count true + 1 :=
    count_set_false hgetb
  have hrpp1 : 1 ≤ f.file_hdr.num_records_per_page := by omega
  have hcle : page.bitmap.count true ≤ page.bitmap.length := List.count_le_length _ _
  rcases hcase with ⟨hfull, rfl⟩ | ⟨hnfull, rfl⟩
  · -- the page was full: it is pushed back onto the freelist head
    rw [release_setPage]
    have hnotin : rid.page_no ∉ l := by
      intro hin
      obtain ⟨p, hp, hlt⟩ := hmem _ hin
      rw [hget] at hp
      cases hp
      omega
    have hget' : ∀ pn', getPage
        { setPage f rid.page_no
            { hdr := { next_free_page_no := f.file_hdr.first_free_page_no,
                       num_records := page.hdr.num_records - 1 }
              bitmap := bitmapReset page.bitmap rid.slot_no
              slots := page.slots } with
          file_hdr := { f.file_hdr with first_free_page_no := rid.page_no } } pn' =
        getPage (setPage f rid.page_no
            { hdr := { next_free_page_no := f.file_hdr.first_free_page_no,
                       num_records := page.hdr.num_records - 1 }
              bitmap := bitmapReset page.bitmap rid.slot_no
              slots := page.slots }) pn' := fun _ => rfl
    refine ⟨hrpp, ?_, ?_, rid.page_no :: l, ?_, ?_, ?_, ?_⟩
    · simpa [setPage] using hnp
    · intro p hp
      rcases List.mem_or_eq_of_mem_set hp with hp | rfl
      · exact hpages p hp
      · refine ⟨?_, ?_, ?_⟩
        · simpa [bitmapReset] using hblen
        · simpa using hslen
        · simp only [popcount] at hcount ⊢
          try dsimp only
          omega
    · refine IsChain.cons (n := f.file_hdr.first_free_page_no) ?_ ?_
      · rw [nextOf, hget', getPage_setPage_self hget]
        rfl
      · refine hchain.frame ?_
        intro pn' hpn'
        have hne : pn' ≠ rid.page_no := fun he => hnotin (he ▸ hpn')
        rw [nextOf_set_hdr]
        exact nextOf_setPage_other hpos hne
    · exact List.nodup_cons.mpr ⟨hnotin, hnodup⟩
    · intro pn' hpn'
      rcases List.mem_cons.mp hpn' with rfl | hpn'
      · refine ⟨_, by rw [hget', getPage_setPage_self hget], ?_⟩
        simp only [popcount] at hcount
        try dsimp only
        omega
      · obtain ⟨p, hp, hlt⟩ := hmem _ hpn'
        have hne : pn' ≠ rid.page_no := fun he => hnotin (he ▸ hpn')
        exact ⟨p, by rw [hget', getPage_setPage_other hpos hne]; exact hp, hlt⟩
    · intro pn' p hp hlt
      by_cases he : pn' = rid.page_no
      · exact he ▸ List.mem_cons_self _ _
      · rw [hget', getPage_setPage_other hpos he] at hp
        exact List.mem_cons_of_mem _ (hcomp _ p hp hlt)
  · -- the page keeps a free slot: the freelist is untouched
    refine ⟨hrpp, ?_, ?_, l, ?_, hnodup, ?_, ?_⟩
    · simpa [setPage] using hnp
    · intro p hp
      rcases List.mem_or_eq_of_mem_set hp with hp | rfl
      · exact hpages p hp
      · refine ⟨by simpa [bitmapReset] using hblen, by simpa using hslen, ?_⟩
        simp only [popcount] at hcount ⊢
        try dsimp only
        omega
    · exact hchain.frame (fun pn' _ => nextOf_setPage_same_next
        { hdr := { next_free_page_no := page.hdr.next_free_page_no,
                   num_records := page.hdr.num_records - 1 }
          bitmap := bitmapReset page.bitmap rid.slot_no
          slots := page.slots } hget rfl pn')
    · intro pn' hpn'
      obtain ⟨p, hp, hlt⟩ := hmem _ hpn'
      by_cases he : pn' = rid.page_no
      · subst he
        rw [hget] at hp
        cases hp
        refine ⟨_, getPage_setPage_self hget, ?_⟩
        try dsimp only
        simp only [setPage_file_hdr]
        simp only [popcount] at hcount
        omega
      · exact ⟨p, by rw [getPage_setPage_other hpos he]; exact hp, hlt⟩
    · intro pn' p hp hlt
      by_cases he : pn' = rid.page_no
      · subst he
        rw [getPage_setPage_self hget] at hp
        cases hp
        refine hcomp _ page hget ?_
        simp only [popcount] at hcount
        try dsimp only at hlt
        omega
      · rw [getPage_setPage_other hpos he] at hp
        exact hcomp _ p hp hlt


theorem findIdx_clear_lt {b : List Bool} {m : Nat} (hlen : b.length = m)
    (hne : firstClearBit b ≠ m) :
    firstClearBit b < b.length ∧ b[firstClearBit b]? = some false := by
  have hle : firstClearBit b ≤ b.length := List.findIdx_le_length _
  have hlt : firstClearBit b < b.length := by
    rcases lt_or_eq_of_le hle with hlt | heq
    · exact hlt
    · exact absurd (hlen ▸ heq) hne
  refine ⟨hlt, ?_⟩
  have h2 := List.findIdx_getElem (p := (· = false)) (w := hlt)
  rw [List.getElem?_eq_getElem hlt]
  exact congrArg some (of_decide_eq_true h2)

theorem IsChain.head_cases {f : RmFile} {h : Int} {l : List Int} (c : IsChain f h l) :
    (h = RM_NO_PAGE ∧ l = []) ∨
    ∃ n l', l = h :: l' ∧ nextOf f h = some n ∧ IsChain f n l' := by
  cases c with
  | nil => exact Or.inl ⟨rfl, rfl⟩
  | cons hn ct => exact Or.inr ⟨_, _, rfl, hn, ct⟩

/-- Filling the lowest free slot of the page at the head of the freelist
preserves the heap-file invariant. -/
theorem RmInv_insertFill {f₁ : RmFile} {buf : Bytes} {rid : Rid} {f' : RmFile}
    (inv : RmInv f₁)
    (h : insertFill f₁ f₁.file_hdr.first_free_page_no buf = .ok (rid, f')) :
    RmInv f' := by
  obtain ⟨hrpp, hnp, hpages, l, hchain, hnodup, hmem, hcomp⟩ := inv
  unfold insertFill at h
  split at h
  · exact absurd h (by simp)
  rename_i page hget
  have hpos := getPage_pos hget
  obtain ⟨hblen, hslen, hcount⟩ := hpages page (getPage_mem hget)
  dsimp only at h
  split at h
  · exact absurd h (by simp)
  rename_i hsl
  obtain ⟨hsltb, hbitf⟩ := findIdx_clear_lt hblen hsl
  have hslt : firstClearBit page.bitmap < f₁.file_hdr.num_records_per_page := hblen ▸ hsltb
  have hcnt : (bitmapSet page.bitmap (firstClearBit page.bitmap)).count true =
      page.bitmap.count true + 1 := by
    unfold bitmapSet
    rw [Int.toNat_natCast]
    exact count_set_true hbitf
  have hcle : (bitmapSet page.bitmap (firstClearBit page.bitmap)).count true ≤
      (bitmapSet page.bitmap (firstClearBit page.bitmap)).length :=
    List.count_le_length _ _
  have hsetlen : (bitmapSet page.bitmap (firstClearBit page.bitmap)).length =
      f₁.file_hdr.num_records_per_page := by
    unfold bitmapSet
    rw [List.length_set]
    exact hblen
  -- page.hdr.num_records + 1 ≤ rpp
  have hbound : page.hdr.num_records + 1 ≤ f₁.file_hdr.num_records_per_page := by
    simp only [popcount] at hcount
    omega
  -- the head of the freelist is on the chain
  rcases hchain.head_cases with ⟨hh, rfl⟩ | ⟨n, l', rfl, hnext, hrest⟩
  · exfalso
    rw [hh] at hget
    simp [getPage, RM_NO_PAGE, RM_FIRST_RECORD_PAGE] at hget
  · have hn : n = page.hdr.next_free_page_no := by
      unfold nextOf at hnext
      rw [hget] at hnext
      exact (by simpa using hnext : page.hdr.next_free_page_no = n).symm
    subst hn
    have hnodup' := List.nodup_cons.mp hnodup
    split at h
    · -- the page became full: unlink it from the freelist head
      rename_i hfull
      rw [Except.ok.injEq, Prod.mk.injEq] at h
      obtain ⟨h1, h2⟩ := h
      subst h2
      refine ⟨hrpp, ?_, ?_, l', ?_, hnodup'.2, ?_, ?_⟩
      · simpa [setPage] using hnp
      · intro p hp
        rcases List.mem_or_eq_of_mem_set hp with hp | rfl
        · exact hpages p hp
        · refine ⟨hsetlen, by simpa using hslen, ?_⟩
          simp only [popcount] at hcount ⊢
          try dsimp only
          omega
      · refine IsChain.frame hrest ?_
        intro pn' hpn'
        have hne : pn' ≠ f₁.file_hdr.first_free_page_no :=
          fun he => hnodup'.1 (he ▸ hpn')
        rw [nextOf_set_hdr]
        exact nextOf_setPage_other hpos hne
      · intro pn' hpn'
        obtain ⟨p, hp, hlt⟩ := hmem _ (List.mem_cons_of_mem _ hpn')
        have hne : pn' ≠ f₁.file_hdr.first_free_page_no :=
          fun he => hnodup'.1 (he ▸ hpn')
        refine ⟨p, ?_, hlt⟩
        show getPage (setPage f₁ _ _) pn' = some p
        rw [getPage_setPage_other hpos hne]
        exact hp
      · intro pn' p hp hlt
        have hlt' : p.hdr.num_records < f₁.file_hdr.num_records_per_page := by
          try dsimp only at hlt
          simpa [setPage] using hlt
        have hp' : getPage (setPage f₁ f₁.file_hdr.first_free_page_no
            { hdr := { next_free_page_no := RM_NO_PAGE,
                       num_records := page.hdr.num_records + 1 }
              bitmap := bitmapSet page.bitmap (firstClearBit page.bitmap)
              slots := page.slots.set (firstClearBit page.bitmap) buf }) pn' = some p := hp
        by_cases he : pn' = f₁.file_hdr.first_free_page_no
        · rw [he, getPage_setPage_self hget] at hp'
          cases hp'
          exfalso
          try dsimp only at hlt'
          omega
        · rw [getPage_setPage_other hpos he] at hp'
          have hm := hcomp _ p hp' hlt'
          exact (List.mem_cons.mp hm).resolve_left he
    · -- the page keeps a free slot: freelist unchanged
      rename_i hnfull
      rw [Except.ok.injEq, Prod.mk.injEq] at h
      obtain ⟨h1, h2⟩ := h
      subst h2
      refine ⟨hrpp, ?_, ?_,
        f₁.file_hdr.first_free_page_no :: l', ?_, hnodup, ?_, ?_⟩
      · simpa [setPage] using hnp
      · intro p hp
        rcases List.mem_or_eq_of_mem_set hp with hp | rfl
        · exact hpages p hp
        · refine ⟨hsetlen, by simpa using hslen, ?_⟩
          simp only [popcount] at hcount ⊢
          try dsimp only
          omega
      · refine IsChain.cons (n := page.hdr.next_free_page_no) ?_ ?_
        · rw [setPage_file_hdr, nextOf, getPage_setPage_self hget]
          rfl
        · refine IsChain.frame hrest ?_
          intro pn' hpn'
          have hne : pn' ≠ f₁.file_hdr.first_free_page_no :=
            fun he => hnodup'.1 (he ▸ hpn')
          exact nextOf_setPage_other hpos hne
      · intro pn' hpn'
        rcases List.mem_cons.mp hpn' with rfl | hpn'
        · refine ⟨_, getPage_setPage_self hget, ?_⟩
          simp only [setPage_file_hdr]
          try dsimp only
          omega
        · obtain ⟨p, hp, hlt⟩ := hmem _ (List.mem_cons_of_mem _ hpn')
          have hne : pn' ≠ f₁.file_hdr.first_free_page_no :=
            fun he => hnodup'.1 (he ▸ hpn')
          exact ⟨p, (getPage_setPage_other hpos hne).trans hp, hlt⟩
      · intro pn' p hp hlt
        by_cases he : pn' = f₁.file_hdr.first_free_page_no
        · exact he ▸ List.mem_cons_self _ _
        · have hpX : getPage (setPage f₁ f₁.file_hdr.first_free_page_no
              { hdr := { next_free_page_no := page.hdr.next_free_page_no,
                         num_records := page.hdr.num_records + 1 }
                bitmap := bitmapSet page.bitmap (firstClearBit page.bitmap)
                slots := page.slots.set (firstClearBit page.bitmap) buf }) pn' = some p := hp
          rw [getPage_setPage_other hpos he] at hpX
          refine hcomp _ p hpX ?_
          simpa [setPage] using hlt


/-- Allocating a fresh all-free page and pushing it onto the freelist head
preserves the heap-file invariant. -/
theorem RmInv_create_new {f : RmFile} (inv : RmInv f) :
    RmInv (create_new_page_handle f).1 := by
  obtain ⟨hrpp, hnp, hpages, l, hchain, hnodup, hmem, hcomp⟩ := inv
  unfold create_new_page_handle
  dsimp only
  have hvalid : ∀ pn ∈ l, 1 ≤ pn ∧ (pn - 1).toNat < f.pages.length := by
    intro pn hpn
    obtain ⟨p, hp⟩ := hchain.mem_valid pn hpn
    exact ⟨getPage_pos hp, getPage_lt hp⟩
  have hgetN : getPage
      { file_hdr := { f.file_hdr with
          num_pages := f.file_hdr.num_pages + 1
          first_free_page_no := (f.file_hdr.num_pages : Int) }
        pages := f.pages ++ [{ hdr := { next_free_page_no := f.file_hdr.first_free_page_no,
                                        num_records := 0 }
                               bitmap := List.replicate f.file_hdr.num_records_per_page false
                               slots := List.replicate f.file_hdr.num_records_per_page [] }] }
      (f.file_hdr.num_pages : Int) =
      some { hdr := { next_free_page_no := f.file_hdr.first_free_page_no, num_records := 0 }
             bitmap := List.replicate f.file_hdr.num_records_per_page false
             slots := List.replicate f.file_hdr.num_records_per_page [] } := by
    unfold getPage
    rw [if_neg (by simp [RM_FIRST_RECORD_PAGE]; omega)]
    have : (((f.file_hdr.num_pages : Int)) - 1).toNat = f.pages.length := by omega
    rw [this]
    exact List.getElem?_concat_length _ _
  have hgetOld : ∀ pn, 1 ≤ pn → (pn - 1).toNat < f.pages.length →
      getPage
        { file_hdr := { f.file_hdr with
            num_pages := f.file_hdr.num_pages + 1
            first_free_page_no := (f.file_hdr.num_pages : Int) }
          pages := f.pages ++ [{ hdr := { next_free_page_no := f.file_hdr.first_free_page_no,
                                          num_records := 0 }
                                 bitmap := List.replicate f.file_hdr.num_records_per_page false
                                 slots := List.replicate f.file_hdr.num_records_per_page [] }] }
        pn = getPage f pn := by
    intro pn h1 h2
    unfold getPage
    rw [if_neg (by simp only [RM_FIRST_RECORD_PAGE]; omega),
      if_neg (by simp only [RM_FIRST_RECORD_PAGE]; omega)]
    rw [List.getElem?_append, if_pos h2]
  refine ⟨hrpp, ?_, ?_, (f.file_hdr.num_pages : Int) :: l, ?_, ?_, ?_, ?_⟩
  · simp [hnp]
  · intro p hp
    rcases List.mem_append.mp hp with hp | hp
    · exact hpages p hp
    · rcases List.mem_singleton.mp hp with rfl
      refine ⟨by simp, by simp, by simp [popcount, List.count_replicate]⟩
  · refine IsChain.cons (n := f.file_hdr.first_free_page_no) ?_ ?_
    · rw [nextOf, hgetN]
      rfl
    · refine IsChain.frame hchain ?_
      intro pn hpn
      obtain ⟨h1, h2⟩ := hvalid pn hpn
      rw [nextOf, nextOf, hgetOld pn h1 h2]
  · refine List.nodup_cons.mpr ⟨?_, hnodup⟩
    intro hmemN
    obtain ⟨h1, h2⟩ := hvalid _ hmemN
    omega
  · intro pn hpn
    rcases List.mem_cons.mp hpn with rfl | hpn
    · exact ⟨_, hgetN, by simpa using hrpp⟩
    · obtain ⟨p, hp, hlt⟩ := hmem pn hpn
      obtain ⟨h1, h2⟩ := hvalid pn hpn
      exact ⟨p, by rw [hgetOld pn h1 h2]; exact hp, hlt⟩
  · intro pn p hp hlt
    have h1 : 1 ≤ pn := getPage_pos hp
    have h2 := getPage_lt hp
    simp only [List.length_append, List.length_singleton] at h2
    by_cases he : (pn - 1).toNat < f.pages.length
    · rw [hgetOld pn h1 he] at hp
      exact List.mem_cons_of_mem _ (hcomp pn p hp hlt)
    · have : pn = (f.file_hdr.num_pages : Int) := by omega
      exact this ▸ List.mem_cons_self _ _

/-- Invariant preservation for `insert_record`. -/
theorem RmInv_insert {f : RmFile} {buf : Bytes} {rid : Rid} {f' : RmFile}
    (inv : RmInv f) (h : insert_record f buf = .ok (rid, f')) : RmInv f' := by
  unfold insert_record at h
  split at h
  · exact absurd h (by simp)
  · rename_i f₁ page_no heq
    unfold create_page_handle at heq
    split at heq
    · rw [Except.ok.injEq] at heq
      have h1 := congrArg Prod.fst heq
      have h2 := congrArg Prod.snd heq
      dsimp only at h1 h2
      subst h1
      subst h2
      exact RmInv_insertFill (RmInv_create_new inv) h
    · split at heq
      · exact absurd heq (by simp)
      · rw [Except.ok.injEq, Prod.mk.injEq] at heq
        obtain ⟨h1, h2⟩ := heq
        subst h1
        subst h2
        exact RmInv_insertFill inv h


/-- Invariant preservation for `insert_record(rid, buf)`, provided the
target page either is the freelist head or does not become full.  (When a
non-head page becomes full the source unlinks the freelist head instead of
the filled page, breaking the invariant; see the counterexample.) -/
theorem RmInv_insert_at {f : RmFile} {rid : Rid} {buf : Bytes} {f' : RmFile}
    (inv : RmInv f)
    (hcond : rid.page_no = f.file_hdr.first_free_page_no ∨
      (∀ page, getPage f rid.page_no = some page →
        page.hdr.num_records + 1 ≠ f.file_hdr.num_records_per_page))
    (h : insert_record_at f rid buf = .ok f') : RmInv f' := by
  obtain ⟨hrpp, hnp, hpages, l, hchain, hnodup, hmem, hcomp⟩ := inv
  unfold insert_record_at at h
  split at h
  · exact absurd h (by simp)
  split at h
  · exact absurd h (by simp)
  rename_i page hget
  split at h
  · exact absurd h (by simp)
  split at h
  · exact absurd h (by simp)
  rename_i hrange hbit
  push_neg at hrange
  simp only [Bool.not_eq_true] at hbit
  have hpos := getPage_pos hget
  obtain ⟨hblen, hslen, hcount⟩ := hpages page (getPage_mem hget)
  have hsltn : rid.slot_no.toNat < page.bitmap.length := by
    rw [hblen]; omega
  have hbitf : page.bitmap[rid.slot_no.toNat]? = some false := isClear_getElem hbit hsltn
  have hcnt : (bitmapSet page.bitmap rid.slot_no).count true =
      page.bitmap.count true + 1 := count_set_true hbitf
  have hsetlen : (bitmapSet page.bitmap rid.slot_no).length =
      f.file_hdr.num_records_per_page := by
    unfold bitmapSet
    rw [List.length_set]
    exact hblen
  have hbound : page.hdr.num_records + 1 ≤ f.file_hdr.num_records_per_page := by
    have := List.count_le_length true (bitmapSet page.bitmap rid.slot_no)
    simp only [popcount] at hcount
    omega
  dsimp only at h
  split at h
  · -- the page became full; by hypothesis it must be the freelist head
    rename_i hfull
    have hhead : rid.page_no = f.file_hdr.first_free_page_no := by
      rcases hcond with hh | hnf
      · exact hh
      · exact absurd (by simpa using hfull) (hnf page hget)
    rw [Except.ok.injEq] at h
    subst h
    rw [hhead] at hget hpos
    rcases hchain.head_cases with ⟨hh, rfl⟩ | ⟨n, l', rfl, hnext, hrest⟩
    · exfalso
      rw [hh] at hget
      simp [getPage, RM_NO_PAGE, RM_FIRST_RECORD_PAGE] at hget
    · have hn : n = page.hdr.next_free_page_no := by
        unfold nextOf at hnext
        rw [hget] at hnext
        exact (by simpa using hnext : page.hdr.next_free_page_no = n).symm
      subst hn
      have hnodup' := List.nodup_cons.mp hnodup
      refine ⟨hrpp, ?_, ?_, l', ?_, hnodup'.2, ?_, ?_⟩
      · simpa [setPage] using hnp
      · intro p hp
        rcases List.mem_or_eq_of_mem_set hp with hp | rfl
        · exact hpages p hp
        · refine ⟨hsetlen, by simpa using hslen, ?_⟩
          simp only [popcount] at hcount ⊢
          try dsimp only
          omega
      · refine IsChain.frame hrest ?_
        intro pn' hpn'
        have hne : pn' ≠ f.file_hdr.first_free_page_no :=
          fun he => hnodup'.1 (he ▸ hpn')
        rw [nextOf_set_hdr]
        rw [hhead]
        exact nextOf_setPage_other hpos hne
      · intro pn' hpn'
        obtain ⟨p, hp, hlt⟩ := hmem _ (List.mem_cons_of_mem _ hpn')
        have hne : pn' ≠ f.file_hdr.first_free_page_no :=
          fun he => hnodup'.1 (he ▸ hpn')
        refine ⟨p, ?_, hlt⟩
        show getPage (setPage f rid.page_no _) pn' = some p
        rw [hhead]
        rw [getPage_setPage_other hpos hne]
        exact hp
      · intro pn' p hp hlt
        have hlt' : p.hdr.num_records < f.file_hdr.num_records_per_page := by
          try dsimp only at hlt
          simpa [setPage] using hlt
        have hp' : getPage (setPage f rid.page_no
            { hdr := { next_free_page_no := RM_NO_PAGE,
                       num_records := page.hdr.num_records + 1 }
              bitmap := bitmapSet page.bitmap rid.slot_no
              slots := page.slots.set rid.slot_no.toNat buf }) pn' = some p := hp
        by_cases he : pn' = f.file_hdr.first_free_page_no
        · rw [he, ← hhead, getPage_setPage_self (hhead ▸ hget)] at hp'
          cases hp'
          exfalso
          try dsimp only at hlt'
          omega
        · rw [show rid.page_no = f.file_hdr.first_free_page_no from hhead] at hp'
          rw [getPage_setPage_other hpos he] at hp'
          have hm := hcomp _ p hp' hlt'
          exact (List.mem_cons.mp hm).resolve_left he
  · -- the page kept a free slot: the freelist is unchanged
    rename_i hnfull
    rw [Except.ok.injEq] at h
    subst h
    have hnfull' : page.hdr.num_records + 1 ≠ f.file_hdr.num_records_per_page := by
      simpa using hnfull
    refine ⟨hrpp, ?_, ?_, l, ?_, hnodup, ?_, ?_⟩
    · simpa [setPage] using hnp
    · intro p hp
      rcases List.mem_or_eq_of_mem_set hp with hp | rfl
      · exact hpages p hp
      · refine ⟨hsetlen, by simpa using hslen, ?_⟩
        simp only [popcount] at hcount ⊢
        try dsimp only
        omega
    · exact hchain.frame (fun pn' _ => nextOf_setPage_same_next
        { hdr := { next_free_page_no := page.hdr.next_free_page_no,
                   num_records := page.hdr.num_records + 1 }
          bitmap := bitmapSet page.bitmap rid.slot_no
          slots := page.slots.set rid.slot_no.toNat buf } hget rfl pn')
    · intro pn' hpn'
      obtain ⟨p, hp, hlt⟩ := hmem _ hpn'
      by_cases he : pn' = rid.page_no
      · subst he
        rw [hget] at hp
        cases hp
        refine ⟨_, getPage_setPage_self hget, ?_⟩
        simp only [setPage_file_hdr]
        try dsimp only
        simp only [popcount] at hcount
        omega
      · exact ⟨p, by rw [getPage_setPage_other hpos he]; exact hp, hlt⟩
    · intro pn' p hp hlt
      by_cases he : pn' = rid.page_no
      · subst he
        rw [getPage_setPage_self hget] at hp
        cases hp
        refine hcomp _ page hget ?_
        simp only [popcount] at hcount
        try dsimp only at hlt
        omega
      · rw [getPage_setPage_other hpos he] at hp
        refine hcomp _ p hp ?_
        simpa [setPage] using hlt



/-- An empty heap file with at least one slot per page satisfies the
heap-file invariant. -/
theorem RmInv_emptyFile {rpp : Nat} (h : 1 ≤ rpp) : RmInv (emptyFile rpp) := by
  refine ⟨h, rfl, by simp [emptyFile], [], .nil, by simp, by simp, ?_⟩
  intro pn p hp
  simp [getPage, emptyFile] at hp

/-- The scenario state is reached from the empty file by completed
record-manager mutations only. -/
theorem scenarioFile_reachable :
    (do
      let (_, f₁) ← insert_record (emptyFile 2) [10]
      let (_, f₂) ← insert_record f₁ [11]
      let (_, f₃) ← insert_record f₂ [12]
      delete_record f₃ ⟨1, 0⟩ : Except String RmFile) = .ok scenarioFile := by
  rfl

/-- `scenarioFile` satisfies the heap-file invariant. -/
theorem RmInv_scenarioFile : RmInv scenarioFile := by
  refine ⟨by simp [scenarioFile], rfl, ?_, [1, 2], ?_, by simp, ?_, ?_⟩
  · intro p hp
    simp only [scenarioFile, List.mem_cons] at hp
    rcases hp with rfl | hp
    · exact ⟨rfl, rfl, rfl⟩
    rcases hp with rfl | hp
    · exact ⟨rfl, rfl, rfl⟩
    · simp at hp
  · refine IsChain.cons (n := 2) rfl (IsChain.cons (n := -1) rfl ?_)
    exact .nil
  · intro pn hpn
    simp only [List.mem_cons] at hpn
    rcases hpn with rfl | hpn
    · exact ⟨_, rfl, by decide⟩
    rcases hpn with rfl | hpn
    · exact ⟨_, rfl, by decide⟩
    · simp at hpn
  · intro pn p hp hlt
    have h1 := getPage_pos hp
    have h2 := getPage_lt hp
    simp only [scenarioFile, List.length_cons, List.length_nil] at h2
    have : pn = 1 ∨ pn = 2 := by omega
    rcases this with rfl | rfl <;> simp


/-- C6: on an empty heap file with `records_per_page = 2`, inserting three
tuples returns rids (1,0), (1,1), (2,0) in order; after deleting (1,0) the
next insert reuses rid (1,0) — the lowest-index free slot of the
freelist-head page. -/
theorem insert_reuses_freed_slot :
    (do
      let (r₁, f₁) ← insert_record (emptyFile 2) [10]
      let (r₂, f₂) ← insert_record f₁ [11]
      let (r₃, f₃) ← insert_record f₂ [12]
      let f₄ ← delete_record f₃ ⟨1, 0⟩
      let (r₄, _) ← insert_record f₄ [13]
      pure (r₁, r₂, r₃, r₄) : Except String (Rid × Rid × Rid × Rid)) =
    .ok (⟨1, 0⟩, ⟨1, 1⟩, ⟨2, 0⟩, ⟨1, 0⟩) := by
  rfl

/-- C2 (counterexample): in the reachable state `scenarioFile`, the
completed mutation `insert_record(⟨2,1⟩, buf)` fills page 2, which is on
the freelist but is not its head; the code then sets the freelist head to
page 2's successor, so page 1 — which still has a free slot — is no longer
on the freelist and the claimed invariant is violated. -/
theorem insert_at_nonhead_breaks_invariant :
    insert_record_at scenarioFile ⟨2, 1⟩ [13] = .ok scenarioFileAfter ∧
    ¬ RmInv scenarioFileAfter := by
  refine ⟨by rfl, ?_⟩
  rintro ⟨-, -, -, l, hchain, -, -, hcomp⟩
  have hl : l = [] := IsChain.deterministic hchain .nil
  have h1 : (1 : Int) ∈ l :=
    hcomp 1 { hdr := { next_free_page_no := 2, num_records := 1 }
              bitmap := [false, true], slots := [[10], [11]] } rfl (by decide)
  rw [hl] at h1
  simp at h1

/-- C2 (amended): every completed `insert_record`, `delete_record` and
`update_record` preserves the heap-file invariant (bitmap population
counts match the record counts, and the freelist is a duplicate-free chain
containing exactly the non-full pages); a completed
`insert_record(rid, buf)` preserves it provided the target page is the
freelist head or does not become full. -/
theorem rm_mutations_preserve_invariant (f : RmFile) (rid : Rid) (buf : Bytes)
    (inv : RmInv f) :
    (∀ r f', insert_record f buf = .ok (r, f') → RmInv f') ∧
    (∀ f', delete_record f rid = .ok f' → RmInv f') ∧
    (∀ f', update_record f rid buf = .ok f' → RmInv f') ∧
    (∀ f', insert_record_at f rid buf = .ok f' →
      (rid.page_no = f.file_hdr.first_free_page_no ∨
        ∀ page, getPage f rid.page_no = some page →
          page.hdr.num_records + 1 ≠ f.file_hdr.num_records_per_page) →
      RmInv f') :=
  ⟨fun _ _ h => RmInv_insert inv h,
   fun _ h => RmInv_delete inv h,
   fun _ h => RmInv_update inv h,
   fun _ h hc => RmInv_insert_at inv hc h⟩

/-- Witness for the amended C2 theorem: deleting rid (2,0) in the concrete
scenario state succeeds and the invariant holds afterwards. -/
theorem rm_mutations_preserve_invariant_witness :
    ∃ f', delete_record scenarioFile ⟨2, 0⟩ = .ok f' ∧ RmInv f' := by
  refine ⟨_, rfl, ?_⟩
  exact (rm_mutations_preserve_invariant scenarioFile ⟨2, 0⟩ []
    RmInv_scenarioFile).2.1 _ rfl


end RM

/-!  ## Theorems about the lock manager  -/

namespace LM

theorem addLock_state (txn : Transaction) (id : LockDataId) :
    (addLock txn id).state = txn.state := by
  unfold addLock
  split <;> rfl

theorem applyCall_txn_state (c : LMCall) (txn : Transaction) (table : LockTable) :
    (applyCall c txn table).txn.state = (check_lock txn).2.state := by
  cases c <;>
    (simp only [applyCall, lock_shared_on_record, lock_exclusive_on_record,
       lock_shared_on_gap, lock_exclusive_on_gap, lock_shared_on_table,
       lock_exclusive_on_table, lock_IS_on_table, lock_IX_on_table]
     rcases h : check_lock txn with ⟨r, t⟩
     rcases r with b | a
     all_goals try (cases b)
     all_goals dsimp only
     all_goals (repeat' split)
     all_goals simp [addLock_state])


theorem eq_refl (a : LockDataId) : LockDataId.eq a a = true := by
  unfold LockDataId.eq
  simp

theorem eq_gap_any_rid (a : LockDataId) (fd : Int) (r r' : RM.Rid) :
    LockDataId.eq a ⟨fd, r, .GAP⟩ = LockDataId.eq a ⟨fd, r', .GAP⟩ := by
  unfold LockDataId.eq
  by_cases h : a.type = LockDataType.GAP <;> simp [h]

theorem ensureQueue_of_found {table : LockTable} {id : LockDataId} {q : LockRequestQueue}
    (h : findQueue table id = some q) : ensureQueue table id = table := by
  unfold ensureQueue
  unfold findQueue at h
  cases hf : table.find? (fun kv => LockDataId.eq kv.1 id) with
  | none => rw [hf] at h; cases h
  | some kv => simp [hf]

theorem findQueue_setQueue_self {table : LockTable} {id : LockDataId} {q₀ : LockRequestQueue}
    (h : findQueue table id = some q₀) (q : LockRequestQueue) :
    findQueue (setQueue table id q) id = some q := by
  induction table with
  | nil => simp [findQueue] at h
  | cons kv rest ih =>
    by_cases he : LockDataId.eq kv.1 id = true
    · unfold setQueue findQueue
      simp only [List.map_cons, if_pos he]
      rw [List.find?_cons_of_pos _ (by simpa using he)]
      rfl
    · have h' : findQueue rest id = some q₀ := by
        unfold findQueue at h
        rw [List.find?_cons_of_neg _ (by simpa using he)] at h
        exact h
      have hr := ih h'
      unfold setQueue findQueue at hr ⊢
      simp only [List.map_cons, if_neg he]
      rw [List.find?_cons_of_neg _ (by simpa using he)]
      exact hr


theorem applyCall_finished (c : LMCall) (txn : Transaction) (table : LockTable)
    (h : txn.state = .COMMITTED ∨ txn.state = .ABORTED) :
    applyCall c txn table = ⟨.ok false, txn, table⟩ := by
  have hc : check_lock txn = (.ok false, txn) := by
    unfold check_lock
    rw [if_pos h]
  cases c <;>
    simp only [applyCall, lock_shared_on_record, lock_exclusive_on_record,
      lock_shared_on_gap, lock_exclusive_on_gap, lock_shared_on_table,
      lock_exclusive_on_table, lock_IS_on_table, lock_IX_on_table, hc]

theorem applyCall_shrinking (c : LMCall) (txn : Transaction) (table : LockTable)
    (h : txn.state = .SHRINKING) :
    applyCall c txn table = ⟨.thrown .LOCK_ON_SHIRINKING, txn, table⟩ := by
  have hc : check_lock txn = (.thrown .LOCK_ON_SHIRINKING, txn) := by
    unfold check_lock
    rw [if_neg (by simp [h]), if_pos h]
  cases c <;>
    simp only [applyCall, lock_shared_on_record, lock_exclusive_on_record,
      lock_shared_on_gap, lock_exclusive_on_gap, lock_shared_on_table,
      lock_exclusive_on_table, lock_IS_on_table, lock_IX_on_table, hc]

theorem computeGroupMode_X_of_mem {rq : List LockRequest} {r : LockRequest}
    (hm : r ∈ rq) (hx : r.lock_mode = .EXLUCSIVE) :
    computeGroupMode rq = .X := by
  unfold computeGroupMode
  rw [if_pos]
  exact List.any_eq_true.mpr ⟨r, hm, by simp [hx]⟩

theorem check_lock_live {txn : Transaction}
    (h : txn.state = .DEFAULT ∨ txn.state = .GROWING) :
    check_lock txn = (.ok true,
      if txn.state = .DEFAULT then { txn with state := .GROWING } else txn) := by
  unfold check_lock
  rcases h with h | h <;> simp [h]


/-- C3: every lock-manager acquisition entry point (table, record and gap
locks in every mode) first consults the transaction state: COMMITTED or
ABORTED transactions get `false` back with the lock table untouched,
SHRINKING transactions raise `LockOnShrinking`, and a DEFAULT transaction
transitions to GROWING; moreover `lock_shared_on_record` raises
`DeadlockPrevention` immediately whenever a different transaction holds an
exclusive lock on the same record. -/
theorem lm_entry_state_protocol (c : LMCall) (txn : Transaction) (table : LockTable) :
    (txn.state = .COMMITTED ∨ txn.state = .ABORTED →
      applyCall c txn table = ⟨.ok false, txn, table⟩) ∧
    (txn.state = .SHRINKING →
      applyCall c txn table = ⟨.thrown .LOCK_ON_SHIRINKING, txn, table⟩) ∧
    (txn.state = .DEFAULT → (applyCall c txn table).txn.state = .GROWING) ∧
    (∀ rid fd q, txn.state = .DEFAULT ∨ txn.state = .GROWING →
      findQueue table ⟨fd, rid, .RECORD⟩ = some q →
      q.group_lock_mode = computeGroupMode q.request_queue →
      (∃ r ∈ q.request_queue, r.txn_id ≠ txn.txn_id ∧ r.lock_mode = .EXLUCSIVE) →
      (∀ r ∈ q.request_queue, r.txn_id = txn.txn_id →
        ¬(r.lock_mode = .SHARED ∨ r.lock_mode = .EXLUCSIVE)) →
      (lock_shared_on_record txn rid fd table).result =
        .thrown .DEADLOCK_PREVENTION) := by
  refine ⟨applyCall_finished c txn table, applyCall_shrinking c txn table, ?_, ?_⟩
  · intro h
    rw [applyCall_txn_state]
    simp [check_lock, h]
  · rintro rid fd q hlive hq hgc ⟨r, hrm, hrne, hrx⟩ hnoSX
    have hc := check_lock_live hlive
    unfold lock_shared_on_record
    rw [hc]
    dsimp only
    rw [ensureQueue_of_found hq, hq]
    dsimp only [Option.getD]
    have hid : (if txn.state = .DEFAULT then { txn with state := .GROWING }
        else txn).txn_id = txn.txn_id := by
      split <;> rfl
    rw [if_neg ?hany, if_pos (Or.inl (hgc.trans (computeGroupMode_X_of_mem hrm hrx)))]
    case hany =>
      simp only [List.any_eq_true, not_exists]
      rintro x ⟨hx, hpx⟩
      rw [hid] at hpx
      exact absurd (by simpa using hpx : x.txn_id = txn.txn_id ∧
        (x.lock_mode = .SHARED ∨ x.lock_mode = .EXLUCSIVE)).2
        (hnoSX x hx (by simpa using hpx : x.txn_id = txn.txn_id ∧
          (x.lock_mode = .SHARED ∨ x.lock_mode = .EXLUCSIVE)).1)


/-- C9: `unlock` on a lock the transaction does not hold (no queue for the
id, or no request of this transaction in it) still moves a GROWING
transaction to SHRINKING, returns true and leaves the lock table
unchanged; every later acquisition by the transaction then raises
`LockOnShrinking`. -/
theorem unlock_without_held_lock (txn : Transaction) (id : LockDataId)
    (table : LockTable) (hst : txn.state = .GROWING)
    (hnot : ∀ q, findQueue table id = some q →
      ∀ r ∈ q.request_queue, r.txn_id ≠ txn.txn_id) :
    unlock txn id table = ⟨.ok true, { txn with state := .SHRINKING }, table⟩ ∧
    ∀ c table', (applyCall c { txn with state := .SHRINKING } table').result =
      .thrown .LOCK_ON_SHIRINKING := by
  constructor
  · unfold unlock
    rw [if_neg (by simp [hst]), if_pos hst]
    cases hq : findQueue table id with
    | none => rfl
    | some q =>
      dsimp only
      rw [List.find?_eq_none.mpr ?hn]
      case hn =>
        intro r hr
        simpa using hnot q hq r hr
  · intro c table'
    rw [applyCall_shrinking c _ _ rfl]

/-- Witness for C9 at a concrete growing transaction and empty table. -/
theorem unlock_without_held_lock_witness :
    unlock ⟨5, .GROWING, []⟩ (LockDataId.table 3) [] =
      ⟨.ok true, ⟨5, .SHRINKING, []⟩, []⟩ ∧
    ∀ c table',
      (applyCall c ⟨5, .SHRINKING, []⟩ table').result =
        .thrown .LOCK_ON_SHIRINKING :=
  unlock_without_held_lock ⟨5, .GROWING, []⟩ (LockDataId.table 3) [] rfl
    (fun q h => nomatch h)

/-- Witness for C3 at a concrete committed transaction. -/
theorem lm_entry_state_protocol_witness :
    applyCall (.sharedRecord ⟨1, 0⟩ 3) ⟨7, .COMMITTED, []⟩ [] =
      ⟨.ok false, ⟨7, .COMMITTED, []⟩, []⟩ :=
  (lm_entry_state_protocol (.sharedRecord ⟨1, 0⟩ 3) ⟨7, .COMMITTED, []⟩ []).1
    (Or.inl rfl)


theorem check_lock_growing {txn : Transaction} (h : txn.state = .GROWING) :
    check_lock txn = (.ok true, txn) := by
  unfold check_lock
  simp [h]

theorem find?_replaceFirst {rq : List LockRequest} {tid : Nat} {req : LockRequest}
    (h : rq.find? (fun r => r.txn_id = tid) = some req) (m : LockMode) :
    (replaceFirst rq tid m).find? (fun r => r.txn_id = tid) =
      some { req with lock_mode := m } := by
  induction rq with
  | nil => simp at h
  | cons r rest ih =>
    by_cases he : r.txn_id = tid
    · rw [List.find?_cons_of_pos _ (by simpa using he)] at h
      cases h
      unfold replaceFirst
      rw [if_pos he]
      rw [List.find?_cons_of_pos _ (by simpa using he)]
    · rw [List.find?_cons_of_neg _ (by simpa using he)] at h
      unfold replaceFirst
      rw [if_neg he]
      rw [List.find?_cons_of_neg _ (by simpa using he)]
      exact ih h

theorem computeGroupMode_ne_X {rq : List LockRequest}
    (h : ∀ r ∈ rq, r.lock_mode ≠ .EXLUCSIVE) :
    computeGroupMode rq ≠ .X := by
  unfold computeGroupMode
  rw [if_neg]
  · split
    · simp
    split
    · simp
    split
    · simp
    split
    · simp
    · simp
  · simp only [List.any_eq_true, not_exists]
    rintro r ⟨hr, hx⟩
    exact h r hr (by simpa using hx)

theorem two_le_filter_length {rq : List LockRequest} {a b : LockRequest}
    (p : LockRequest → Bool)
    (ha : a ∈ rq) (hb : b ∈ rq) (hne : a ≠ b) (hpa : p a) (hpb : p b) :
    2 ≤ (rq.filter p).length := by
  have ha' : a ∈ rq.filter p := List.mem_filter.mpr ⟨ha, hpa⟩
  have hb' : b ∈ rq.filter p := List.mem_filter.mpr ⟨hb, hpb⟩
  have hb'' : b ∈ (rq.filter p).erase a := (List.mem_erase_of_ne (Ne.symm hne)).mpr hb'
  have h1 := List.length_pos_of_mem hb''
  have h2 := List.length_erase_of_mem ha'
  omega


/-- C5: with T the sole shared holder of a record (shared_count 1, no
exclusive request), `lock_exclusive_on_record` upgrades in place — T's
request becomes X, the group mode becomes X and shared_count drops to 0;
while if any other transaction also holds a lock on the record the call
raises `DeadlockPrevention`. -/
theorem record_shared_to_exclusive_upgrade (txn : Transaction) (rid : RM.Rid)
    (fd : Int) (table : LockTable) (q : LockRequestQueue) (req : LockRequest)
    (hst : txn.state = .GROWING)
    (hq : findQueue table ⟨fd, rid, .RECORD⟩ = some q)
    (hfind : q.request_queue.find? (fun r => r.txn_id = txn.txn_id) = some req)
    (hmode : req.lock_mode = .SHARED) :
    (q.shared_lock_num = 1 →
      (∀ r ∈ q.request_queue, r.lock_mode ≠ .EXLUCSIVE) →
      q.group_lock_mode = computeGroupMode q.request_queue →
      ∃ table', lock_exclusive_on_record txn rid fd table =
          ⟨.ok true, txn, table'⟩ ∧
        ∃ q', findQueue table' ⟨fd, rid, .RECORD⟩ = some q' ∧
          q'.group_lock_mode = .X ∧ q'.shared_lock_num = 0 ∧
          q'.request_queue.find? (fun r => r.txn_id = txn.txn_id) =
            some { req with lock_mode := .EXLUCSIVE }) ∧
    (∀ other ∈ q.request_queue, other.txn_id ≠ txn.txn_id →
      q.group_lock_mode = computeGroupMode q.request_queue →
      q.shared_lock_num = ((q.request_queue.filter
        (fun r => r.lock_mode = .SHARED ∨ r.lock_mode = .S_IX)).length : Int) →
      (∀ r ∈ q.request_queue, r.lock_mode = .SHARED ∨ r.lock_mode = .EXLUCSIVE) →
      (lock_exclusive_on_record txn rid fd table).result =
        .thrown .DEADLOCK_PREVENTION) := by
  have hreq_mem : req ∈ q.request_queue := List.mem_of_find?_eq_some hfind
  have hreq_id : req.txn_id = txn.txn_id := by
    have := List.find?_some hfind
    simpa using this
  constructor
  · intro hshared hnoX hgc
    have hgx : q.group_lock_mode ≠ .X := hgc ▸ computeGroupMode_ne_X hnoX
    unfold lock_exclusive_on_record
    rw [check_lock_growing hst]
    dsimp only
    rw [ensureQueue_of_found hq, hq]
    dsimp only [Option.getD]
    rw [hfind]
    dsimp only
    rw [hmode]
    rw [if_neg (by simp), if_pos rfl, if_neg hgx, if_pos hshared]
    refine ⟨_, rfl, ?_⟩
    refine ⟨_, findQueue_setQueue_self hq _, rfl, by rw [hshared]; rfl, ?_⟩
    exact find?_replaceFirst hfind .EXLUCSIVE
  · intro other hmem hneq hgc hsc hrec
    by_cases hX : ∃ r ∈ q.request_queue, r.lock_mode = .EXLUCSIVE
    · obtain ⟨r, hrm, hrx⟩ := hX
      have hgx : q.group_lock_mode = .X := hgc.trans (computeGroupMode_X_of_mem hrm hrx)
      unfold lock_exclusive_on_record
      rw [check_lock_growing hst]
      dsimp only
      rw [ensureQueue_of_found hq, hq]
      dsimp only [Option.getD]
      rw [hfind]
      dsimp only
      rw [hmode]
      rw [if_neg (by simp), if_pos rfl, if_pos hgx]
    · push_neg at hX
      have hosh : other.lock_mode = .SHARED :=
        (hrec other hmem).resolve_right (hX other hmem)
      have hne : req ≠ other := by
        intro he
        rw [he] at hreq_id
        exact hneq hreq_id
      have h2 : 2 ≤ ((q.request_queue.filter
          (fun r => r.lock_mode = .SHARED ∨ r.lock_mode = .S_IX)).length : Int) := by
        have := two_le_filter_length
          (fun r => r.lock_mode = .SHARED ∨ r.lock_mode = .S_IX)
          hreq_mem hmem hne (by simp [hmode]) (by simp [hosh])
        exact_mod_cast this
      have hone' : q.shared_lock_num ≠ 1 := by omega
      have hgx : q.group_lock_mode ≠ .X := by
        rw [hgc]
        exact computeGroupMode_ne_X hX
      unfold lock_exclusive_on_record
      rw [check_lock_growing hst]
      dsimp only
      rw [ensureQueue_of_found hq, hq]
      dsimp only [Option.getD]
      rw [hfind]
      dsimp only
      rw [hmode]
      rw [if_neg (by simp), if_pos rfl, if_neg hgx, if_neg hone']


/-- Witness for C5: a concrete sole-shared-holder queue upgrades to X. -/
theorem record_shared_to_exclusive_upgrade_witness :
    ∃ table', lock_exclusive_on_record ⟨1, .GROWING, []⟩ ⟨1, 0⟩ 3
        [(⟨3, ⟨1, 0⟩, .RECORD⟩, ⟨[⟨1, .SHARED, true⟩], .S, 1, 0⟩)] =
        ⟨.ok true, ⟨1, .GROWING, []⟩, table'⟩ ∧
      ∃ q', findQueue table' ⟨3, ⟨1, 0⟩, .RECORD⟩ = some q' ∧
        q'.group_lock_mode = .X ∧ q'.shared_lock_num = 0 ∧
        q'.request_queue.find? (fun r => r.txn_id = (1 : Nat)) =
          some ⟨1, .EXLUCSIVE, true⟩ :=
  (record_shared_to_exclusive_upgrade ⟨1, .GROWING, []⟩ ⟨1, 0⟩ 3
    [(⟨3, ⟨1, 0⟩, .RECORD⟩, ⟨[⟨1, .SHARED, true⟩], .S, 1, 0⟩)]
    ⟨[⟨1, .SHARED, true⟩], .S, 1, 0⟩ ⟨1, .SHARED, true⟩
    rfl (by decide) (by decide) rfl).1 rfl (by decide) (by decide)


theorem computeGroupMode_ne_NON_LOCK {rq : List LockRequest} {r : LockRequest}
    (hm : r ∈ rq) : computeGroupMode rq ≠ .NON_LOCK := by
  unfold computeGroupMode
  split
  · simp
  split
  · simp
  split
  · simp
  split
  · simp
  split
  · simp
  · rename_i h1 h2 h3 h4 h5
    exfalso
    cases hmode : r.lock_mode
    · exact h5 (List.any_eq_true.mpr ⟨r, hm, by simp [hmode]⟩)
    · exact h4 (List.any_eq_true.mpr ⟨r, hm, by simp [hmode]⟩)
    · exact h3 (List.any_eq_true.mpr ⟨r, hm, by simp [hmode]⟩)
    · exact h1 (List.any_eq_true.mpr ⟨r, hm, by simp [hmode]⟩)
    · exact h2 (List.any_eq_true.mpr ⟨r, hm, by simp [hmode]⟩)

theorem findQueue_gap_irrel (table : LockTable) (fd : Int) (r r' : RM.Rid) :
    findQueue table ⟨fd, r, .GAP⟩ = findQueue table ⟨fd, r', .GAP⟩ := by
  unfold findQueue
  have : (fun kv : LockDataId × LockRequestQueue => LockDataId.eq kv.1 ⟨fd, r, .GAP⟩) =
      (fun kv => LockDataId.eq kv.1 ⟨fd, r', .GAP⟩) :=
    funext fun kv => eq_gap_any_rid kv.1 fd r r'
  rw [this]

/-- C4: for one file descriptor, gap-lock identifiers built from any two
key ranges compare equal and hash equal (`Get` ignores the range), so all
gap locks of a file alias to one resource; consequently, while one
transaction holds a shared gap lock registered under any range, a
different transaction's `lock_exclusive_on_gap` with any other range finds
the same queue and raises `DeadlockPrevention`. -/
theorem gap_lock_collapse (fd l₁ r₁ l₂ r₂ : Int) (t₁ t₂ : Transaction)
    (table : LockTable) (q : LockRequestQueue)
    (h₂ : t₂.state = .DEFAULT ∨ t₂.state = .GROWING)
    (hq : findQueue table ⟨fd, ⟨l₁, r₁⟩, .GAP⟩ = some q)
    (hs : ∃ r ∈ q.request_queue, r.txn_id = t₁.txn_id ∧ r.lock_mode = .SHARED)
    (hgc : q.group_lock_mode = computeGroupMode q.request_queue)
    (hnoreq : ∀ r ∈ q.request_queue, r.txn_id ≠ t₂.txn_id) :
    (∀ ra rb : RM.Rid, LockDataId.eq ⟨fd, ra, .GAP⟩ ⟨fd, rb, .GAP⟩ = true ∧
      LockDataId.Get ⟨fd, ra, .GAP⟩ = LockDataId.Get ⟨fd, rb, .GAP⟩) ∧
    (lock_exclusive_on_gap t₂ fd l₂ r₂ table).result =
      .thrown .DEADLOCK_PREVENTION := by
  constructor
  · intro ra rb
    constructor
    · unfold LockDataId.eq
      simp
    · rfl
  · obtain ⟨r, hrm, _, _⟩ := hs
    have hq₂ : findQueue table ⟨fd, ⟨l₂, r₂⟩, .GAP⟩ = some q :=
      (findQueue_gap_irrel table fd ⟨l₂, r₂⟩ ⟨l₁, r₁⟩).trans hq
    unfold lock_exclusive_on_gap
    rw [check_lock_live h₂]
    dsimp only
    rw [ensureQueue_of_found hq₂, hq₂]
    dsimp only [Option.getD]
    rw [List.find?_eq_none.mpr ?hn]
    case hn =>
      intro x hx
      have hid : (if t₂.state = .DEFAULT then { t₂ with state := .GROWING }
          else t₂).txn_id = t₂.txn_id := by
        split <;> rfl
      simp only [hid]
      simpa using hnoreq x hx
    dsimp only
    rw [if_pos (by rw [hgc]; exact computeGroupMode_ne_NON_LOCK hrm)]


/-- Witness for C4: after T1 takes a shared gap lock for range [10,20] of
file 3, T2's exclusive gap request for the disjoint range [15,15] on the
same file hits the same collapsed resource and is aborted. -/
theorem gap_lock_collapse_witness :
    (lock_exclusive_on_gap ⟨2, .GROWING, []⟩ 3 15 15
      (lock_shared_on_gap ⟨1, .GROWING, []⟩ 3 10 20 []).table).result =
      .thrown .DEADLOCK_PREVENTION :=
  (gap_lock_collapse 3 10 20 15 15 ⟨1, .GROWING, []⟩ ⟨2, .GROWING, []⟩
    (lock_shared_on_gap ⟨1, .GROWING, []⟩ 3 10 20 []).table
    ⟨[⟨1, .SHARED, true⟩], .S, 1, 0⟩
    (Or.inr rfl) (by decide) ⟨⟨1, .SHARED, true⟩, by decide, rfl, rfl⟩
    (by decide) (by decide)).2


end LM

/-!  ## Theorems about the transaction manager  -/

namespace TM

theorem alookup_cons {κ α : Type} [DecidableEq κ] (kv : κ × α)
    (r : List (κ × α)) (k : κ) :
    alookup (kv :: r) k = if kv.1 = k then some kv.2 else alookup r k := by
  by_cases h : kv.1 = k <;> simp [alookup, List.find?_cons, h]

theorem alookup_eq_none_iff {κ α : Type} [DecidableEq κ]
    (l : List (κ × α)) (k : κ) :
    alookup l k = none ↔ k ∉ l.map Prod.fst := by
  induction l with
  | nil => simp [alookup]
  | cons kv r ih =>
    rw [alookup_cons]
    by_cases h : kv.1 = k
    · simp [h]
    · rw [if_neg h, ih, List.map_cons, List.mem_cons]
      constructor
      · intro hn hor
        rcases hor with h1 | h2
        · exact h h1.symm
        · exact hn h2
      · intro hn h2
        exact hn (Or.inr h2)

theorem alookup_append {κ α : Type} [DecidableEq κ] (l : List (κ × α))
    (k k' : κ) (a : α) :
    alookup (l ++ [(k, a)]) k' =
      match alookup l k' with
      | some b => some b
      | none => if k' = k then some a else none := by
  induction l with
  | nil =>
    rw [List.nil_append, alookup_cons]
    by_cases h : k = k'
    · subst h; simp [alookup]
    · have h2 : ¬ k' = k := fun hh => h hh.symm
      simp [alookup, h, h2]
  | cons kv r ih =>
    rw [List.cons_append, alookup_cons, alookup_cons]
    by_cases h : kv.1 = k' <;> simp [h, ih]

theorem alookup_append_self {κ α : Type} [DecidableEq κ] {l : List (κ × α)}
    {k : κ} (a : α) (h : alookup l k = none) :
    alookup (l ++ [(k, a)]) k = some a := by
  rw [alookup_append, h]; simp

theorem alookup_append_ne {κ α : Type} [DecidableEq κ] {l : List (κ × α)}
    {k k' : κ} (a : α) (h : k' ≠ k) :
    alookup (l ++ [(k, a)]) k' = alookup l k' := by
  rw [alookup_append]
  cases hl : alookup l k' with
  | some b => rfl
  | none => simp [h]

theorem aerase_cons {κ α : Type} [DecidableEq κ] (kv : κ × α)
    (r : List (κ × α)) (k : κ) :
    aerase (kv :: r) k = if kv.1 = k then r else kv :: aerase r k := by
  by_cases h : kv.1 = k <;> simp [aerase, List.eraseP_cons, h]

theorem alookup_aerase_self {κ α : Type} [DecidableEq κ]
    {l : List (κ × α)} (k : κ) (h : NodupKeys l) :
    alookup (aerase l k) k = none := by
  induction l with
  | nil => simp [aerase, alookup]
  | cons kv r ih =>
    unfold NodupKeys at h
    rw [List.map_cons, List.nodup_cons] at h
    rw [aerase_cons]
    by_cases h0 : kv.1 = k
    · rw [if_pos h0, alookup_eq_none_iff]
      rw [← h0]; exact h.1
    · rw [if_neg h0, alookup_cons, if_neg h0]
      exact ih h.2

theorem alookup_aerase_ne {κ α : Type} [DecidableEq κ]
    {l : List (κ × α)} {k k' : κ} (h : k' ≠ k) :
    alookup (aerase l k) k' = alookup l k' := by
  induction l with
  | nil => rfl
  | cons kv r ih =>
    rw [aerase_cons]
    by_cases h0 : kv.1 = k
    · rw [if_pos h0, alookup_cons, if_neg (by rw [h0]; exact fun hh => h hh.symm)]
    · rw [if_neg h0, alookup_cons, alookup_cons, ih]

theorem NodupKeys_aerase {κ α : Type} [DecidableEq κ]
    {l : List (κ × α)} (k : κ) (h : NodupKeys l) : NodupKeys (aerase l k) :=
  List.Nodup.sublist (List.Sublist.map _ (List.eraseP_sublist _)) h

theorem aset_keys {κ α : Type} [DecidableEq κ] (l : List (κ × α))
    (k : κ) (a : α) : (aset l k a).map Prod.fst = l.map Prod.fst := by
  induction l with
  | nil => rfl
  | cons kv r ih =>
    unfold aset
    by_cases h : kv.1 = k
    · rw [if_pos h, List.map_cons, List.map_cons, h]
    · rw [if_neg h, List.map_cons, List.map_cons, ih]

theorem NodupKeys_aset {κ α : Type} [DecidableEq κ]
    {l : List (κ × α)} (k : κ) (a : α) (h : NodupKeys l) :
    NodupKeys (aset l k a) := by
  unfold NodupKeys; rw [aset_keys]; exact h

theorem alookup_aset_self {κ α : Type} [DecidableEq κ]
    {l : List (κ × α)} {k : κ} (a : α) (h : (alookup l k).isSome) :
    alookup (aset l k a) k = some a := by
  induction l with
  | nil => simp [alookup] at h
  | cons kv r ih =>
    unfold aset
    by_cases h0 : kv.1 = k
    · rw [if_pos h0, alookup_cons, if_pos rfl]
    · rw [if_neg h0, alookup_cons, if_neg h0]
      rw [alookup_cons, if_neg h0] at h
      exact ih h

theorem alookup_aset_ne {κ α : Type} [DecidableEq κ]
    {l : List (κ × α)} {k k' : κ} (a : α) (h : k' ≠ k) :
    alookup (aset l k a) k' = alookup l k' := by
  induction l with
  | nil => rfl
  | cons kv r ih =>
    unfold aset
    by_cases h0 : kv.1 = k
    · have h3 : ¬ k = k' := fun hh => h hh.symm
      rw [if_pos h0]
      simp [alookup_cons, h0, h3]
    · rw [if_neg h0, alookup_cons, alookup_cons, ih]

theorem NodupKeys_append_fresh {κ α : Type} [DecidableEq κ]
    {l : List (κ × α)} {k : κ} (a : α) (h : NodupKeys l)
    (hk : alookup l k = none) : NodupKeys (l ++ [(k, a)]) := by
  unfold NodupKeys
  rw [List.map_append]
  refine List.Nodup.append h (List.nodup_singleton k) ?_
  intro x hx hx2
  rw [List.map_singleton, List.mem_singleton] at hx2
  subst hx2
  exact (alookup_eq_none_iff l x).mp hk hx

theorem alookup_insert_entry_self {l : List (Key × RM.Rid)} {k : Key}
    (r : RM.Rid) (h : alookup l k = none) :
    alookup (insert_entry l k r) k = some r := by
  unfold insert_entry
  rw [h]
  simp only [Option.isSome_none, Bool.false_eq_true, if_false]
  exact alookup_append_self r h

theorem alookup_insert_entry_ne {l : List (Key × RM.Rid)} {k k' : Key}
    (r : RM.Rid) (h : k' ≠ k) :
    alookup (insert_entry l k r) k' = alookup l k' := by
  unfold insert_entry
  split
  · rfl
  · exact alookup_append_ne r h

theorem NodupKeys_insert_entry {l : List (Key × RM.Rid)} (k : Key)
    (r : RM.Rid) (h : NodupKeys l) : NodupKeys (insert_entry l k r) := by
  unfold insert_entry
  split
  · exact h
  · next hs => exact NodupKeys_append_fresh r h (Option.not_isSome_iff_eq_none.mp hs)

end TM

namespace TM

theorem all_zip_getElem {α β : Type} (l₁ : List α) (l₂ : List β)
    (p : α × β → Bool) (h : (l₁.zip l₂).all p = true) :
    ∀ (i : Nat) (a : α) (b : β),
      l₁[i]? = some a → l₂[i]? = some b → p (a, b) = true := by
  induction l₁ generalizing l₂ with
  | nil => intro i a b h1; simp at h1
  | cons x r ih =>
    cases l₂ with
    | nil => intro i a b _ h2; simp at h2
    | cons y r2 =>
      rw [List.zip_cons_cons, List.all_cons, Bool.and_eq_true] at h
      intro i a b h1 h2
      cases i with
      | zero =>
        rw [List.getElem?_cons_zero] at h1 h2
        injection h1 with h1; injection h2 with h2
        subst h1; subst h2
        exact h.1
      | succ n =>
        rw [List.getElem?_cons_succ] at h1 h2
        exact ih r2 h.2 n a b h1 h2

theorem getElem?_undoSub (idxs : List (List (Key × RM.Rid)))
    (sub : IndexWriteRecord) (i : Nat) :
    (undoSub idxs sub)[i]? =
      if sub.idx = i then (applySub sub) <$> idxs[i]? else idxs[i]? := by
  unfold undoSub
  rw [List.getElem?_modify]
  by_cases h : sub.idx = i
  · simp [h]
  · simp [h]

theorem foldl_undoSub_getElem (subs : List IndexWriteRecord)
    (idxs : List (List (Key × RM.Rid))) (i : Nat) :
    (subs.foldl undoSub idxs)[i]? =
      (subs.filter (fun sub => sub.idx == i)).foldl
        (fun o sub => (applySub sub) <$> o) idxs[i]? := by
  induction subs generalizing idxs with
  | nil => rfl
  | cons sub rest ih =>
    rw [List.foldl_cons, ih, List.filter_cons]
    by_cases h : sub.idx = i
    · simp only [h, beq_self_eq_true, if_pos, List.foldl_cons]
      rw [getElem?_undoSub, if_pos h]
    · have hb : (sub.idx == i) = false := by simp [h]
      rw [hb]
      simp only [Bool.false_eq_true, if_false]
      rw [getElem?_undoSub, if_neg h]

theorem foldl_applySub_none (subs : List IndexWriteRecord) :
    subs.foldl (fun o sub => (applySub sub) <$> o)
      (none : Option (List (Key × RM.Rid))) = none := by
  induction subs with
  | nil => rfl
  | cons sub rest ih => rw [List.foldl_cons]; exact ih

theorem length_foldl_undoSub (subs : List IndexWriteRecord)
    (idxs : List (List (Key × RM.Rid))) :
    (subs.foldl undoSub idxs).length = idxs.length := by
  induction subs generalizing idxs with
  | nil => rfl
  | cons sub rest ih =>
    rw [List.foldl_cons, ih]
    unfold undoSub
    exact List.length_modify _ _ _

theorem NodupKeys_applySub (sub : IndexWriteRecord)
    {l : List (Key × RM.Rid)} (h : NodupKeys l) : NodupKeys (applySub sub l) := by
  unfold applySub
  cases sub.op_type with
  | INDEX_INSERT => exact NodupKeys_aerase _ h
  | INDEX_DELETE => exact NodupKeys_insert_entry _ _ h

theorem foldl_applySub_nodup (subs : List IndexWriteRecord)
    (o : Option (List (Key × RM.Rid)))
    (h : ∀ l, o = some l → NodupKeys l) :
    ∀ l', subs.foldl (fun o sub => (applySub sub) <$> o) o = some l' →
      NodupKeys l' := by
  induction subs generalizing o with
  | nil => exact h
  | cons sub rest ih =>
    rw [List.foldl_cons]
    refine ih _ ?_
    intro l hl
    cases ho : o with
    | none => rw [ho] at hl; simp at hl
    | some l0 =>
      rw [ho] at hl
      simp only [Option.map_some] at hl
      injection hl with hl
      subst hl
      exact NodupKeys_applySub sub (h l0 ho)

end TM

namespace TM

theorem insSubs_filter_lt (b : RM.Bytes) (rid : RM.Rid)
    (exts : List (RM.Bytes → Key)) :
    ∀ off i : Nat, i < off →
      (insSubs b rid off exts).filter (fun sub => sub.idx == i) = [] := by
  induction exts with
  | nil => intro off i _; rfl
  | cons ext rest ih =>
    intro off i h
    rw [insSubs, List.filter_cons]
    have hb : ((⟨off, ext b, rid, .INDEX_INSERT⟩ :
        IndexWriteRecord).idx == i) = false := by
      simp; omega
    rw [hb]
    simp only [Bool.false_eq_true, if_false]
    exact ih (off + 1) i (by omega)

theorem insSubs_filter (b : RM.Bytes) (rid : RM.Rid)
    (exts : List (RM.Bytes → Key)) :
    ∀ off i : Nat, off ≤ i →
      (insSubs b rid off exts).filter (fun sub => sub.idx == i) =
        match exts[i - off]? with
        | none => []
        | some ext =>
          [⟨i, ext b, rid, IndexOpType.INDEX_INSERT⟩] := by
  induction exts with
  | nil => intro off i _; rfl
  | cons ext rest ih =>
    intro off i h
    rw [insSubs, List.filter_cons]
    by_cases h0 : off = i
    · subst h0
      simp only [beq_self_eq_true, if_pos]
      rw [insSubs_filter_lt b rid rest (off + 1) off (by omega)]
      simp
    · have hb : ((⟨off, ext b, rid, .INDEX_INSERT⟩ :
          IndexWriteRecord).idx == i) = false := by simp [h0]
      rw [hb]
      simp only [Bool.false_eq_true, if_false]
      rw [ih (off + 1) i (by omega)]
      have h2 : i - off = (i - (off + 1)) + 1 := by omega
      rw [h2, List.getElem?_cons_succ]

theorem delSubs_filter_lt (b : RM.Bytes) (rid : RM.Rid)
    (exts : List (RM.Bytes → Key)) :
    ∀ off i : Nat, i < off →
      (delSubs b rid off exts).filter (fun sub => sub.idx == i) = [] := by
  induction exts with
  | nil => intro off i _; rfl
  | cons ext rest ih =>
    intro off i h
    rw [delSubs, List.filter_cons]
    have hb : ((⟨off, ext b, rid, .INDEX_DELETE⟩ :
        IndexWriteRecord).idx == i) = false := by
      simp; omega
    rw [hb]
    simp only [Bool.false_eq_true, if_false]
    exact ih (off + 1) i (by omega)

theorem delSubs_filter (b : RM.Bytes) (rid : RM.Rid)
    (exts : List (RM.Bytes → Key)) :
    ∀ off i : Nat, off ≤ i →
      (delSubs b rid off exts).filter (fun sub => sub.idx == i) =
        match exts[i - off]? with
        | none => []
        | some ext =>
          [⟨i, ext b, rid, IndexOpType.INDEX_DELETE⟩] := by
  induction exts with
  | nil => intro off i _; rfl
  | cons ext rest ih =>
    intro off i h
    rw [delSubs, List.filter_cons]
    by_cases h0 : off = i
    · subst h0
      simp only [beq_self_eq_true, if_pos]
      rw [delSubs_filter_lt b rid rest (off + 1) off (by omega)]
      simp
    · have hb : ((⟨off, ext b, rid, .INDEX_DELETE⟩ :
          IndexWriteRecord).idx == i) = false := by simp [h0]
      rw [hb]
      simp only [Bool.false_eq_true, if_false]
      rw [ih (off + 1) i (by omega)]
      have h2 : i - off = (i - (off + 1)) + 1 := by omega
      rw [h2, List.getElem?_cons_succ]

end TM

namespace TM

theorem WFs_slot (tm : TabMeta) (s : DBState) (h : WFs tm s) (i : Nat)
    (l : List (Key × RM.Rid)) (hl : s.idx[i]? = some l) : NodupKeys l :=
  h.2.2 l (List.mem_iff_getElem?.mpr ⟨i, hl⟩)

theorem WF_fold_subs (tm : TabMeta) (t : DBState)
    (subs : List IndexWriteRecord) (hWFt : WFs tm t) :
    (subs.foldl undoSub t.idx).length = tm.indexes.length ∧
    ∀ l' ∈ subs.foldl undoSub t.idx, NodupKeys l' := by
  constructor
  · rw [length_foldl_undoSub]; exact hWFt.2.1
  · intro l' hl'
    rw [List.mem_iff_getElem?] at hl'
    obtain ⟨i, hgi⟩ := hl'
    rw [foldl_undoSub_getElem] at hgi
    exact foldl_applySub_nodup _ _ (fun l hl => WFs_slot tm t hWFt i l hl) l' hgi

theorem WF_zipWith_idx (tm : TabMeta) (s : DBState)
    (f : (RM.Bytes → Key) → List (Key × RM.Rid) → List (Key × RM.Rid))
    (hWF : WFs tm s)
    (hf : ∀ ext l, NodupKeys l → NodupKeys (f ext l)) :
    (List.zipWith f tm.indexes s.idx).length = tm.indexes.length ∧
    ∀ l' ∈ List.zipWith f tm.indexes s.idx, NodupKeys l' := by
  constructor
  · simp [List.length_zipWith, hWF.2.1]
  · intro l' hl'
    rw [List.mem_iff_getElem?] at hl'
    obtain ⟨i, hgi⟩ := hl'
    rw [List.getElem?_zipWith] at hgi
    cases h1 : tm.indexes[i]? with
    | none => rw [h1] at hgi; simp at hgi
    | some ext =>
      rw [h1] at hgi
      cases h2 : s.idx[i]? with
      | none => rw [h2] at hgi; simp at hgi
      | some l2 =>
        rw [h2] at hgi
        simp only at hgi
        injection hgi with hgi
        subst hgi
        exact hf ext l2 (WFs_slot tm s hWF i l2 h2)

theorem applyOp_ins_shape (tm : TabMeta) (s0 : DBState) (rid : RM.Rid)
    (b : RM.Bytes) (out : DBState × WriteRecord)
    (h : applyIns tm s0 rid b = some out) :
    alookup s0.heap rid = none ∧
    (tm.indexes.zip s0.idx).all
      (fun p => (alookup p.2 (p.1 b)).isNone) = true ∧
    out = ({ heap := s0.heap ++ [(rid, b)],
             idx := List.zipWith (fun ext l => insert_entry l (ext b) rid)
               tm.indexes s0.idx },
           { wtype := .INSERT_TUPLE, rid := rid, record := b,
             index_ops := insSubs b rid 0 tm.indexes }) := by
  unfold applyIns at h
  split at h
  · exact absurd h (by simp)
  · split at h
    · next h1 h2 =>
      refine ⟨Option.not_isSome_iff_eq_none.mp h1, h2, ?_⟩
      injection h with h
      exact h.symm
    · exact absurd h (by simp)

theorem applyOp_del_shape (tm : TabMeta) (s0 : DBState) (rid : RM.Rid)
    (out : DBState × WriteRecord)
    (h : applyDel tm s0 rid = some out) :
    ∃ b, alookup s0.heap rid = some b ∧
    (tm.indexes.zip s0.idx).all
      (fun p => decide (alookup p.2 (p.1 b) = some rid)) = true ∧
    out = ({ heap := aerase s0.heap rid,
             idx := List.zipWith (fun ext l => delete_entry l (ext b))
               tm.indexes s0.idx },
           { wtype := .DELETE_TUPLE, rid := rid, record := b,
             index_ops := delSubs b rid 0 tm.indexes }) := by
  unfold applyDel at h
  split at h
  · exact absurd h (by simp)
  · next b hb =>
    split at h
    · next h2 =>
      refine ⟨b, hb, h2, ?_⟩
      injection h with h
      exact h.symm
    · exact absurd h (by simp)

theorem applyOp_ins_inv (tm : TabMeta) (s0 : DBState) (rid : RM.Rid)
    (b : RM.Bytes) (s1 : DBState) (ws : List WriteRecord)
    (h : applyOp tm s0 (.ins rid b) = some (s1, ws)) :
    ∃ w, applyIns tm s0 rid b = some (s1, w) ∧ ws = [w] := by
  replace h : (match applyIns tm s0 rid b with
    | none => none
    | some p => some (p.1, [p.2])) = some (s1, ws) := h
  cases hi : applyIns tm s0 rid b with
  | none => rw [hi] at h; exact absurd h (by simp)
  | some p =>
    obtain ⟨ps, pw⟩ := p
    rw [hi] at h
    dsimp only at h
    rw [Option.some.injEq, Prod.mk.injEq] at h
    obtain ⟨h1, h2⟩ := h
    subst h1
    exact ⟨pw, rfl, h2.symm⟩

theorem applyOp_del_inv (tm : TabMeta) (s0 : DBState) (rid : RM.Rid)
    (s1 : DBState) (ws : List WriteRecord)
    (h : applyOp tm s0 (.del rid) = some (s1, ws)) :
    ∃ w, applyDel tm s0 rid = some (s1, w) ∧ ws = [w] := by
  replace h : (match applyDel tm s0 rid with
    | none => none
    | some p => some (p.1, [p.2])) = some (s1, ws) := h
  cases hi : applyDel tm s0 rid with
  | none => rw [hi] at h; exact absurd h (by simp)
  | some p =>
    obtain ⟨ps, pw⟩ := p
    rw [hi] at h
    dsimp only at h
    rw [Option.some.injEq, Prod.mk.injEq] at h
    obtain ⟨h1, h2⟩ := h
    subst h1
    exact ⟨pw, rfl, h2.symm⟩

theorem applyOp_upd_inv (tm : TabMeta) (s0 : DBState) (rid : RM.Rid)
    (b2 : RM.Bytes) (s1 : DBState) (ws : List WriteRecord)
    (h : applyOp tm s0 (.upd rid b2) = some (s1, ws)) :
    s1 = applyUpd tm s0 rid b2 ∧ ws = [] := by
  replace h : some (applyUpd tm s0 rid b2, ([] : List WriteRecord)) =
    some (s1, ws) := h
  rw [Option.some.injEq, Prod.mk.injEq] at h
  exact ⟨h.1.symm, h.2.symm⟩

theorem applyUpd_WF (tm : TabMeta) (s0 : DBState) (rid : RM.Rid)
    (b2 : RM.Bytes) (hWF : WFs tm s0) : WFs tm (applyUpd tm s0 rid b2) := by
  unfold applyUpd
  cases hb : alookup s0.heap rid with
  | none => exact hWF
  | some b =>
    dsimp only
    have hz := WF_zipWith_idx tm s0
      (fun ext l => if ext b2 = ext b then l
        else insert_entry (delete_entry l (ext b)) (ext b2) rid)
      hWF (fun ext l hl => by
        dsimp only
        by_cases hk : ext b2 = ext b
        · rw [if_pos hk]; exact hl
        · rw [if_neg hk]
          exact NodupKeys_insert_entry _ _ (NodupKeys_aerase _ hl))
    exact ⟨NodupKeys_aset rid b2 hWF.1, hz.1, hz.2⟩

theorem applyOp_WF (tm : TabMeta) (s0 : DBState) (op : Op) (s1 : DBState)
    (ws : List WriteRecord) (hWF : WFs tm s0)
    (h : applyOp tm s0 op = some (s1, ws)) : WFs tm s1 := by
  cases op with
  | ins rid b =>
    obtain ⟨w, hIns, hws⟩ := applyOp_ins_inv tm s0 rid b s1 ws h
    obtain ⟨hlk, _, hout⟩ := applyOp_ins_shape tm s0 rid b (s1, w) hIns
    rw [Prod.mk.injEq] at hout
    obtain ⟨hs1, hw⟩ := hout
    rw [hs1]
    have hz := WF_zipWith_idx tm s0 _ hWF
      (fun ext l hl => NodupKeys_insert_entry (ext b) rid hl)
    exact ⟨NodupKeys_append_fresh b hWF.1 hlk, hz.1, hz.2⟩
  | del rid =>
    obtain ⟨w, hDel, hws⟩ := applyOp_del_inv tm s0 rid s1 ws h
    obtain ⟨b, hb, _, hout⟩ := applyOp_del_shape tm s0 rid (s1, w) hDel
    rw [Prod.mk.injEq] at hout
    obtain ⟨hs1, hw⟩ := hout
    rw [hs1]
    have hz := WF_zipWith_idx tm s0 _ hWF
      (fun ext l hl => NodupKeys_aerase (ext b) hl)
    exact ⟨NodupKeys_aerase rid hWF.1, hz.1, hz.2⟩
  | upd rid b2 =>
    obtain ⟨hs1, hws⟩ := applyOp_upd_inv tm s0 rid b2 s1 ws h
    rw [hs1]
    exact applyUpd_WF tm s0 rid b2 hWF

end TM

namespace TM

theorem undo_slot (t : DBState) (subs : List IndexWriteRecord) (i : Nat) :
    (subs.reverse.foldl undoSub t.idx)[i]? =
      ((subs.filter (fun sub => sub.idx == i)).reverse).foldl
        (fun o sub => (applySub sub) <$> o) t.idx[i]? := by
  rw [foldl_undoSub_getElem, List.filter_reverse]

theorem undoOne_ins_eq (tm : TabMeta) (t : DBState) (rid : RM.Rid)
    (b : RM.Bytes) (subs : List IndexWriteRecord) :
    undoOne tm t ⟨.INSERT_TUPLE, rid, b, subs⟩ =
      { heap := aerase t.heap rid,
        idx := subs.reverse.foldl undoSub t.idx } := rfl

theorem undo_ins_restore (tm : TabMeta) (s0 s1 t : DBState) (rid : RM.Rid)
    (b : RM.Bytes) (w : WriteRecord)
    (hWF : WFs tm s0)
    (happ : applyIns tm s0 rid b = some (s1, w))
    (hWFt : WFs tm t)
    (hh : ∀ r, hget t r = hget s1 r)
    (hi : ∀ (i : Nat) (k : Key), iget t i k = iget s1 i k) :
    WFs tm (undoOne tm t w) ∧
    (∀ r, hget (undoOne tm t w) r = hget s0 r) ∧
    (∀ (i : Nat) (k : Key), iget (undoOne tm t w) i k = iget s0 i k) := by
  obtain ⟨hlk, hguard, hout⟩ := applyOp_ins_shape tm s0 rid b (s1, w) happ
  rw [Prod.mk.injEq] at hout
  obtain ⟨hs1, hw⟩ := hout
  subst hw
  rw [undoOne_ins_eq]
  refine ⟨⟨NodupKeys_aerase rid hWFt.1, (WF_fold_subs tm t _ hWFt).1,
    (WF_fold_subs tm t _ hWFt).2⟩, ?_, ?_⟩
  · intro r
    simp only [hget]
    by_cases hr : r = rid
    · subst hr
      rw [alookup_aerase_self _ hWFt.1, hlk]
    · rw [alookup_aerase_ne hr]
      have h2 := hh r
      simp only [hget, hs1] at h2
      rw [h2, alookup_append_ne b hr]
  · intro i k
    simp only [iget]
    rw [undo_slot, insSubs_filter b rid tm.indexes 0 i (Nat.zero_le i)]
    simp only [Nat.sub_zero]
    by_cases hn : i < tm.indexes.length
    · have hext : tm.indexes[i]? = some tm.indexes[i] :=
        List.getElem?_eq_getElem hn
      rw [hext]
      obtain ⟨l_t, hlt⟩ : ∃ l, t.idx[i]? = some l := by
        rw [List.getElem?_eq_getElem (by rw [hWFt.2.1]; exact hn)]
        exact ⟨_, rfl⟩
      obtain ⟨l0, hl0⟩ : ∃ l, s0.idx[i]? = some l := by
        rw [List.getElem?_eq_getElem (by rw [hWF.2.1]; exact hn)]
        exact ⟨_, rfl⟩
      rw [hlt, hl0]
      simp only [List.reverse_singleton, List.foldl_cons, List.foldl_nil,
        Option.map_some]
      have hfresh : alookup l0 (tm.indexes[i] b) = none := by
        have h4 := all_zip_getElem tm.indexes s0.idx _ hguard i
          tm.indexes[i] l0 hext hl0
        simpa using h4
      have hikk : ∀ k2 : Key, alookup l_t k2 =
          alookup (insert_entry l0 (tm.indexes[i] b) rid) k2 := by
        intro k2
        have h3 := hi i k2
        simp only [iget, hlt, hs1] at h3
        rw [List.getElem?_zipWith, hext, hl0] at h3
        simpa using h3
      simp only [applySub, delete_entry]
      by_cases hk : k = tm.indexes[i] b
      · subst hk
        rw [alookup_aerase_self _ (WFs_slot tm t hWFt i l_t hlt), hfresh]
      · rw [alookup_aerase_ne hk, hikk k, alookup_insert_entry_ne rid hk]
    · have h1 : tm.indexes[i]? = none := List.getElem?_eq_none (by omega)
      have h2 : t.idx[i]? = none :=
        List.getElem?_eq_none (by rw [hWFt.2.1]; omega)
      have h3 : s0.idx[i]? = none :=
        List.getElem?_eq_none (by rw [hWF.2.1]; omega)
      rw [h1, h2, h3]
      simp

end TM

namespace TM

theorem undoOne_del_none_eq (tm : TabMeta) (t : DBState) (rid : RM.Rid)
    (b : RM.Bytes) (subs : List IndexWriteRecord)
    (h : alookup t.heap rid = none) :
    undoOne tm t ⟨.DELETE_TUPLE, rid, b, subs⟩ =
      { heap := t.heap ++ [(rid, b)],
        idx := subs.reverse.foldl undoSub t.idx } := by
  simp only [undoOne, h]

theorem undo_del_restore (tm : TabMeta) (s0 s1 t : DBState) (rid : RM.Rid)
    (w : WriteRecord)
    (hWF : WFs tm s0)
    (happ : applyDel tm s0 rid = some (s1, w))
    (hWFt : WFs tm t)
    (hh : ∀ r, hget t r = hget s1 r)
    (hi : ∀ (i : Nat) (k : Key), iget t i k = iget s1 i k) :
    WFs tm (undoOne tm t w) ∧
    (∀ r, hget (undoOne tm t w) r = hget s0 r) ∧
    (∀ (i : Nat) (k : Key), iget (undoOne tm t w) i k = iget s0 i k) := by
  obtain ⟨b, hb, hguard, hout⟩ := applyOp_del_shape tm s0 rid (s1, w) happ
  rw [Prod.mk.injEq] at hout
  obtain ⟨hs1, hw⟩ := hout
  subst hw
  have htl : alookup t.heap rid = none := by
    have h2 := hh rid
    simp only [hget, hs1] at h2
    rw [h2]
    exact alookup_aerase_self _ hWF.1
  rw [undoOne_del_none_eq tm t rid b _ htl]
  refine ⟨⟨NodupKeys_append_fresh b hWFt.1 htl, (WF_fold_subs tm t _ hWFt).1,
    (WF_fold_subs tm t _ hWFt).2⟩, ?_, ?_⟩
  · intro r
    simp only [hget]
    by_cases hr : r = rid
    · subst hr
      rw [alookup_append_self b htl, hb]
    · rw [alookup_append_ne b hr]
      have h2 := hh r
      simp only [hget, hs1] at h2
      rw [h2, alookup_aerase_ne hr]
  · intro i k
    simp only [iget]
    rw [undo_slot, delSubs_filter b rid tm.indexes 0 i (Nat.zero_le i)]
    simp only [Nat.sub_zero]
    by_cases hn : i < tm.indexes.length
    · have hext : tm.indexes[i]? = some tm.indexes[i] :=
        List.getElem?_eq_getElem hn
      rw [hext]
      obtain ⟨l_t, hlt⟩ : ∃ l, t.idx[i]? = some l := by
        rw [List.getElem?_eq_getElem (by rw [hWFt.2.1]; exact hn)]
        exact ⟨_, rfl⟩
      obtain ⟨l0, hl0⟩ : ∃ l, s0.idx[i]? = some l := by
        rw [List.getElem?_eq_getElem (by rw [hWF.2.1]; exact hn)]
        exact ⟨_, rfl⟩
      rw [hlt, hl0]
      simp only [List.reverse_singleton, List.foldl_cons, List.foldl_nil,
        Option.map_some]
      have hgi : alookup l0 (tm.indexes[i] b) = some rid := by
        have h4 := all_zip_getElem tm.indexes s0.idx _ hguard i
          tm.indexes[i] l0 hext hl0
        simpa using h4
      have hikk : ∀ k2 : Key, alookup l_t k2 =
          alookup (delete_entry l0 (tm.indexes[i] b)) k2 := by
        intro k2
        have h3 := hi i k2
        simp only [iget, hlt, hs1] at h3
        rw [List.getElem?_zipWith, hext, hl0] at h3
        simpa using h3
      simp only [applySub]
      by_cases hk : k = tm.indexes[i] b
      · subst hk
        have hpre : alookup l_t (tm.indexes[i] b) = none := by
          rw [hikk (tm.indexes[i] b)]
          exact alookup_aerase_self _ (WFs_slot tm s0 hWF i l0 hl0)
        rw [alookup_insert_entry_self rid hpre, hgi]
      · rw [alookup_insert_entry_ne rid hk, hikk k]
        simp only [delete_entry]
        rw [alookup_aerase_ne hk]
    · have h1 : tm.indexes[i]? = none := List.getElem?_eq_none (by omega)
      have h2 : t.idx[i]? = none :=
        List.getElem?_eq_none (by rw [hWFt.2.1]; omega)
      have h3 : s0.idx[i]? = none :=
        List.getElem?_eq_none (by rw [hWF.2.1]; omega)
      rw [h1, h2, h3]
      simp

end TM

namespace TM

theorem undoAll_restores (tm : TabMeta) :
    ∀ (ops : List Op) (s0 s1 : DBState) (ws : List WriteRecord),
      (∀ (rid : RM.Rid) (b2 : RM.Bytes), Op.upd rid b2 ∉ ops) →
      WFs tm s0 → applyOps tm s0 ops = some (s1, ws) →
      ∀ t : DBState, WFs tm t →
        (∀ r, hget t r = hget s1 r) →
        (∀ (i : Nat) (k : Key), iget t i k = iget s1 i k) →
        WFs tm (undoAll tm t ws) ∧
        (∀ r, hget (undoAll tm t ws) r = hget s0 r) ∧
        (∀ (i : Nat) (k : Key), iget (undoAll tm t ws) i k = iget s0 i k) := by
  intro ops
  induction ops with
  | nil =>
    intro s0 s1 ws hno hWF happ t hWFt hh hi
    simp only [applyOps] at happ
    rw [Option.some.injEq, Prod.mk.injEq] at happ
    obtain ⟨h1, h2⟩ := happ
    subst h1
    subst h2
    exact ⟨hWFt, hh, hi⟩
  | cons op rest ih =>
    intro s0 s1 ws hno hWF happ t hWFt hh hi
    simp only [applyOps] at happ
    cases hop : applyOp tm s0 op with
    | none => rw [hop] at happ; simp at happ
    | some pr =>
      obtain ⟨sMid, nws⟩ := pr
      rw [hop] at happ
      dsimp only at happ
      cases hrest : applyOps tm sMid rest with
      | none => rw [hrest] at happ; simp at happ
      | some pr2 =>
        obtain ⟨s2, ws2⟩ := pr2
        rw [hrest] at happ
        dsimp only at happ
        rw [Option.some.injEq, Prod.mk.injEq] at happ
        obtain ⟨h1, h2⟩ := happ
        subst h1
        subst h2
        have hWFmid := applyOp_WF tm s0 op sMid nws hWF hop
        obtain ⟨hWFu, hhu, hiu⟩ :=
          ih sMid _ ws2
            (fun rid b2 hm => hno rid b2 (List.mem_cons_of_mem _ hm))
            hWFmid hrest t hWFt hh hi
        cases op with
        | ins rid b =>
          obtain ⟨w, hIns, hws⟩ := applyOp_ins_inv tm s0 rid b sMid nws hop
          subst hws
          rw [List.singleton_append]
          have hstep : undoAll tm t (w :: ws2) =
              undoOne tm (undoAll tm t ws2) w := rfl
          rw [hstep]
          exact undo_ins_restore tm s0 sMid _ rid b w hWF hIns hWFu hhu hiu
        | del rid =>
          obtain ⟨w, hDel, hws⟩ := applyOp_del_inv tm s0 rid sMid nws hop
          subst hws
          rw [List.singleton_append]
          have hstep : undoAll tm t (w :: ws2) =
              undoOne tm (undoAll tm t ws2) w := rfl
          rw [hstep]
          exact undo_del_restore tm s0 sMid _ rid w hWF hDel hWFu hhu hiu
        | upd rid b2 =>
          exact absurd (List.mem_cons_self _ _) (hno rid b2)

end TM

namespace TM

theorem eq_symm_true {a b : LM.LockDataId}
    (h : LM.LockDataId.eq a b = true) : LM.LockDataId.eq b a = true := by
  rw [eq_true_iff] at h ⊢
  obtain ⟨h1, h2, h3⟩ := h
  refine ⟨h1.symm, h2.symm, ?_⟩
  rcases h3 with h3 | h3
  · left; rw [← h1]; exact h3
  · right; exact h3.symm

theorem eq_trans_true {a b c : LM.LockDataId}
    (hab : LM.LockDataId.eq a b = true)
    (hbc : LM.LockDataId.eq b c = true) : LM.LockDataId.eq a c = true := by
  rw [eq_true_iff] at hab hbc ⊢
  obtain ⟨t1, f1, r1⟩ := hab
  obtain ⟨t2, f2, r2⟩ := hbc
  refine ⟨t1.trans t2, f1.trans f2, ?_⟩
  rcases r1 with r1 | r1
  · left; exact r1
  · rcases r2 with r2 | r2
    · left; rw [t1]; exact r2
    · right; exact r1.trans r2

theorem findQueue_of_eq {id id2 : LM.LockDataId} (table : LM.LockTable)
    (h : LM.LockDataId.eq id id2 = true) :
    LM.findQueue table id = LM.findQueue table id2 := by
  induction table with
  | nil => rfl
  | cons kv rest ih =>
    unfold LM.findQueue at ih ⊢
    rw [List.find?_cons, List.find?_cons]
    by_cases hk : LM.LockDataId.eq kv.1 id = true
    · rw [hk, eq_trans_true hk h]
    · have hk2 : ¬ LM.LockDataId.eq kv.1 id2 = true := fun hh =>
        hk (eq_trans_true hh (eq_symm_true h))
    -- reduce the Bool matches
      rw [Bool.not_eq_true] at hk hk2
      rw [hk, hk2]
      exact ih

theorem findQueue_setQueue_of_eq {id id2 : LM.LockDataId}
    (table : LM.LockTable) (q : LM.LockRequestQueue)
    (h : LM.LockDataId.eq id id2 = true) :
    LM.findQueue (LM.setQueue table id q) id2 =
      match LM.findQueue table id2 with
      | none => none
      | some _ => some q := by
  induction table with
  | nil => rfl
  | cons kv rest ih =>
    unfold LM.findQueue LM.setQueue at ih ⊢
    rw [List.map_cons]
    by_cases hk : LM.LockDataId.eq kv.1 id = true
    · have hk2 : LM.LockDataId.eq kv.1 id2 = true := eq_trans_true hk h
      rw [if_pos hk]
      rw [List.find?_cons, List.find?_cons]
      simp only [hk2]
      rfl
    · have hk2 : ¬ LM.LockDataId.eq kv.1 id2 = true := fun hh =>
        hk (eq_trans_true hh (eq_symm_true h))
      rw [if_neg hk]
      rw [List.find?_cons, List.find?_cons]
      rw [Bool.not_eq_true] at hk2
      simp only [hk2]
      exact ih

theorem findQueue_setQueue_of_ne {id id2 : LM.LockDataId}
    (table : LM.LockTable) (q : LM.LockRequestQueue)
    (h : ¬ LM.LockDataId.eq id id2 = true) :
    LM.findQueue (LM.setQueue table id q) id2 = LM.findQueue table id2 := by
  induction table with
  | nil => rfl
  | cons kv rest ih =>
    unfold LM.findQueue LM.setQueue at ih ⊢
    rw [List.map_cons]
    by_cases hk : LM.LockDataId.eq kv.1 id = true
    · have hk2 : ¬ LM.LockDataId.eq kv.1 id2 = true := fun hh =>
        h (eq_trans_true (eq_symm_true hk) hh)
      rw [if_pos hk]
      rw [List.find?_cons, List.find?_cons]
      rw [Bool.not_eq_true] at hk2
      simp only [hk2]
      exact ih
    · rw [if_neg hk]
      rw [List.find?_cons, List.find?_cons]
      by_cases hk2 : LM.LockDataId.eq kv.1 id2 = true
      · simp only [hk2]
      · rw [Bool.not_eq_true] at hk2
        simp only [hk2]
        exact ih

theorem eraseFirst_sublist (rq : List LM.LockRequest) (tid : Nat) :
    (LM.eraseFirst rq tid).Sublist rq := by
  induction rq with
  | nil => exact List.Sublist.refl _
  | cons r rest ih =>
    unfold LM.eraseFirst
    by_cases h : r.txn_id = tid
    · rw [if_pos h]
      exact List.sublist_cons_self r rest
    · rw [if_neg h]
      exact List.Sublist.cons₂ r ih

theorem eraseFirst_clean (rq : List LM.LockRequest) (tid : Nat) :
    (rq.filter (fun r => r.txn_id = tid)).length ≤ 1 →
    ∀ r ∈ LM.eraseFirst rq tid, r.txn_id ≠ tid := by
  induction rq with
  | nil => intro h r hr; simp [LM.eraseFirst] at hr
  | cons r0 rest ih =>
    intro h r hr
    unfold LM.eraseFirst at hr
    by_cases h0 : r0.txn_id = tid
    · rw [if_pos h0] at hr
      have hlen : (rest.filter (fun r => r.txn_id = tid)).length = 0 := by
        rw [List.filter_cons] at h
        rw [if_pos (by simp [h0])] at h
        rw [List.length_cons] at h
        omega
      rw [List.length_eq_zero] at hlen
      intro hc
      have hmem : r ∈ rest.filter (fun r => r.txn_id = tid) :=
        List.mem_filter.mpr ⟨hr, by simp [hc]⟩
      rw [hlen] at hmem
      simp at hmem
    · rw [if_neg h0] at hr
      rcases List.mem_cons.mp hr with h1 | h1
      · subst h1; exact h0
      · refine ih ?_ r h1
        rw [List.filter_cons] at h
        simpa [h0] using h

end TM

namespace TM

theorem eq_refl_true (a : LM.LockDataId) : LM.LockDataId.eq a a = true := by
  rw [eq_true_iff]
  exact ⟨rfl, rfl, Or.inr rfl⟩

theorem findQueue_mem {table : LM.LockTable} {id : LM.LockDataId}
    {q : LM.LockRequestQueue} (h : LM.findQueue table id = some q) :
    ∃ kv ∈ table, kv.2 = q := by
  unfold LM.findQueue at h
  cases hf : table.find? (fun kv => LM.LockDataId.eq kv.1 id) with
  | none => rw [hf] at h; simp at h
  | some kv =>
    rw [hf] at h
    have h2 : kv.2 = q := by simpa using h
    exact ⟨kv, List.mem_of_find?_eq_some hf, h2⟩

theorem unlock_txn_id (txn : LM.Transaction) (id : LM.LockDataId)
    (table : LM.LockTable) :
    (LM.unlock txn id table).txn.txn_id = txn.txn_id := by
  unfold LM.unlock
  repeat' (first | rfl | split | dsimp only)

theorem unlock_txn_state (txn : LM.Transaction) (id : LM.LockDataId)
    (table : LM.LockTable) :
    (LM.unlock txn id table).txn.state = txn.state ∨
    (LM.unlock txn id table).txn.state = LM.TransactionState.SHRINKING := by
  unfold LM.unlock
  repeat' (first | exact Or.inl rfl | exact Or.inr rfl | split | dsimp only)

end TM

namespace TM

theorem cleanFor_of_sublist {tid : Nat} {q q2 : LM.LockRequestQueue}
    (hs : q2.request_queue.Sublist q.request_queue)
    (h : cleanFor tid q) : cleanFor tid q2 :=
  fun r hr => h r (hs.subset hr)

theorem unlock_clean_self (txn : LM.Transaction) (id : LM.LockDataId)
    (table : LM.LockTable)
    (hfin : ¬(txn.state = LM.TransactionState.COMMITTED ∨
              txn.state = LM.TransactionState.ABORTED))
    (hAMO : ∀ kv ∈ table, atMostOne txn.txn_id kv.2) :
    ∀ q2, LM.findQueue (LM.unlock txn id table).table id = some q2 →
      cleanFor txn.txn_id q2 := by
  intro q2 hq2
  unfold LM.unlock at hq2
  rw [if_neg hfin] at hq2
  split at hq2 <;>
  · try dsimp only at hq2
    split at hq2
    next hfq =>
      try dsimp only at hq2
      rw [hfq] at hq2
      exact absurd hq2 (by simp)
    next q hfq =>
      split at hq2
      next hfr =>
        try dsimp only at hq2
        rw [hfq] at hq2
        have hq2q : q = q2 := by injection hq2
        subst hq2q
        intro r hr
        have h5 := List.find?_eq_none.mp hfr r hr
        simpa using h5
      next req hfr =>
        have hAMOq : atMostOne txn.txn_id q := by
          obtain ⟨kv, hkv, hkvq⟩ := findQueue_mem hfq
          have h6 := hAMO kv hkv
          rw [hkvq] at h6
          exact h6
        split at hq2 <;>
        · try dsimp only at hq2
          rw [findQueue_setQueue_of_eq table _ (eq_refl_true id), hfq]
            at hq2
          have hq2q := hq2
          try dsimp only at hq2q
          intro r hr
          have hq2e : ∀ r2 ∈ q2.request_queue, r2.txn_id ≠ txn.txn_id := by
            have h7 : q2.request_queue =
                LM.eraseFirst q.request_queue txn.txn_id := by
              cases hq2q
              rfl
            rw [h7]
            exact eraseFirst_clean q.request_queue txn.txn_id hAMOq
          exact hq2e r hr

end TM

namespace TM

theorem unlock_preserves_clean (txn : LM.Transaction) (id id2 : LM.LockDataId)
    (table : LM.LockTable)
    (hclean : ∀ q, LM.findQueue table id2 = some q → cleanFor txn.txn_id q) :
    ∀ q2, LM.findQueue (LM.unlock txn id table).table id2 = some q2 →
      cleanFor txn.txn_id q2 := by
  intro q2 hq2
  unfold LM.unlock at hq2
  split at hq2
  · exact hclean q2 hq2
  · split at hq2 <;>
    · try dsimp only at hq2
      split at hq2
      next hfq => exact hclean q2 hq2
      next q hfq =>
        split at hq2
        next hfr => exact hclean q2 hq2
        next req hfr =>
          split at hq2 <;>
          · try dsimp only at hq2
            by_cases he : LM.LockDataId.eq id id2 = true
            · rw [findQueue_setQueue_of_eq table _ he] at hq2
              cases hfq2 : LM.findQueue table id2 with
              | none => rw [hfq2] at hq2; exact absurd hq2 (by simp)
              | some qq =>
                rw [hfq2] at hq2
                have hqq : q = qq := by
                  have h8 := findQueue_of_eq table he
                  rw [hfq, hfq2] at h8
                  injection h8
                intro r hr
                have h7 : q2.request_queue =
                    LM.eraseFirst q.request_queue txn.txn_id := by
                  cases hq2
                  rfl
                rw [h7] at hr
                have h9 := (eraseFirst_sublist q.request_queue
                  txn.txn_id).subset hr
                rw [hqq] at h9
                exact hclean qq hfq2 r h9
            · rw [findQueue_setQueue_of_ne table _ he] at hq2
              exact hclean q2 hq2

theorem unlock_preserves_AMO (txn : LM.Transaction) (id : LM.LockDataId)
    (table : LM.LockTable)
    (hAMO : ∀ kv ∈ table, atMostOne txn.txn_id kv.2) :
    ∀ kv ∈ (LM.unlock txn id table).table, atMostOne txn.txn_id kv.2 := by
  intro kv hkv
  unfold LM.unlock at hkv
  split at hkv
  · exact hAMO kv hkv
  · split at hkv <;>
    · try dsimp only at hkv
      split at hkv
      next hfq => exact hAMO kv hkv
      next q hfq =>
        split at hkv
        next hfr => exact hAMO kv hkv
        next req hfr =>
          have hAMOq : atMostOne txn.txn_id q := by
            obtain ⟨kv0, hkv0, hkvq⟩ := findQueue_mem hfq
            have h6 := hAMO kv0 hkv0
            rw [hkvq] at h6
            exact h6
          split at hkv <;>
          · try dsimp only at hkv
            unfold LM.setQueue at hkv
            rw [List.mem_map] at hkv
            obtain ⟨kv0, hkv0, hf⟩ := hkv
            by_cases he : LM.LockDataId.eq kv0.1 id = true
            · rw [if_pos he] at hf
              subst hf
              unfold atMostOne
              exact le_trans
                (List.Sublist.length_le (List.Sublist.filter _
                  (eraseFirst_sublist q.request_queue txn.txn_id)))
                hAMOq
            · rw [if_neg he] at hf
              subst hf
              exact hAMO kv0 hkv0

end TM

namespace TM

theorem releaseAll_preserve_clean (tid : Nat) :
    ∀ (ids : List LM.LockDataId) (txn : LM.Transaction)
      (table : LM.LockTable) (id2 : LM.LockDataId),
      txn.txn_id = tid →
      (∀ q, LM.findQueue table id2 = some q → cleanFor tid q) →
      ∀ q2, LM.findQueue (releaseAll txn table ids).2 id2 = some q2 →
        cleanFor tid q2 := by
  intro ids
  induction ids with
  | nil => intro txn table id2 htid hclean q2 hq2; exact hclean q2 hq2
  | cons id1 rest ih =>
    intro txn table id2 htid hclean q2 hq2
    have hstep : releaseAll txn table (id1 :: rest) =
        releaseAll (LM.unlock txn id1 table).txn
          (LM.unlock txn id1 table).table rest := rfl
    rw [hstep] at hq2
    refine ih (LM.unlock txn id1 table).txn _ id2 ?_ ?_ q2 hq2
    · rw [unlock_txn_id]; exact htid
    · intro q hq
      have hclean2 : ∀ q, LM.findQueue table id2 = some q →
          cleanFor txn.txn_id q := by rw [htid]; exact hclean
      have h5 := unlock_preserves_clean txn id1 id2 table hclean2 q hq
      rw [htid] at h5
      exact h5

theorem releaseAll_clean (tid : Nat) :
    ∀ (ids : List LM.LockDataId) (txn : LM.Transaction)
      (table : LM.LockTable),
      txn.txn_id = tid →
      txn.state ≠ LM.TransactionState.COMMITTED →
      txn.state ≠ LM.TransactionState.ABORTED →
      (∀ kv ∈ table, atMostOne tid kv.2) →
      ∀ id ∈ ids, ∀ q2,
        LM.findQueue (releaseAll txn table ids).2 id = some q2 →
        cleanFor tid q2 := by
  intro ids
  induction ids with
  | nil => intro txn table _ _ _ _ id hid; simp at hid
  | cons id1 rest ih =>
    intro txn table htid hc ha hAMO id hid q2 hq2
    have hfin : ¬(txn.state = LM.TransactionState.COMMITTED ∨
        txn.state = LM.TransactionState.ABORTED) := by
      intro hor
      rcases hor with h | h
      · exact hc h
      · exact ha h
    have hstep : releaseAll txn table (id1 :: rest) =
        releaseAll (LM.unlock txn id1 table).txn
          (LM.unlock txn id1 table).table rest := rfl
    rw [hstep] at hq2
    have hAMOtxn : ∀ kv ∈ table, atMostOne txn.txn_id kv.2 := by
      rw [htid]; exact hAMO
    have hAMO2 : ∀ kv ∈ (LM.unlock txn id1 table).table,
        atMostOne tid kv.2 := by
      intro kv hkv
      have h5 := unlock_preserves_AMO txn id1 table hAMOtxn kv hkv
      rw [htid] at h5
      exact h5
    have htid2 : (LM.unlock txn id1 table).txn.txn_id = tid := by
      rw [unlock_txn_id]; exact htid
    have hstate := unlock_txn_state txn id1 table
    have hc2 : (LM.unlock txn id1 table).txn.state ≠
        LM.TransactionState.COMMITTED := by
      rcases hstate with h | h <;> rw [h]
      · exact hc
      · intro hh; cases hh
    have ha2 : (LM.unlock txn id1 table).txn.state ≠
        LM.TransactionState.ABORTED := by
      rcases hstate with h | h <;> rw [h]
      · exact ha
      · intro hh; cases hh
    rcases List.mem_cons.mp hid with h1 | h1
    · subst h1
      have hcleanid : ∀ q,
          LM.findQueue (LM.unlock txn id table).table id = some q →
          cleanFor tid q := by
        intro q hq
        have h5 := unlock_clean_self txn id table hfin hAMOtxn q hq
        rw [htid] at h5
        exact h5
      exact releaseAll_preserve_clean tid rest (LM.unlock txn id table).txn
        (LM.unlock txn id table).table id htid2 hcleanid q2 hq2
    · exact ih (LM.unlock txn id1 table).txn (LM.unlock txn id1 table).table
        htid2 hc2 ha2 hAMO2 id h1 q2 hq2

theorem applyOps_WF (tm : TabMeta) :
    ∀ (ops : List Op) (s0 s1 : DBState) (ws : List WriteRecord),
      WFs tm s0 → applyOps tm s0 ops = some (s1, ws) → WFs tm s1 := by
  intro ops
  induction ops with
  | nil =>
    intro s0 s1 ws h happ
    simp only [applyOps] at happ
    rw [Option.some.injEq, Prod.mk.injEq] at happ
    obtain ⟨h1, _⟩ := happ
    rw [← h1]
    exact h
  | cons op rest ih =>
    intro s0 s1 ws h happ
    simp only [applyOps] at happ
    cases hop : applyOp tm s0 op with
    | none => rw [hop] at happ; simp at happ
    | some pr =>
      obtain ⟨sMid, w⟩ := pr
      rw [hop] at happ
      dsimp only at happ
      cases hrest : applyOps tm sMid rest with
      | none => rw [hrest] at happ; simp at happ
      | some pr2 =>
        obtain ⟨s2, ws2⟩ := pr2
        rw [hrest] at happ
        dsimp only at happ
        rw [Option.some.injEq, Prod.mk.injEq] at happ
        obtain ⟨h1, h2⟩ := happ
        subst h1
        exact ih sMid _ ws2 (applyOp_WF tm s0 op sMid w h hop) hrest

end TM

namespace TM

/-- **C1 (amended).** For a transaction whose writes are inserts and
deletes, after `TransactionManager::abort` has replayed the undo log in
LIFO order (each entry's index undo sub-entries first, in reverse, then
the record undo — the definitional order of `undoAll`/`undoOne`), the
heap file and every index hold exactly the contents they held before the
transaction's first write (rid-wise and key-wise, i.e. modulo the
deterministic reuse of rids and page allocations); the transaction's
locks are all released — no queue of a held lock id retains one of its
requests — its lock set is cleared, and its state is set to `ABORTED`.
The no-update restriction is necessary: `UpdateExecutor::Next` appends
no undo-log entry, so an update is never rolled back (see the separate
counterexample). -/
theorem abort_rolls_back (tm : TabMeta) (s0 s1 : DBState) (ops : List Op)
    (ws : List WriteRecord) (txn : LM.Transaction) (table : LM.LockTable)
    (hnoupd : ∀ (rid : RM.Rid) (b2 : RM.Bytes), Op.upd rid b2 ∉ ops)
    (hWF : WFs tm s0)
    (happly : applyOps tm s0 ops = some (s1, ws))
    (hcommitted : txn.state ≠ LM.TransactionState.COMMITTED)
    (haborted : txn.state ≠ LM.TransactionState.ABORTED)
    (hAMO : ∀ kv ∈ table, atMostOne txn.txn_id kv.2) :
    (∀ r, hget (abort tm s1 ws txn table).1 r = hget s0 r) ∧
    (∀ (i : Nat) (k : Key),
      iget (abort tm s1 ws txn table).1 i k = iget s0 i k) ∧
    (abort tm s1 ws txn table).2.1.state = LM.TransactionState.ABORTED ∧
    (abort tm s1 ws txn table).2.1.lock_set = [] ∧
    (∀ id ∈ txn.lock_set, ∀ q,
      LM.findQueue (abort tm s1 ws txn table).2.2 id = some q →
      ∀ r ∈ q.request_queue, r.txn_id ≠ txn.txn_id) := by
  have hWFs1 := applyOps_WF tm ops s0 s1 ws hWF happly
  obtain ⟨_, hh0, hi0⟩ := undoAll_restores tm ops s0 s1 ws hnoupd hWF happly
    s1 hWFs1 (fun r => rfl) (fun i k => rfl)
  refine ⟨hh0, hi0, rfl, rfl, ?_⟩
  intro id hid q hq
  exact releaseAll_clean txn.txn_id txn.lock_set txn table rfl
    hcommitted haborted hAMO id hid q hq

end TM

namespace TM

theorem abort_rolls_back_witness :
    applyOps ⟨[fun b => b.headD 0]⟩ ⟨[], [[]]⟩
      [Op.ins ⟨1, 0⟩ [5], Op.del ⟨1, 0⟩] =
      some (⟨[], [[]]⟩,
      [⟨WType.INSERT_TUPLE, ⟨1, 0⟩, [5],
        [⟨0, 5, ⟨1, 0⟩, IndexOpType.INDEX_INSERT⟩]⟩,
      ⟨WType.DELETE_TUPLE, ⟨1, 0⟩, [5],
        [⟨0, 5, ⟨1, 0⟩, IndexOpType.INDEX_DELETE⟩]⟩]) ∧
    ((abort ⟨[fun b => b.headD 0]⟩ ⟨[], [[]]⟩
      [⟨WType.INSERT_TUPLE, ⟨1, 0⟩, [5],
        [⟨0, 5, ⟨1, 0⟩, IndexOpType.INDEX_INSERT⟩]⟩,
      ⟨WType.DELETE_TUPLE, ⟨1, 0⟩, [5],
        [⟨0, 5, ⟨1, 0⟩, IndexOpType.INDEX_DELETE⟩]⟩]
      ⟨7, LM.TransactionState.GROWING, [⟨3, ⟨-1, -1⟩, LM.LockDataType.TABLE⟩]⟩
      [(⟨3, ⟨-1, -1⟩, LM.LockDataType.TABLE⟩,
      ⟨[⟨7, LM.LockMode.INTENTION_EXCLUSIVE, true⟩],
       LM.GroupLockMode.IX, 0, 1⟩)]).2.1.state = LM.TransactionState.ABORTED) ∧
    (∀ r, hget (abort ⟨[fun b => b.headD 0]⟩ ⟨[], [[]]⟩
      [⟨WType.INSERT_TUPLE, ⟨1, 0⟩, [5],
        [⟨0, 5, ⟨1, 0⟩, IndexOpType.INDEX_INSERT⟩]⟩,
      ⟨WType.DELETE_TUPLE, ⟨1, 0⟩, [5],
        [⟨0, 5, ⟨1, 0⟩, IndexOpType.INDEX_DELETE⟩]⟩]
      ⟨7, LM.TransactionState.GROWING, [⟨3, ⟨-1, -1⟩, LM.LockDataType.TABLE⟩]⟩
      [(⟨3, ⟨-1, -1⟩, LM.LockDataType.TABLE⟩,
      ⟨[⟨7, LM.LockMode.INTENTION_EXCLUSIVE, true⟩],
       LM.GroupLockMode.IX, 0, 1⟩)]).1 r = hget ⟨[], [[]]⟩ r) :=
  ⟨rfl,
   (abort_rolls_back ⟨[fun b => b.headD 0]⟩ ⟨[], [[]]⟩ ⟨[], [[]]⟩
      [Op.ins ⟨1, 0⟩ [5], Op.del ⟨1, 0⟩]
      [⟨WType.INSERT_TUPLE, ⟨1, 0⟩, [5],
        [⟨0, 5, ⟨1, 0⟩, IndexOpType.INDEX_INSERT⟩]⟩,
      ⟨WType.DELETE_TUPLE, ⟨1, 0⟩, [5],
        [⟨0, 5, ⟨1, 0⟩, IndexOpType.INDEX_DELETE⟩]⟩]
      ⟨7, LM.TransactionState.GROWING, [⟨3, ⟨-1, -1⟩, LM.LockDataType.TABLE⟩]⟩
      [(⟨3, ⟨-1, -1⟩, LM.LockDataType.TABLE⟩,
      ⟨[⟨7, LM.LockMode.INTENTION_EXCLUSIVE, true⟩],
       LM.GroupLockMode.IX, 0, 1⟩)]
      (by intro rid b2 h; simp at h)
      (by decide) rfl (by decide) (by decide) (by decide)).2.2.1,
   (abort_rolls_back ⟨[fun b => b.headD 0]⟩ ⟨[], [[]]⟩ ⟨[], [[]]⟩
      [Op.ins ⟨1, 0⟩ [5], Op.del ⟨1, 0⟩]
      [⟨WType.INSERT_TUPLE, ⟨1, 0⟩, [5],
        [⟨0, 5, ⟨1, 0⟩, IndexOpType.INDEX_INSERT⟩]⟩,
      ⟨WType.DELETE_TUPLE, ⟨1, 0⟩, [5],
        [⟨0, 5, ⟨1, 0⟩, IndexOpType.INDEX_DELETE⟩]⟩]
      ⟨7, LM.TransactionState.GROWING, [⟨3, ⟨-1, -1⟩, LM.LockDataType.TABLE⟩]⟩
      [(⟨3, ⟨-1, -1⟩, LM.LockDataType.TABLE⟩,
      ⟨[⟨7, LM.LockMode.INTENTION_EXCLUSIVE, true⟩],
       LM.GroupLockMode.IX, 0, 1⟩)]
      (by intro rid b2 h; simp at h)
      (by decide) rfl (by decide) (by decide) (by decide)).1⟩

end TM

namespace TM

/-- **C1 counterexample.** `UpdateExecutor::Next` appends no undo-log
entry (executor_update.h, lines 40-73, has no `append_write_record` and
no `AddIndexOp`), so a transaction consisting of one update leaves an
empty write set, `abort` replays nothing, and the updated bytes survive
the abort: the heap is not restored to its pre-transaction contents,
refuting the unconditional byte-identical rollback. -/
theorem update_without_undo_log :
    applyOps ⟨[]⟩ ⟨[(⟨1, 0⟩, [5])], []⟩ [Op.upd ⟨1, 0⟩ [7]] =
      some (⟨[(⟨1, 0⟩, [7])], []⟩, []) ∧
    hget (abort ⟨[]⟩ ⟨[(⟨1, 0⟩, [7])], []⟩ []
      ⟨7, LM.TransactionState.GROWING, []⟩ []).1 ⟨1, 0⟩ = some [7] ∧
    hget ⟨[(⟨1, 0⟩, [5])], []⟩ ⟨1, 0⟩ = some [5] ∧
    some ([7] : RM.Bytes) ≠ some ([5] : RM.Bytes) :=
  ⟨rfl, rfl, rfl, by decide⟩

end TM

/-!  ## Theorems about the B+ tree index  -/

namespace TM

theorem aset_same {κ α : Type} [DecidableEq κ] {l : List (κ × α)} {k : κ}
    {a : α} (h : alookup l k = some a) : aset l k a = l := by
  induction l with
  | nil => rfl
  | cons kv r ih =>
    rw [alookup_cons] at h
    unfold aset
    by_cases h0 : kv.1 = k
    · rw [if_pos h0]
      rw [if_pos h0] at h
      injection h with h
      rw [← h, ← h0]
    · rw [if_neg h0]
      rw [if_neg h0] at h
      rw [ih h]

end TM

namespace IX

theorem getNode_setNode_self {s : IxState} {p : Int} (n : IxNode)
    (h : (getNode s p).isSome) : getNode (setNode s p n) p = some n := by
  unfold getNode setNode at *
  exact TM.alookup_aset_self n h

theorem getNode_setNode_ne {s : IxState} {p p' : Int} (n : IxNode)
    (h : p' ≠ p) : getNode (setNode s p n) p' = getNode s p' := by
  unfold getNode setNode
  exact TM.alookup_aset_ne n h

theorem setNode_same {s : IxState} {p : Int} {n : IxNode}
    (h : getNode s p = some n) : setNode s p n = s := by
  unfold getNode at h
  unfold setNode
  rw [TM.aset_same h]

theorem IxNode.remove_absent (n : IxNode) (k : Int) (h : k ∉ n.keys) :
    n.remove k = n := by
  unfold IxNode.remove
  by_cases h1 : n.lower_bound k < n.keys.length ∧
      n.get_key (n.lower_bound k) = k
  · exfalso
    obtain ⟨h2, h3⟩ := h1
    apply h
    rw [← h3]
    unfold IxNode.get_key
    rw [List.getD_eq_getElem _ _ h2]
    exact List.getElem_mem h2
  · rw [if_neg h1]

/-- **C10.** `delete_entry` on a key present in no leaf the descent can
reach returns `false` and leaves the whole index — header fields, node
contents, leaf threading — exactly unchanged. -/
theorem delete_absent_key_noop (s : IxState) (k : Int)
    (habs : ∀ pno leaf, find_leaf_page s k = some pno →
      getNode s pno = some leaf → k ∉ leaf.keys) :
    delete_entry s k = (false, s) := by
  unfold delete_entry
  cases hfind : find_leaf_page s k with
  | none => rfl
  | some pno =>
    dsimp only
    cases hnode : getNode s pno with
    | none => rfl
    | some leaf =>
      have hk := habs pno leaf hfind hnode
      dsimp only
      rw [IxNode.remove_absent leaf k hk, setNode_same hnode]
      simp

end IX

namespace IX

theorem delete_absent_key_noop_witness :
    delete_entry ⟨⟨3, 2, 2, 2, 4⟩,
        [(2, ⟨true, IX_NO_PAGE, [5], [⟨1, 1⟩], IX_NO_PAGE, IX_NO_PAGE⟩)]⟩ 7 =
      (false, ⟨⟨3, 2, 2, 2, 4⟩,
        [(2, ⟨true, IX_NO_PAGE, [5], [⟨1, 1⟩], IX_NO_PAGE, IX_NO_PAGE⟩)]⟩) :=
  delete_absent_key_noop _ 7 (by
    intro pno leaf h1 h2
    have hp : (some 2 : Option Int) = some pno := h1
    injection hp with hp
    subst hp
    have hl : (some (⟨true, IX_NO_PAGE, [5], [⟨1, 1⟩], IX_NO_PAGE,
        IX_NO_PAGE⟩ : IxNode) : Option IxNode) = some leaf := h2
    injection hl with hl
    subst hl
    decide)

/-- **C7 counterexample.** On a one-leaf tree already mapping key 5 to
rid (1,1), `insert_entry(5, (2,2))` is a no-op of the duplicate-
rejecting node insert, and the following `get_value(5)` returns the
pre-existing rid (1,1), not the inserted (2,2) — refuting the
unconditional `insert(k,r); get(k) = r` round trip. -/
theorem insert_get_duplicate_key :
    get_value (insert_entry ⟨⟨3, 2, 2, 2, 4⟩,
        [(2, ⟨true, IX_NO_PAGE, [5], [⟨1, 1⟩], IX_NO_PAGE, IX_NO_PAGE⟩)]⟩
      5 ⟨2, 2⟩).2 5 = some ⟨1, 1⟩ ∧
    some (⟨1, 1⟩ : RM.Rid) ≠ some (⟨2, 2⟩ : RM.Rid) := by
  constructor
  · rfl
  · decide

end IX

namespace IX

theorem getNode_create_self (s : IxState) (x : IxNode)
    (h : getNode s s.hdr.num_pages = none) :
    getNode (create_node s x).1 s.hdr.num_pages = some x := by
  unfold create_node getNode at *
  exact TM.alookup_append_self x h

theorem getNode_create_ne (s : IxState) (x : IxNode) {p : Int}
    (h : p ≠ s.hdr.num_pages) :
    getNode (create_node s x).1 p = getNode s p := by
  unfold create_node getNode
  exact TM.alookup_append_ne x h

theorem setNode_hdr (s : IxState) (p : Int) (n : IxNode) :
    (setNode s p n).hdr = s.hdr := rfl

theorem getNode_sethdr (s : IxState) (h : IxFileHdr) (p : Int) :
    getNode { s with hdr := h } p = getNode s p := rfl

theorem split_thread_leaf_spec (s2 : IxState) (pno newPno oldNext : Int)
    (nw ol : IxNode)
    (hnw : getNode s2 newPno = some nw)
    (hol : getNode s2 pno = some ol)
    (hne1 : pno ≠ newPno)
    (hne2 : oldNext ≠ pno) (hne3 : oldNext ≠ newPno) :
    getNode (split_thread_leaf s2 pno newPno oldNext) newPno =
      some { nw with prev_leaf := pno, next_leaf := oldNext } ∧
    getNode (split_thread_leaf s2 pno newPno oldNext) pno =
      some { ol with next_leaf := newPno } ∧
    (∀ nx, oldNext ≠ IX_NO_PAGE → getNode s2 oldNext = some nx →
      getNode (split_thread_leaf s2 pno newPno oldNext) oldNext =
        some { nx with prev_leaf := newPno }) ∧
    (split_thread_leaf s2 pno newPno oldNext).hdr.last_leaf =
      (if s2.hdr.last_leaf = pno then newPno else s2.hdr.last_leaf) ∧
    (split_thread_leaf s2 pno newPno oldNext).hdr.num_pages =
      s2.hdr.num_pages ∧
    (split_thread_leaf s2 pno newPno oldNext).hdr.root_page =
      s2.hdr.root_page ∧
    (split_thread_leaf s2 pno newPno oldNext).hdr.max_size =
      s2.hdr.max_size := by
  have hner : newPno ≠ pno := fun h => hne1 h.symm
  have hner3 : newPno ≠ oldNext := fun h => hne3 h.symm
  have hner2 : pno ≠ oldNext := fun h => hne2 h.symm
  have hsome2 : (getNode s2 newPno).isSome := by rw [hnw]; rfl
  unfold split_thread_leaf
  rw [hnw]
  dsimp only
  have h3p : getNode (setNode s2 newPno
      { nw with prev_leaf := pno, next_leaf := oldNext }) pno = some ol := by
    rw [getNode_setNode_ne _ hne1]
    exact hol
  rw [h3p]
  dsimp only
  have hsome3 : (getNode (setNode s2 newPno
      { nw with prev_leaf := pno, next_leaf := oldNext }) pno).isSome := by
    rw [h3p]; rfl
  by_cases hnl : oldNext = IX_NO_PAGE
  · rw [if_neg (fun h : oldNext ≠ IX_NO_PAGE => h hnl)]
    rw [setNode_hdr, setNode_hdr]
    by_cases hll : s2.hdr.last_leaf = pno
    · rw [if_pos hll, if_pos hll]
      refine ⟨?_, ?_, ?_, rfl, rfl, rfl, rfl⟩
      · rw [getNode_sethdr, getNode_setNode_ne _ hner,
          getNode_setNode_self _ hsome2]
      · rw [getNode_sethdr, getNode_setNode_self _ hsome3]
      · intro nx h1 _
        exact absurd hnl h1
    · rw [if_neg hll, if_neg hll]
      refine ⟨?_, ?_, ?_, rfl, rfl, rfl, rfl⟩
      · rw [getNode_setNode_ne _ hner, getNode_setNode_self _ hsome2]
      · rw [getNode_setNode_self _ hsome3]
      · intro nx h1 _
        exact absurd hnl h1
  · rw [if_pos hnl]
    rw [getNode_setNode_ne _ hne2, getNode_setNode_ne _ hne3]
    cases hsnx : getNode s2 oldNext with
    | none =>
      dsimp only
      rw [setNode_hdr, setNode_hdr]
      by_cases hll : s2.hdr.last_leaf = pno
      · rw [if_pos hll, if_pos hll]
        refine ⟨?_, ?_, ?_, rfl, rfl, rfl, rfl⟩
        · rw [getNode_sethdr, getNode_setNode_ne _ hner,
            getNode_setNode_self _ hsome2]
        · rw [getNode_sethdr, getNode_setNode_self _ hsome3]
        · intro nx _ h2
          cases h2
      · rw [if_neg hll, if_neg hll]
        refine ⟨?_, ?_, ?_, rfl, rfl, rfl, rfl⟩
        · rw [getNode_setNode_ne _ hner, getNode_setNode_self _ hsome2]
        · rw [getNode_setNode_self _ hsome3]
        · intro nx _ h2
          cases h2
    | some nx0 =>
      dsimp only
      have hsome4 : (getNode (setNode (setNode s2 newPno
          { nw with prev_leaf := pno, next_leaf := oldNext }) pno
          { ol with next_leaf := newPno }) oldNext).isSome := by
        rw [getNode_setNode_ne _ hne2, getNode_setNode_ne _ hne3, hsnx]
        rfl
      rw [setNode_hdr, setNode_hdr, setNode_hdr]
      by_cases hll : s2.hdr.last_leaf = pno
      · rw [if_pos hll, if_pos hll]
        refine ⟨?_, ?_, ?_, rfl, rfl, rfl, rfl⟩
        · rw [getNode_sethdr, getNode_setNode_ne _ hner3,
            getNode_setNode_ne _ hner, getNode_setNode_self _ hsome2]
        · rw [getNode_sethdr, getNode_setNode_ne _ hner2,
            getNode_setNode_self _ hsome3]
        · intro nx _ h2
          injection h2 with h2
          subst h2
          rw [getNode_sethdr, getNode_setNode_self _ hsome4]
      · rw [if_neg hll, if_neg hll]
        refine ⟨?_, ?_, ?_, rfl, rfl, rfl, rfl⟩
        · rw [getNode_setNode_ne _ hner3, getNode_setNode_ne _ hner,
            getNode_setNode_self _ hsome2]
        · rw [getNode_setNode_ne _ hner2, getNode_setNode_self _ hsome3]
        · intro nx _ h2
          injection h2 with h2
          subst h2
          rw [getNode_setNode_self _ hsome4]

end IX

namespace IX

theorem create_node_snd (s : IxState) (x : IxNode) :
    (create_node s x).2 = s.hdr.num_pages := rfl

theorem create_node_hdr (s : IxState) (x : IxNode) :
    (create_node s x).1.hdr =
      { s.hdr with num_pages := s.hdr.num_pages + 1 } := rfl

theorem split_leaf_spec (s : IxState) (pno : Int) (nd : IxNode)
    (hnode : getNode s pno = some nd)
    (hleaf : nd.is_leaf = true)
    (hfresh : getNode s s.hdr.num_pages = none)
    (hnp : nd.next_leaf ≠ pno)
    (hnp2 : nd.next_leaf ≠ s.hdr.num_pages) :
    (split s pno).2 = s.hdr.num_pages ∧
    getNode (split s pno).1 s.hdr.num_pages =
      some { is_leaf := true, parent := nd.parent,
             keys := nd.keys.drop (nd.keys.length - nd.keys.length / 2),
             rids := nd.rids.drop (nd.keys.length - nd.keys.length / 2),
             prev_leaf := pno, next_leaf := nd.next_leaf } ∧
    getNode (split s pno).1 pno =
      some { nd with
             keys := nd.keys.take (nd.keys.length - nd.keys.length / 2),
             rids := nd.rids.take (nd.keys.length - nd.keys.length / 2),
             next_leaf := s.hdr.num_pages } ∧
    (∀ nx, nd.next_leaf ≠ IX_NO_PAGE → getNode s nd.next_leaf = some nx →
      getNode (split s pno).1 nd.next_leaf =
        some { nx with prev_leaf := s.hdr.num_pages }) ∧
    (split s pno).1.hdr.last_leaf =
      (if s.hdr.last_leaf = pno then s.hdr.num_pages
       else s.hdr.last_leaf) ∧
    (split s pno).1.hdr.num_pages = s.hdr.num_pages + 1 ∧
    (split s pno).1.hdr.max_size = s.hdr.max_size := by
  have hpn : pno ≠ s.hdr.num_pages := by
    intro h
    rw [h, hfresh] at hnode
    cases hnode
  unfold split
  rw [hnode]
  dsimp only
  rw [hleaf]
  simp only [if_true, create_node_snd]
  have hnw : getNode (setNode (create_node s
      { is_leaf := true, parent := nd.parent,
        keys := nd.keys.drop (nd.keys.length - nd.keys.length / 2),
        rids := nd.rids.drop (nd.keys.length - nd.keys.length / 2),
        prev_leaf := IX_NO_PAGE, next_leaf := IX_NO_PAGE }).1 pno
      { is_leaf := true, parent := nd.parent,
        keys := nd.keys.take (nd.keys.length - nd.keys.length / 2),
        rids := nd.rids.take (nd.keys.length - nd.keys.length / 2),
        prev_leaf := nd.prev_leaf, next_leaf := nd.next_leaf })
      s.hdr.num_pages = some
      { is_leaf := true, parent := nd.parent,
        keys := nd.keys.drop (nd.keys.length - nd.keys.length / 2),
        rids := nd.rids.drop (nd.keys.length - nd.keys.length / 2),
        prev_leaf := IX_NO_PAGE, next_leaf := IX_NO_PAGE } := by
    rw [getNode_setNode_ne _ (fun h => hpn h.symm)]
    exact getNode_create_self s _ hfresh
  have hol : getNode (setNode (create_node s
      { is_leaf := true, parent := nd.parent,
        keys := nd.keys.drop (nd.keys.length - nd.keys.length / 2),
        rids := nd.rids.drop (nd.keys.length - nd.keys.length / 2),
        prev_leaf := IX_NO_PAGE, next_leaf := IX_NO_PAGE }).1 pno
      { is_leaf := true, parent := nd.parent,
        keys := nd.keys.take (nd.keys.length - nd.keys.length / 2),
        rids := nd.rids.take (nd.keys.length - nd.keys.length / 2),
        prev_leaf := nd.prev_leaf, next_leaf := nd.next_leaf })
      pno = some
      { is_leaf := true, parent := nd.parent,
        keys := nd.keys.take (nd.keys.length - nd.keys.length / 2),
        rids := nd.rids.take (nd.keys.length - nd.keys.length / 2),
        prev_leaf := nd.prev_leaf, next_leaf := nd.next_leaf } := by
    refine getNode_setNode_self _ ?_
    rw [getNode_create_ne _ _ hpn, hnode]
    rfl
  obtain ⟨t1, t2, t3, t4, t5, t6⟩ :=
    split_thread_leaf_spec _ pno s.hdr.num_pages nd.next_leaf _ _
      hnw hol hpn hnp hnp2
  refine ⟨trivial, t1, t2, ?_, ?_, ?_, ?_⟩
  · intro nx h1 h2
    refine t3 nx h1 ?_
    rw [getNode_setNode_ne _ hnp, getNode_create_ne _ _ hnp2]
    exact h2
  · rw [t4, setNode_hdr, create_node_hdr]
  · rw [t5, setNode_hdr, create_node_hdr]
  · rw [t6.2, setNode_hdr, create_node_hdr]

end IX

namespace IX

theorem IxNode.insert_fields (n : IxNode) (k : Int) (r : RM.Rid) :
    (n.insert k r).is_leaf = n.is_leaf ∧ (n.insert k r).parent = n.parent ∧
    (n.insert k r).prev_leaf = n.prev_leaf ∧
    (n.insert k r).next_leaf = n.next_leaf := by
  unfold IxNode.insert IxNode.insert_pairs
  dsimp only
  split <;> exact ⟨rfl, rfl, rfl, rfl⟩

theorem ite_last_leaf_self (s1 : IxState) (pno : Int) :
    (if s1.hdr.last_leaf = pno then
      { s1 with hdr := { s1.hdr with last_leaf := pno } } else s1) = s1 := by
  split
  · next h => rw [← h]
  · rfl

/-- **C8.** When an insert brings a leaf to `size = max_size`,
`insert_entry` splits it: a fresh right sibling is allocated holding
exactly the upper `⌊max_size / 2⌋` entries while the lower half stays in
the node, the sibling is threaded in between the node and its old
successor (whose `prev_leaf` is repointed), `last_leaf` moves to the
sibling when the node was the last leaf, and the sibling's first key is
pushed into the parent via `insert_into_parent`. -/
theorem insert_at_max_size_splits (s : IxState) (k : Int) (r : RM.Rid)
    (pno : Int) (leaf : IxNode)
    (hfind : find_leaf_page s k = some pno)
    (hnode : getNode s pno = some leaf)
    (hleaf : leaf.is_leaf = true)
    (hroom : leaf.keys.length < s.hdr.max_size)
    (hfull : (leaf.insert k r).keys.length = s.hdr.max_size)
    (hfresh : getNode s s.hdr.num_pages = none)
    (hnp : leaf.next_leaf ≠ pno)
    (hnp2 : leaf.next_leaf ≠ s.hdr.num_pages) :
    (split (setNode s pno (leaf.insert k r)) pno).2 = s.hdr.num_pages ∧
    getNode (split (setNode s pno (leaf.insert k r)) pno).1
        s.hdr.num_pages =
      some { is_leaf := true, parent := leaf.parent,
             keys := (leaf.insert k r).keys.drop
               (s.hdr.max_size - s.hdr.max_size / 2),
             rids := (leaf.insert k r).rids.drop
               (s.hdr.max_size - s.hdr.max_size / 2),
             prev_leaf := pno, next_leaf := leaf.next_leaf } ∧
    ((leaf.insert k r).keys.drop
        (s.hdr.max_size - s.hdr.max_size / 2)).length =
      s.hdr.max_size / 2 ∧
    getNode (split (setNode s pno (leaf.insert k r)) pno).1 pno =
      some { leaf.insert k r with
             keys := (leaf.insert k r).keys.take
               (s.hdr.max_size - s.hdr.max_size / 2),
             rids := (leaf.insert k r).rids.take
               (s.hdr.max_size - s.hdr.max_size / 2),
             next_leaf := s.hdr.num_pages } ∧
    (∀ nx, leaf.next_leaf ≠ IX_NO_PAGE →
      getNode s leaf.next_leaf = some nx →
      getNode (split (setNode s pno (leaf.insert k r)) pno).1
          leaf.next_leaf = some { nx with prev_leaf := s.hdr.num_pages }) ∧
    (split (setNode s pno (leaf.insert k r)) pno).1.hdr.last_leaf =
      (if s.hdr.last_leaf = pno then s.hdr.num_pages
       else s.hdr.last_leaf) ∧
    insert_entry s k r = (pno,
      maintain_parent
        (insert_into_parent (split (setNode s pno (leaf.insert k r)) pno).1
          (s.pages.length + 1) pno
          (IxNode.get_key
            { is_leaf := true, parent := leaf.parent,
              keys := (leaf.insert k r).keys.drop
                (s.hdr.max_size - s.hdr.max_size / 2),
              rids := (leaf.insert k r).rids.drop
                (s.hdr.max_size - s.hdr.max_size / 2),
              prev_leaf := pno, next_leaf := leaf.next_leaf } 0)
          s.hdr.num_pages)
        (s.pages.length + 1) pno) := by
  obtain ⟨hf1, hf2, hf3, hf4⟩ := IxNode.insert_fields leaf k r
  have hpn : pno ≠ s.hdr.num_pages := by
    intro h
    rw [h, hfresh] at hnode
    cases hnode
  have hsome : (getNode s pno).isSome := by rw [hnode]; rfl
  have hnodeMid : getNode (setNode s pno (leaf.insert k r)) pno =
      some (leaf.insert k r) := getNode_setNode_self _ hsome
  have hleafMid : (leaf.insert k r).is_leaf = true := by rw [hf1]; exact hleaf
  have hfreshMid : getNode (setNode s pno (leaf.insert k r))
      (setNode s pno (leaf.insert k r)).hdr.num_pages = none := by
    rw [setNode_hdr, getNode_setNode_ne _ (fun h => hpn h.symm)]
    exact hfresh
  have hnpMid : (leaf.insert k r).next_leaf ≠ pno := by rw [hf4]; exact hnp
  have hnp2Mid : (leaf.insert k r).next_leaf ≠
      (setNode s pno (leaf.insert k r)).hdr.num_pages := by
    rw [hf4, setNode_hdr]; exact hnp2
  obtain ⟨t1, t2, t3, t4, t5, t6, t7⟩ := split_leaf_spec
    (setNode s pno (leaf.insert k r)) pno (leaf.insert k r)
    hnodeMid hleafMid hfreshMid hnpMid hnp2Mid
  rw [setNode_hdr] at t1 t2 t3 t4 t5 t6 t7
  rw [hfull] at t2 t3
  rw [hf2, hf4] at t2
  refine ⟨t1, t2, ?_, t3, ?_, ?_, ?_⟩
  · rw [List.length_drop, hfull]
    omega
  · intro nx h1 h2
    rw [hf4] at t4
    refine t4 nx h1 ?_
    rw [getNode_setNode_ne _ hnp]
    exact h2
  · exact t5
  · unfold insert_entry
    rw [hfind]
    dsimp only
    rw [hnode]
    dsimp only
    rw [ite_last_leaf_self, hfull, if_pos (le_refl _)]
    have hnotll : ¬ ((split (setNode s pno (leaf.insert k r)) pno).1.hdr.last_leaf
        = pno) := by
      rw [t5]
      by_cases hll : s.hdr.last_leaf = pno
      · rw [if_pos hll]
        exact fun h => hpn h.symm
      · rw [if_neg hll]
        exact hll
    rw [if_neg hnotll, t1, t2]

end IX

namespace IX

theorem insert_at_max_size_splits_witness :
    ((⟨true, IX_NO_PAGE, [10, 20, 30], [⟨1, 0⟩, ⟨1, 1⟩, ⟨1, 2⟩],
        IX_NO_PAGE, IX_NO_PAGE⟩ : IxNode).insert 25 ⟨1, 3⟩).keys.length
      = 4 ∧
    (split (setNode ⟨⟨3, 2, 2, 2, 4⟩,
        [(2, ⟨true, IX_NO_PAGE, [10, 20, 30], [⟨1, 0⟩, ⟨1, 1⟩, ⟨1, 2⟩],
          IX_NO_PAGE, IX_NO_PAGE⟩)]⟩ 2
        ((⟨true, IX_NO_PAGE, [10, 20, 30], [⟨1, 0⟩, ⟨1, 1⟩, ⟨1, 2⟩],
          IX_NO_PAGE, IX_NO_PAGE⟩ : IxNode).insert 25 ⟨1, 3⟩)) 2).2 = 3 ∧
    (((⟨true, IX_NO_PAGE, [10, 20, 30], [⟨1, 0⟩, ⟨1, 1⟩, ⟨1, 2⟩],
        IX_NO_PAGE, IX_NO_PAGE⟩ : IxNode).insert 25 ⟨1, 3⟩).keys.drop
        2).length = 2 :=
  ⟨by decide,
   (insert_at_max_size_splits ⟨⟨3, 2, 2, 2, 4⟩,
      [(2, ⟨true, IX_NO_PAGE, [10, 20, 30], [⟨1, 0⟩, ⟨1, 1⟩, ⟨1, 2⟩],
        IX_NO_PAGE, IX_NO_PAGE⟩)]⟩ 25 ⟨1, 3⟩ 2
      ⟨true, IX_NO_PAGE, [10, 20, 30], [⟨1, 0⟩, ⟨1, 1⟩, ⟨1, 2⟩],
        IX_NO_PAGE, IX_NO_PAGE⟩
      rfl rfl rfl (by decide) (by decide) rfl (by decide) (by decide)).1,
   (insert_at_max_size_splits ⟨⟨3, 2, 2, 2, 4⟩,
      [(2, ⟨true, IX_NO_PAGE, [10, 20, 30], [⟨1, 0⟩, ⟨1, 1⟩, ⟨1, 2⟩],
        IX_NO_PAGE, IX_NO_PAGE⟩)]⟩ 25 ⟨1, 3⟩ 2
      ⟨true, IX_NO_PAGE, [10, 20, 30], [⟨1, 0⟩, ⟨1, 1⟩, ⟨1, 2⟩],
        IX_NO_PAGE, IX_NO_PAGE⟩
      rfl rfl rfl (by decide) (by decide) rfl (by decide) (by decide)).2.2.1⟩

end IX

namespace IX

theorem getD_append_cons {α : Type} (l1 l2 : List α) (x d : α) :
    (l1 ++ x :: l2).getD l1.length d = x := by
  induction l1 with
  | nil => rfl
  | cons a t ih => simpa using ih

theorem eraseIdx_append_cons {α : Type} (l1 l2 : List α) (x : α) :
    (l1 ++ x :: l2).eraseIdx l1.length = l1 ++ l2 := by
  induction l1 with
  | nil => rfl
  | cons a t ih => simp [ih]

theorem sorted_getD_mono (l : List Int) (hs : List.Pairwise (· < ·) l)
    (i j : Nat) (hij : i ≤ j) (hj : j < l.length) :
    l.getD i 0 ≤ l.getD j 0 := by
  rcases Nat.lt_or_ge i j with h | h
  · have hi : i < l.length := lt_trans h hj
    rw [List.getD_eq_getElem _ _ hi, List.getD_eq_getElem _ _ hj]
    exact le_of_lt (List.pairwise_iff_getElem.mp hs i j hi hj h)
  · have he : i = j := Nat.le_antisymm hij h
    rw [he]

theorem sorted_pos_unique (l : List Int) (hs : List.Pairwise (· < ·) l)
    (i j : Nat) (hi : i < l.length) (hj : j < l.length)
    (he : l.getD i 0 = l.getD j 0) : i = j := by
  rcases Nat.lt_trichotomy i j with h | h | h
  · have hr := List.pairwise_iff_getElem.mp hs i j hi hj h
    rw [List.getD_eq_getElem _ _ hi, List.getD_eq_getElem _ _ hj] at he
    rw [he] at hr
    exact absurd hr (lt_irrefl _)
  · exact h
  · have hr := List.pairwise_iff_getElem.mp hs j i hj hi h
    rw [List.getD_eq_getElem _ _ hi, List.getD_eq_getElem _ _ hj] at he
    rw [he] at hr
    exact absurd hr (lt_irrefl _)

theorem lb_aux_le (keys : List Int) (t : Int) :
    ∀ (fuel left right : Nat), left ≤ right →
      lb_aux keys t fuel left right ≤ right := by
  intro fuel
  induction fuel with
  | zero => intro left right h; exact h
  | succ n ih =>
    intro left right h
    unfold lb_aux
    by_cases hlr : left < right
    · rw [if_pos hlr]
      dsimp only
      by_cases hm : keys.getD ((left + right) / 2) 0 < t
      · rw [if_pos hm]
        exact ih _ _ (by omega)
      · rw [if_neg hm]
        exact Nat.le_trans (ih _ _ (by omega)) (by omega)
    · rw [if_neg hlr]
      exact h

theorem lb_aux_spec (keys : List Int) (t : Int)
    (hmono : ∀ i j : Nat, i ≤ j → j < keys.length →
      keys.getD i 0 ≤ keys.getD j 0) :
    ∀ (fuel left right : Nat), right ≤ keys.length → left ≤ right →
      right - left ≤ fuel →
      (∀ i : Nat, i < left → keys.getD i 0 < t) →
      (∀ i : Nat, right ≤ i → i < keys.length → ¬ keys.getD i 0 < t) →
      (∀ i : Nat, i < lb_aux keys t fuel left right → keys.getD i 0 < t) ∧
      (∀ i : Nat, lb_aux keys t fuel left right ≤ i → i < keys.length →
        ¬ keys.getD i 0 < t) := by
  intro fuel
  induction fuel with
  | zero =>
    intro left right hrlen hlr hfuel hbef haft
    have he : left = right := by omega
    subst he
    exact ⟨hbef, haft⟩
  | succ n ih =>
    intro left right hrlen hlr hfuel hbef haft
    unfold lb_aux
    by_cases hlr2 : left < right
    · rw [if_pos hlr2]
      dsimp only
      by_cases hm : keys.getD ((left + right) / 2) 0 < t
      · rw [if_pos hm]
        exact ih ((left + right) / 2 + 1) right hrlen (by omega) (by omega)
          (fun i hi => lt_of_le_of_lt
            (hmono i ((left + right) / 2) (by omega) (by omega)) hm)
          haft
      · rw [if_neg hm]
        exact ih left ((left + right) / 2) (by omega) (by omega) (by omega)
          hbef
          (fun i h1 h2 hcon =>
            hm (lt_of_le_of_lt (hmono ((left + right) / 2) i h1 h2) hcon))
    · rw [if_neg hlr2]
      exact ⟨hbef, fun i h1 h2 => haft i (by omega) h2⟩

theorem lower_bound_le (n : IxNode) (t : Int) :
    n.lower_bound t ≤ n.keys.length := by
  unfold IxNode.lower_bound
  exact lb_aux_le n.keys t n.keys.length 0 n.keys.length (Nat.zero_le _)

theorem lower_bound_before_after (n : IxNode) (t : Int)
    (hs : List.Pairwise (· < ·) n.keys) :
    (∀ i : Nat, i < n.lower_bound t → n.keys.getD i 0 < t) ∧
    (∀ i : Nat, n.lower_bound t ≤ i → i < n.keys.length →
      ¬ n.keys.getD i 0 < t) := by
  unfold IxNode.lower_bound
  exact lb_aux_spec n.keys t
    (fun i j hij hj => sorted_getD_mono n.keys hs i j hij hj)
    n.keys.length 0 n.keys.length (le_refl _) (Nat.zero_le _) (by omega)
    (fun i hi => absurd hi (Nat.not_lt_zero i))
    (fun i h1 h2 => absurd h2 (Nat.not_lt.mpr h1))

theorem lower_bound_getD_of_mem (n : IxNode) (k : Int)
    (hs : List.Pairwise (· < ·) n.keys) (hmem : k ∈ n.keys) :
    n.lower_bound k < n.keys.length ∧
    n.keys.getD (n.lower_bound k) 0 = k := by
  obtain ⟨hbef, haft⟩ := lower_bound_before_after n k hs
  obtain ⟨j, hj, hget⟩ := List.mem_iff_getElem.mp hmem
  have hjD : n.keys.getD j 0 = k := by
    rw [List.getD_eq_getElem _ _ hj]
    exact hget
  have hlbj : n.lower_bound k ≤ j := by
    by_contra hcon
    have hlt := hbef j (by omega)
    rw [hjD] at hlt
    exact absurd hlt (lt_irrefl k)
  have hlt : n.lower_bound k < n.keys.length := Nat.lt_of_le_of_lt hlbj hj
  refine ⟨hlt, ?_⟩
  have h1 : ¬ n.keys.getD (n.lower_bound k) 0 < k := haft _ (le_refl _) hlt
  have h2 := sorted_getD_mono n.keys hs (n.lower_bound k) j hlbj hj
  rw [hjD] at h2
  omega

end IX

namespace IX

theorem mem_getD (l : List Int) (x : Int) (hx : x ∈ l) :
    ∃ i : Nat, i < l.length ∧ l.getD i 0 = x := by
  induction l with
  | nil => cases hx
  | cons a t ih =>
    rcases List.mem_cons.mp hx with h | h
    · exact ⟨0, Nat.succ_pos _, by simp [h]⟩
    · obtain ⟨i, h1, h2⟩ := ih h
      exact ⟨i + 1, by simpa using Nat.succ_lt_succ h1, by simpa using h2⟩

theorem drop_mem_getD (l : List Int) (p : Nat) (x : Int)
    (hx : x ∈ l.drop p) :
    ∃ i : Nat, p ≤ i ∧ i < l.length ∧ l.getD i 0 = x := by
  induction l generalizing p with
  | nil => rw [List.drop_nil] at hx; cases hx
  | cons a t ih =>
    cases p with
    | zero =>
      rw [List.drop_zero] at hx
      obtain ⟨i, h1, h2⟩ := mem_getD _ _ hx
      exact ⟨i, Nat.zero_le _, h1, h2⟩
    | succ q =>
      rw [List.drop_succ_cons] at hx
      obtain ⟨i, h1, h2, h3⟩ := ih q hx
      exact ⟨i + 1, Nat.succ_le_succ h1, by simpa using Nat.succ_lt_succ h2,
        by simpa using h3⟩

theorem take_mem_getD (l : List Int) (p : Nat) (x : Int)
    (hx : x ∈ l.take p) :
    ∃ i : Nat, i < p ∧ i < l.length ∧ l.getD i 0 = x := by
  induction l generalizing p with
  | nil => rw [List.take_nil] at hx; cases hx
  | cons a t ih =>
    cases p with
    | zero => rw [List.take_zero] at hx; cases hx
    | succ q =>
      rw [List.take_succ_cons] at hx
      rcases List.mem_cons.mp hx with h | h
      · exact ⟨0, Nat.succ_pos _, Nat.succ_pos _, by simp [h]⟩
      · obtain ⟨i, h1, h2, h3⟩ := ih q h
        exact ⟨i + 1, Nat.succ_lt_succ h1, by simpa using Nat.succ_lt_succ h2,
          by simpa using h3⟩

theorem sorted_splice (keys : List Int) (k : Int) (pos : Nat)
    (hs : List.Pairwise (· < ·) keys)
    (hlt : ∀ i : Nat, i < pos → keys.getD i 0 < k)
    (hgt : ∀ i : Nat, pos ≤ i → i < keys.length → k < keys.getD i 0) :
    List.Pairwise (· < ·) (keys.take pos ++ k :: keys.drop pos) := by
  rw [List.pairwise_append]
  refine ⟨hs.sublist (List.take_sublist _ _), ?_, ?_⟩
  · rw [List.pairwise_cons]
    refine ⟨?_, hs.sublist (List.drop_sublist _ _)⟩
    intro y hy
    obtain ⟨i, h1, h2, h3⟩ := drop_mem_getD keys pos y hy
    rw [← h3]
    exact hgt i h1 h2
  · intro x hx y hy
    obtain ⟨i, h1, h2, h3⟩ := take_mem_getD keys pos x hx
    have hxk : x < k := by
      rw [← h3]
      exact hlt i h1
    rcases List.mem_cons.mp hy with h | h
    · rw [h]
      exact hxk
    · have hky : k < y := by
        obtain ⟨j, g1, g2, g3⟩ := drop_mem_getD keys pos y h
        rw [← g3]
        exact hgt j g1 g2
      exact lt_trans hxk hky

theorem insert_guard_absent (n : IxNode) (k : Int) (habs : k ∉ n.keys) :
    ¬ (n.lower_bound k < n.keys.length ∧
      n.get_key (n.lower_bound k) = k) := by
  intro h
  apply habs
  rw [← h.2]
  unfold IxNode.get_key
  rw [List.getD_eq_getElem _ _ h.1]
  exact List.getElem_mem h.1

theorem insert_absent_eq (n : IxNode) (k : Int) (r : RM.Rid)
    (habs : k ∉ n.keys) :
    n.insert k r = { n with
      keys := n.keys.take (n.lower_bound k) ++
        k :: n.keys.drop (n.lower_bound k),
      rids := n.rids.take (n.lower_bound k) ++
        r :: n.rids.drop (n.lower_bound k) } := by
  unfold IxNode.insert
  dsimp only
  rw [if_neg (insert_guard_absent n k habs)]
  unfold IxNode.insert_pairs
  simp

theorem insert_keys_length (n : IxNode) (k : Int) (r : RM.Rid)
    (habs : k ∉ n.keys) :
    (n.insert k r).keys.length = n.keys.length + 1 := by
  rw [insert_absent_eq n k r habs]
  dsimp only
  rw [List.length_append, List.length_cons, List.length_take,
    List.length_drop]
  omega

end IX

namespace IX

theorem lower_bound_insert (n : IxNode) (k : Int) (r : RM.Rid)
    (hs : List.Pairwise (· < ·) n.keys) (habs : k ∉ n.keys) :
    List.Pairwise (· < ·) (n.insert k r).keys ∧
    (n.insert k r).lower_bound k = n.lower_bound k ∧
    n.lower_bound k < (n.insert k r).keys.length ∧
    (n.insert k r).keys.getD (n.lower_bound k) 0 = k := by
  obtain ⟨hbef, haft⟩ := lower_bound_before_after n k hs
  have hgt : ∀ i : Nat, n.lower_bound k ≤ i → i < n.keys.length →
      k < n.keys.getD i 0 := by
    intro i h1 h2
    have h3 := haft i h1 h2
    have h4 : n.keys.getD i 0 ≠ k := by
      intro he
      apply habs
      rw [← he]
      rw [List.getD_eq_getElem _ _ h2]
      exact List.getElem_mem h2
    omega
  have hs2 : List.Pairwise (· < ·) (n.insert k r).keys := by
    rw [insert_absent_eq n k r habs]
    exact sorted_splice n.keys k (n.lower_bound k) hs hbef hgt
  have hlen2 : (n.insert k r).keys.length = n.keys.length + 1 :=
    insert_keys_length n k r habs
  have hposlen : n.lower_bound k < (n.insert k r).keys.length := by
    rw [hlen2]
    exact Nat.lt_succ_of_le (lower_bound_le n k)
  have htake : (n.keys.take (n.lower_bound k)).length = n.lower_bound k := by
    rw [List.length_take]
    exact Nat.min_eq_left (lower_bound_le n k)
  have hgetpos : (n.insert k r).keys.getD (n.lower_bound k) 0 = k := by
    rw [insert_absent_eq n k r habs]
    dsimp only
    have h := getD_append_cons (n.keys.take (n.lower_bound k))
      (n.keys.drop (n.lower_bound k)) k 0
    rw [htake] at h
    exact h
  have hmem : k ∈ (n.insert k r).keys := by
    have hm := List.getElem_mem hposlen
    have hg2 := hgetpos
    rw [List.getD_eq_getElem _ _ hposlen] at hg2
    rw [hg2] at hm
    exact hm
  obtain ⟨hlb2len, hlb2get⟩ := lower_bound_getD_of_mem (n.insert k r) k
    hs2 hmem
  have heq : (n.insert k r).lower_bound k = n.lower_bound k :=
    sorted_pos_unique (n.insert k r).keys hs2 _ _ hlb2len hposlen
      (by rw [hlb2get, hgetpos])
  exact ⟨hs2, heq, hposlen, hgetpos⟩

theorem insert_rids_getD (n : IxNode) (k : Int) (r : RM.Rid)
    (hlen : n.rids.length = n.keys.length) (habs : k ∉ n.keys) :
    (n.insert k r).rids.getD (n.lower_bound k) ⟨IX_NO_PAGE, -1⟩ = r := by
  rw [insert_absent_eq n k r habs]
  dsimp only
  have htake : (n.rids.take (n.lower_bound k)).length = n.lower_bound k := by
    rw [List.length_take]
    refine Nat.min_eq_left ?_
    rw [hlen]
    exact lower_bound_le n k
  have h := getD_append_cons (n.rids.take (n.lower_bound k))
    (n.rids.drop (n.lower_bound k)) r (⟨IX_NO_PAGE, -1⟩ : RM.Rid)
  rw [htake] at h
  exact h

theorem leaf_lookup_insert (n : IxNode) (k : Int) (r : RM.Rid)
    (hs : List.Pairwise (· < ·) n.keys)
    (hlen : n.rids.length = n.keys.length) (habs : k ∉ n.keys) :
    (n.insert k r).leaf_lookup k = some r := by
  obtain ⟨hs2, heq, hposlen, hgetpos⟩ := lower_bound_insert n k r hs habs
  unfold IxNode.leaf_lookup
  dsimp only
  rw [heq]
  rw [if_pos hposlen]
  have hgk : (n.insert k r).get_key (n.lower_bound k) = k := hgetpos
  rw [if_pos hgk]
  rw [insert_rids_getD n k r hlen habs]

theorem remove_insert (n : IxNode) (k : Int) (r : RM.Rid)
    (hs : List.Pairwise (· < ·) n.keys)
    (hlen : n.rids.length = n.keys.length) (habs : k ∉ n.keys) :
    (n.insert k r).remove k = n := by
  obtain ⟨hs2, heq, hposlen, hgetpos⟩ := lower_bound_insert n k r hs habs
  unfold IxNode.remove
  dsimp only
  rw [heq]
  have hgk : (n.insert k r).get_key (n.lower_bound k) = k := hgetpos
  rw [if_pos ⟨hposlen, hgk⟩]
  unfold IxNode.erase_pair
  rw [insert_absent_eq n k r habs]
  dsimp only
  have htake : (n.keys.take (n.lower_bound k)).length = n.lower_bound k := by
    rw [List.length_take]
    exact Nat.min_eq_left (lower_bound_le n k)
  have htkr : (n.rids.take (n.lower_bound k)).length = n.lower_bound k := by
    rw [List.length_take]
    refine Nat.min_eq_left ?_
    rw [hlen]
    exact lower_bound_le n k
  have h1 := eraseIdx_append_cons (n.keys.take (n.lower_bound k))
    (n.keys.drop (n.lower_bound k)) k
  rw [htake] at h1
  have h2 := eraseIdx_append_cons (n.rids.take (n.lower_bound k))
    (n.rids.drop (n.lower_bound k)) r
  rw [htkr] at h2
  rw [h1, h2, List.take_append_drop, List.take_append_drop]

end IX

namespace IX

theorem aset_aset {κ α : Type} [DecidableEq κ] (l : List (κ × α)) (k : κ)
    (a b : α) : TM.aset (TM.aset l k a) k b = TM.aset l k b := by
  induction l with
  | nil => rfl
  | cons kv r ih =>
    by_cases h : kv.1 = k
    · simp [TM.aset, h]
    · simp [TM.aset, h, ih]

theorem setNode_setNode (s : IxState) (p : Int) (a b : IxNode) :
    setNode (setNode s p a) p b = setNode s p b := by
  unfold setNode
  dsimp only
  rw [aset_aset]

theorem leaf_lookup_absent (n : IxNode) (k : Int) (habs : k ∉ n.keys) :
    n.leaf_lookup k = none := by
  unfold IxNode.leaf_lookup
  dsimp only
  by_cases h1 : n.lower_bound k < n.keys.length
  · rw [if_pos h1]
    have h2 : ¬ n.get_key (n.lower_bound k) = k := by
      intro he
      apply habs
      rw [← he]
      unfold IxNode.get_key
      rw [List.getD_eq_getElem _ _ h1]
      exact List.getElem_mem h1
    rw [if_neg h2]
  · rw [if_neg h1]

theorem find_leaf_root_leaf (s : IxState) (k : Int) (pno : Int)
    (leaf : IxNode) (hroot : s.hdr.root_page = pno)
    (hpno : pno ≠ IX_NO_PAGE) (hnode : getNode s pno = some leaf)
    (hleaf : leaf.is_leaf = true) :
    find_leaf_page s k = some pno := by
  unfold find_leaf_page
  rw [hroot, if_neg hpno]
  unfold find_leaf_aux
  rw [hnode]
  dsimp only
  rw [if_pos hleaf]

theorem get_value_root_leaf (s : IxState) (k : Int) (pno : Int)
    (leaf : IxNode) (hroot : s.hdr.root_page = pno)
    (hpno : pno ≠ IX_NO_PAGE) (hnode : getNode s pno = some leaf)
    (hleaf : leaf.is_leaf = true) :
    get_value s k = leaf.leaf_lookup k := by
  unfold get_value
  rw [find_leaf_root_leaf s k pno leaf hroot hpno hnode hleaf]
  dsimp only
  rw [hnode]

theorem maintain_parent_root (s : IxState) (pno : Int) (nd : IxNode)
    (fuel : Nat) (hnode : getNode s pno = some nd)
    (hparent : nd.parent = IX_NO_PAGE) :
    maintain_parent s (fuel + 1) pno = s := by
  unfold maintain_parent
  rw [hnode]
  dsimp only
  rw [if_pos hparent]

theorem insert_entry_root_leaf (s : IxState) (k : Int) (r : RM.Rid)
    (pno : Int) (leaf : IxNode)
    (hroot : s.hdr.root_page = pno) (hpno : pno ≠ IX_NO_PAGE)
    (hnode : getNode s pno = some leaf) (hleaf : leaf.is_leaf = true)
    (hparent : leaf.parent = IX_NO_PAGE) (habs : k ∉ leaf.keys)
    (hroom : leaf.keys.length + 1 < s.hdr.max_size) :
    insert_entry s k r = (pno, setNode s pno (leaf.insert k r)) := by
  unfold insert_entry
  rw [find_leaf_root_leaf s k pno leaf hroot hpno hnode hleaf]
  dsimp only
  rw [hnode]
  dsimp only
  rw [ite_last_leaf_self]
  rw [if_neg (by rw [insert_keys_length leaf k r habs]; omega)]
  rw [maintain_parent_root (setNode s pno (leaf.insert k r)) pno
    (leaf.insert k r) s.pages.length
    (getNode_setNode_self _ (by rw [hnode]; rfl))
    (by rw [(IxNode.insert_fields leaf k r).2.1]; exact hparent)]

end IX

namespace IX

/-- **C7 (amended).** `IxNodeHandle::insert` rejects duplicate keys, so
the unconditional insert/get round trip of the spec fails (see the
separate counterexample); for a fresh key the round trip does hold.  On
a root-leaf tree with strictly sorted keys, parallel rid array, a key
`k` not yet present, and room below `max_size`: `get_value` misses
before the insert, `insert_entry` followed by `get_value` returns
exactly the inserted rid, `delete_entry` of `k` then returns `true` and
restores the original index state byte for byte, and a final
`get_value` misses again. -/
theorem insert_get_delete_round_trip (s : IxState) (k : Int) (r : RM.Rid)
    (pno : Int) (leaf : IxNode)
    (hroot : s.hdr.root_page = pno)
    (hpno : pno ≠ IX_NO_PAGE)
    (hnode : getNode s pno = some leaf)
    (hleaf : leaf.is_leaf = true)
    (hparent : leaf.parent = IX_NO_PAGE)
    (hs : List.Pairwise (· < ·) leaf.keys)
    (hlen : leaf.rids.length = leaf.keys.length)
    (habs : k ∉ leaf.keys)
    (hne : leaf.keys ≠ [])
    (hroom : leaf.keys.length + 1 < s.hdr.max_size) :
    get_value s k = none ∧
    get_value (insert_entry s k r).2 k = some r ∧
    delete_entry (insert_entry s k r).2 k = (true, s) ∧
    get_value (delete_entry (insert_entry s k r).2 k).2 k = none := by
  have hins := insert_entry_root_leaf s k r pno leaf hroot hpno hnode hleaf
    hparent habs hroom
  have hsome : (getNode s pno).isSome := by rw [hnode]; rfl
  have hnode2 : getNode (setNode s pno (leaf.insert k r)) pno =
      some (leaf.insert k r) := getNode_setNode_self _ hsome
  have hfields := IxNode.insert_fields leaf k r
  have hleaf2 : (leaf.insert k r).is_leaf = true := by
    rw [hfields.1]
    exact hleaf
  have hroot2 : (setNode s pno (leaf.insert k r)).hdr.root_page = pno := by
    rw [setNode_hdr]
    exact hroot
  have c1 : get_value s k = none := by
    rw [get_value_root_leaf s k pno leaf hroot hpno hnode hleaf]
    exact leaf_lookup_absent leaf k habs
  have c2 : get_value (insert_entry s k r).2 k = some r := by
    rw [hins]
    dsimp only
    rw [get_value_root_leaf _ k pno (leaf.insert k r) hroot2 hpno hnode2
      hleaf2]
    exact leaf_lookup_insert leaf k r hs hlen habs
  have c3 : delete_entry (insert_entry s k r).2 k = (true, s) := by
    rw [hins]
    dsimp only
    unfold delete_entry
    rw [find_leaf_root_leaf _ k pno (leaf.insert k r) hroot2 hpno hnode2
      hleaf2]
    dsimp only
    rw [hnode2]
    dsimp only
    rw [remove_insert leaf k r hs hlen habs]
    rw [insert_keys_length leaf k r habs]
    rw [if_pos (Nat.lt_succ_self _)]
    rw [if_pos hparent]
    rw [setNode_setNode, setNode_same hnode]
    unfold adjust_root
    rw [hnode]
    dsimp only
    rw [if_neg (fun h => h.1 hleaf)]
    rw [if_neg (fun h => hne (List.length_eq_zero.mp h.2))]
  have c4 : get_value (delete_entry (insert_entry s k r).2 k).2 k = none := by
    rw [c3]
    exact c1
  exact ⟨c1, c2, c3, c4⟩

end IX

namespace IX

theorem insert_get_delete_round_trip_witness :
    (7 : Int) ∉ [(5 : Int), 9] ∧
    (get_value ⟨⟨3, 2, 2, 2, 4⟩,
        [(2, ⟨true, IX_NO_PAGE, [5, 9], [⟨1, 1⟩, ⟨1, 2⟩], IX_NO_PAGE,
          IX_NO_PAGE⟩)]⟩ 7 = none ∧
      get_value (insert_entry ⟨⟨3, 2, 2, 2, 4⟩,
        [(2, ⟨true, IX_NO_PAGE, [5, 9], [⟨1, 1⟩, ⟨1, 2⟩], IX_NO_PAGE,
          IX_NO_PAGE⟩)]⟩ 7 ⟨2, 2⟩).2 7 = some ⟨2, 2⟩ ∧
      delete_entry (insert_entry ⟨⟨3, 2, 2, 2, 4⟩,
        [(2, ⟨true, IX_NO_PAGE, [5, 9], [⟨1, 1⟩, ⟨1, 2⟩], IX_NO_PAGE,
          IX_NO_PAGE⟩)]⟩ 7 ⟨2, 2⟩).2 7 =
        (true, ⟨⟨3, 2, 2, 2, 4⟩,
          [(2, ⟨true, IX_NO_PAGE, [5, 9], [⟨1, 1⟩, ⟨1, 2⟩], IX_NO_PAGE,
            IX_NO_PAGE⟩)]⟩) ∧
      get_value (delete_entry (insert_entry ⟨⟨3, 2, 2, 2, 4⟩,
        [(2, ⟨true, IX_NO_PAGE, [5, 9], [⟨1, 1⟩, ⟨1, 2⟩], IX_NO_PAGE,
          IX_NO_PAGE⟩)]⟩ 7 ⟨2, 2⟩).2 7).2 7 = none) :=
  ⟨by decide,
   insert_get_delete_round_trip ⟨⟨3, 2, 2, 2, 4⟩,
      [(2, ⟨true, IX_NO_PAGE, [5, 9], [⟨1, 1⟩, ⟨1, 2⟩], IX_NO_PAGE,
        IX_NO_PAGE⟩)]⟩ 7 ⟨2, 2⟩ 2
      ⟨true, IX_NO_PAGE, [5, 9], [⟨1, 1⟩, ⟨1, 2⟩], IX_NO_PAGE, IX_NO_PAGE⟩
      rfl (by decide) rfl rfl rfl (by decide) rfl (by decide) (by decide)
      (by decide)⟩

end IX
